import Mathlib

/-!
# gopp: dependency graph to treemap

A shallow embedding of `main.go`: the naming rule `ShortName`, the parse loop of
`main` (edge parser and graph builder) and `GenTreeNodeByDependency` (tree
materializer), followed by the properties proved about them.

Modelling conventions.

* A Go `string` is a sequence of bytes: `GoString = List Nat`, each element standing
  for one byte. `len` is the number of bytes; in Go it is an `int`, and a statement that
  needs the length of the input buffer to be below `2 ^ 63` says so.
* A `*TreeNode` is an address: `0` is `nil`, address `p + 1` is cell `p` of the heap.
  `&TreeNode{...}` allocates a new cell at the end of the heap.
* A `map[string]*TreeNode` is an association list with one entry per key, in order of
  first insertion. Go leaves the iteration order of a map unspecified, so statements
  about the returned collection are made up to order.
* Go `int` is a 64-bit two's complement integer; `+=` wraps.
* A run-time panic (nil dereference, index out of range) is `none`.
-/

namespace Gopp

/-! ## Strings and the library functions used by the program -/

/-- Go string, as its sequence of bytes. -/
abbrev GoString := List Nat

/-- Bytes of an ASCII literal. -/
def str (s : String) : GoString := s.toList.map Char.toNat

/-- Byte `/`. -/
abbrev slash : Nat := 47
/-- Byte `@`. -/
abbrev atSign : Nat := 64
/-- Byte of the space character. -/
abbrev space : Nat := 32
/-- Byte `\n`. -/
abbrev newline : Nat := 10

/-- Go `strings.Split(s, sep)` for a one-byte separator: the pieces between
occurrences of `sep`; always at least one piece. -/
def Split (sep : Nat) : GoString → List GoString
  | [] => [[]]
  | b :: rest =>
    if b = sep then [] :: Split sep rest
    else
      match Split sep rest with
      | [] => [[b]]
      | p :: ps => (b :: p) :: ps

/-- Membership in the cutset `" \t\r\n"` of the two `strings.Trim` calls. -/
def inCutset (b : Nat) : Bool := b == 32 || b == 9 || b == 13 || b == 10

/-- Go `strings.Trim(s, " \t\r\n")`: leading and trailing cutset bytes removed. -/
def Trim (s : GoString) : GoString :=
  ((s.dropWhile inCutset).reverse.dropWhile inCutset).reverse

/-- Go `strings.TrimRight(s, "/")`: trailing `/` bytes removed. -/
def TrimRight (s : GoString) : GoString :=
  (s.reverse.dropWhile (fun b => b == slash)).reverse

/-- Go `strings.ContainsAny(s, "/")`. -/
def ContainsAny (s : GoString) : Bool := s.any (fun b => b == slash)

/-- Go `strings.LastIndex(s, sep)` for a one-byte separator; `none` is Go's `-1`. -/
def LastIndex (sep : Nat) : GoString → Option Nat
  | [] => none
  | b :: rest =>
    match LastIndex sep rest with
    | some i => some (i + 1)
    | none => if b = sep then some 0 else none

/-- Go `path.Split`: `i := LastIndex(path, "/"); return path[:i+1], path[i+1:]`. -/
def pathSplit (path : GoString) : GoString × GoString :=
  match LastIndex slash path with
  | some i => (path.take (i + 1), path.drop (i + 1))
  | none => ([], path)

/-- Go `path.Base`: `"."` for the empty path; otherwise trailing slashes are stripped,
the text after the last remaining `/` is taken, and `"/"` is returned if that is empty. -/
def Base (path : GoString) : GoString :=
  if path = [] then [46]
  else
    let p := TrimRight path
    let q := match LastIndex slash p with
      | some i => p.drop (i + 1)
      | none => p
    if q = [] then [slash] else q

/-- Source `ShortName`. -/
def ShortName (name : GoString) : GoString :=
  let longP := (pathSplit name).1
  let short := (pathSplit name).2
  if short.length ≤ 2 then Base (TrimRight longP) else short

/-- Go `int` addition: 64-bit two's complement, wrapping. -/
def addInt (a b : Int) : Int := (a + b + 2 ^ 63) % 2 ^ 64 - 2 ^ 63

/-! ## Data model -/

/-- Source `TreeNode`; `Children` holds the addresses of the pointed-to nodes. -/
structure TreeNode where
  Name : GoString
  Value : Int
  Path : GoString
  Children : List Nat
deriving DecidableEq, Repr

/-- The store of `TreeNode` records: address `p + 1` is cell `p`. -/
abbrev Heap := List TreeNode

/-- Dereference of a `*TreeNode`; `none` for `nil` is a nil-dereference panic. -/
def deref (h : Heap) (p : Nat) : Option TreeNode :=
  match p with
  | 0 => none
  | q + 1 => h[q]?

/-- Allocation `&TreeNode{...}`: the new heap and the address of the new record. -/
def alloc (h : Heap) (n : TreeNode) : Heap × Nat := (h ++ [n], h.length + 1)

/-- Assignment to the record at address `p` (no effect on `nil`; every use below
follows a successful dereference of `p`). -/
def store (h : Heap) (p : Nat) (n : TreeNode) : Heap :=
  match p with
  | 0 => h
  | q + 1 => h.set q n

/-- Go `map[string]*TreeNode`. -/
abbrev NodeMap := List (GoString × Nat)

/-- Map read `m[k]` with the comma-ok flag: `none` when `k` is not a key. -/
def mapGet : NodeMap → GoString → Option Nat
  | [], _ => none
  | (k', v) :: rest, k => if k' = k then some v else mapGet rest k

/-- Map write `m[k] = v`. -/
def mapSet : NodeMap → GoString → Nat → NodeMap
  | [], k, v => [(k, v)]
  | (k', v') :: rest, k, v =>
    if k' = k then (k', v) :: rest else (k', v') :: mapSet rest k v

/-- Keys of a map. -/
def keys (m : NodeMap) : List GoString := m.map Prod.fst

/-! ## The parse loop of `main` (lines 229-291) -/

/-- The variables of the parse loop: the heap, the map `nodes` and `startNode`. -/
structure ParseState where
  heap : Heap
  nodes : NodeMap
  startNode : GoString
deriving DecidableEq, Repr

/-- Index `[0]` of the result of `strings.Split`, which is never empty. -/
def firstPiece : List GoString → GoString
  | [] => []
  | p :: _ => p

/-- Lines 240-244: `headName` and `tailName` of a record. `none` is the index-out-of-range
panic of `parts[1]` when the record contains no space. -/
def tokens (line : GoString) : Option (GoString × GoString) :=
  match Split space line with
  | p0 :: p1 :: _ =>
    some (firstPiece (Split atSign (Trim p0)), firstPiece (Split atSign (Trim p1)))
  | _ => none

/-- Lines 260-269 (and 270-279): the node of `name` in the map, created with value 1 and
no children when absent. -/
def getOrCreate (h : Heap) (m : NodeMap) (name : GoString) : Heap × NodeMap × Nat :=
  match mapGet m name with
  | some p => (h, m, p)
  | none =>
    let r := alloc h { Name := name, Value := 1, Path := name, Children := [] }
    (r.1, mapSet m name r.2, r.2)

/-- Lines 280-286: whether some entry of `headNode.Children` has the name of `tailNode`. -/
def childExists (h : Heap) (tailNode : Nat) : List Nat → Option Bool
  | [] => some false
  | v :: rest =>
    match deref h v, deref h tailNode with
    | some vn, some tn => if vn.Name = tn.Name then some true else childExists h tailNode rest
    | _, _ => none

/-- Lines 252-290: the graph builder, run on an accepted pair. -/
def addEdge (st : ParseState) (headName tailName : GoString) : Option ParseState :=
  let startNode := if st.startNode = [] then headName else st.startNode
  let r1 := getOrCreate st.heap st.nodes headName
  let headNode := r1.2.2
  let r2 := getOrCreate r1.1 r1.2.1 tailName
  let tailNode := r2.2.2
  match deref r2.1 headNode with
  | none => none
  | some hn =>
    match childExists r2.1 tailNode hn.Children with
    | none => none
    | some exist =>
      let h3 := if exist then r2.1
        else store r2.1 headNode { hn with Children := hn.Children ++ [tailNode] }
      some { heap := h3, nodes := mapSet r2.2.1 headName headNode, startNode := startNode }

/-- Lines 240-290: the body of the parse loop on one record (terminator included). -/
def processLine (st : ParseState) (line : GoString) : Option ParseState :=
  match tokens line with
  | none => none
  | some (headName, tailName) =>
    if !ContainsAny headName then some st
    else if !ContainsAny tailName then some st
    else addEdge st headName tailName

/-- Lines 232-236: the successive results of `strBuffer.ReadBytes('\n')` before `io.EOF`.
Each result ends with its `\n`; the bytes after the last `\n` come back together with
`io.EOF`, on which the loop breaks without running its body. `cur` is the part of the
current record already read. -/
def readRecords (cur : GoString) : GoString → List GoString
  | [] => []
  | b :: rest =>
    if b = newline then (cur ++ [b]) :: readRecords [] rest
    else readRecords (cur ++ [b]) rest

/-- The loop body run on successive records, stopping at the first panic. -/
def runRecords (st : ParseState) : List GoString → Option ParseState
  | [] => some st
  | line :: rest =>
    match processLine st line with
    | none => none
    | some st' => runRecords st' rest

/-- Lines 229-231: the variables before the loop. -/
def initState : ParseState := { heap := [], nodes := [], startNode := [] }

/-- Lines 229-291: the parse loop on the input buffer. -/
def parse (byteData : GoString) : Option ParseState :=
  runRecords initState (readRecords [] byteData)

/-! ## `GenTreeNodeByDependency` (lines 40-91) -/

/-- The variables of `GenTreeNodeByDependency`: the heap, `queue` and `visitedNode`. -/
structure GenState where
  heap : Heap
  queue : List Nat
  visitedNode : NodeMap
deriving DecidableEq, Repr

/-- Outcome of a run: a result, a run-time panic, or the step budget of the model
exhausted before the queue emptied. -/
inductive Run (α : Type) where
  | done : α → Run α
  | panic : Run α
  | outOfFuel : Run α
deriving DecidableEq, Repr

/-- Assignment to fields of the record at `p`: read, modify, write back. -/
def update (h : Heap) (p : Nat) (f : TreeNode → TreeNode) : Option Heap :=
  match deref h p with
  | none => none
  | some n => some (store h p (f n))

/-- Lines 46-57: the body of the first loop, for one entry `node` of `rootNode.Children`. -/
def seedChild (st : GenState) (node : Nat) : Option GenState :=
  match deref st.heap node with
  | none => none
  | some n =>
    let r := alloc st.heap { Name := n.Path, Value := n.Value, Path := n.Path, Children := [] }
    if n.Children.length = 0 then
      match update r.1 r.2 (fun x => { x with Name := ShortName x.Path }) with
      | none => none
      | some h2 =>
        some { heap := h2, queue := st.queue, visitedNode := mapSet st.visitedNode n.Path r.2 }
    else
      some { heap := r.1, queue := st.queue ++ [r.2], visitedNode := st.visitedNode }

/-- Run of a loop body over the entries of a slice, stopping at the first panic. -/
def forEach (body : GenState → Nat → Option GenState) (st : GenState) :
    List Nat → Option GenState
  | [] => some st
  | v :: rest =>
    match body st v with
    | none => none
    | some st' => forEach body st' rest

/-- Lines 74-75: `node.Value += len(v.Children); visitedNode[node.Path] = node`, where
`fan` is `len(v.Children)`. -/
def addFanOut (node : Nat) (fan : Nat) (st : GenState) : Option GenState :=
  match deref st.heap node with
  | none => none
  | some n =>
    match update st.heap node (fun x => { x with Value := addInt x.Value fan }) with
    | none => none
    | some h =>
      some { heap := h, queue := st.queue, visitedNode := mapSet st.visitedNode n.Path node }

/-- Lines 78-80: a new record for `v`, named after the short name of `node`, entered in
`visitedNode` and pushed on the queue. -/
def pushChild (node v : Nat) (st : GenState) : Option GenState :=
  match deref st.heap v, deref st.heap node with
  | some vn, some n =>
    let r := alloc st.heap
      { Name := ShortName n.Path, Value := vn.Value, Path := vn.Path, Children := [] }
    some { heap := r.1, queue := st.queue ++ [r.2],
           visitedNode := mapSet st.visitedNode vn.Path r.2 }
  | _, _ => none

/-- Lines 72-81: the body of the inner loop, for the dequeued `node` and one entry `v` of
`treeNode.Children`. The flag `ok` is read before the weight is touched. -/
def visitChild (node : Nat) (st : GenState) (v : Nat) : Option GenState :=
  match deref st.heap v with
  | none => none
  | some vn =>
    let ok := (mapGet st.visitedNode vn.Path).isSome
    match (if 0 < vn.Children.length then addFanOut node vn.Children.length st
           else some st) with
    | none => none
    | some s => if ok then some s else pushChild node v s

/-- Lines 64-82: the body of the main loop after `node` has been removed from the queue. -/
def expand (allNodes : NodeMap) (st : GenState) (node : Nat) : Option GenState :=
  match deref st.heap node with
  | none => none
  | some n =>
    match mapGet allNodes n.Path with
    | none => some st
    | some treeNode =>
      match update st.heap node (fun x => { x with Name := ShortName x.Path }) with
      | none => none
      | some h1 =>
        match deref h1 treeNode with
        | none => none
        | some tn =>
          match update h1 node
              (fun x => { x with Value := addInt x.Value tn.Children.length }) with
          | none => none
          | some h2 =>
            forEach (visitChild node)
              { heap := h2, queue := st.queue,
                visitedNode := mapSet st.visitedNode n.Path node }
              tn.Children

/-- Lines 59-83: the main loop, with a budget of dequeues. -/
def bfs (allNodes : NodeMap) (fuel : Nat) (st : GenState) : Run GenState :=
  match st.queue with
  | [] => Run.done st
  | node :: rest =>
    match fuel with
    | 0 => Run.outOfFuel
    | fuel' + 1 =>
      match expand allNodes { st with queue := rest } node with
      | none => Run.panic
      | some st' => bfs allNodes fuel' st'

/-- Source `GenTreeNodeByDependency`, with a budget of dequeues for the main loop. The
result is the final heap and the returned slice `nodes`: the values of `visitedNode`. -/
def GenTreeNodeByDependency (fuel : Nat) (startNode : GoString) (allNodes : NodeMap)
    (heap : Heap) : Run (Heap × List Nat) :=
  let rootNode := (mapGet allNodes startNode).getD 0
  match deref heap rootNode with
  | none => Run.panic
  | some rn =>
    match forEach seedChild { heap := heap, queue := [], visitedNode := [] } rn.Children with
    | none => Run.panic
    | some st0 =>
      match bfs allNodes fuel st0 with
      | Run.done st => Run.done (st.heap, st.visitedNode.map Prod.snd)
      | Run.panic => Run.panic
      | Run.outOfFuel => Run.outOfFuel

/-- The records a returned slice points to. -/
def resultNodes (r : Heap × List Nat) : List TreeNode := r.2.filterMap (deref r.1)

/-! ## Specification-level definitions and invariants -/

/-- Heap `h2` extends `h1`: every valid address stays valid, with the same `Path` and
`Children`, and every record that is new in `h2` has no children. -/
def Ext (h1 h2 : Heap) : Prop :=
  (∀ p n, deref h1 p = some n →
    ∃ n2, deref h2 p = some n2 ∧ n2.Path = n.Path ∧ n2.Children = n.Children) ∧
  (∀ p n2, deref h2 p = some n2 → (∃ n, deref h1 p = some n) ∨ n2.Children = [])

/-- Every entry of the visited map points to a record whose `Path` is the entry's key,
and no key occurs twice. -/
def VisInv (h : Heap) (vis : NodeMap) : Prop :=
  (keys vis).Nodup ∧ ∀ k p, (k, p) ∈ vis → ∃ n, deref h p = some n ∧ n.Path = k

/-- Every record of the heap carries a path of the list `P`. -/
def PathsIn (P : List GoString) (h : Heap) : Prop :=
  ∀ p n, deref h p = some n → n.Path ∈ P

/-- The paths of `P` that are not yet keys of the visited map. -/
def unvisited (P : List GoString) (vis : NodeMap) : Finset GoString :=
  P.toFinset.filter (fun k => k ∉ keys vis)

/-- Termination measure of the main loop: queued records plus unvisited paths. -/
def loopMeasure (P : List GoString) (st : GenState) : Nat :=
  st.queue.length + (unvisited P st.visitedNode).card

/-- State invariant of `GenTreeNodeByDependency`. -/
structure Good (P : List GoString) (st : GenState) : Prop where
  vis : VisInv st.heap st.visitedNode
  paths : PathsIn P st.heap
  queue : ∀ q ∈ st.queue, ∃ n, deref st.heap q = some n

/-- What every step of `GenTreeNodeByDependency` does to the state: the heap is extended
and no key leaves the visited map. -/
structure Step (s s2 : GenState) : Prop where
  ext : Ext s.heap s2.heap
  keys : ∀ k, k ∈ keys s.visitedNode → k ∈ keys s2.visitedNode

/-- Precondition of the inner loop: `node` is a record whose path is already a key of the
visited map. -/
def NodeSeen (node : Nat) (s : GenState) : Prop :=
  ∃ n, deref s.heap node = some n ∧ n.Path ∈ keys s.visitedNode

/-- No nil or dangling pointer: every pointer of the map and of every `Children` slice
points to a record of the heap. -/
def NilFree (heap : Heap) (allNodes : NodeMap) : Prop :=
  (∀ e ∈ allNodes, (deref heap e.2).isSome = true) ∧
    (∀ n ∈ heap, ∀ c ∈ n.Children, (deref heap c).isSome = true)

instance (heap : Heap) (allNodes : NodeMap) : Decidable (NilFree heap allNodes) := by
  unfold NilFree; infer_instance

/-- Every `Children` entry of every record points to a record. -/
def ChildrenValid (h : Heap) : Prop :=
  ∀ p n, deref h p = some n → ∀ c ∈ n.Children, ∃ m, deref h c = some m

/-- Every pointer of the map points to a record. -/
def MapValid (allNodes : NodeMap) (h : Heap) : Prop :=
  ∀ k p, (k, p) ∈ allNodes → ∃ n, deref h p = some n

/-- The pair `(headName, tailName)` of a record that passes the two filters of lines
246-251, `none` for a record that is skipped (or has no second piece). -/
def acceptedPair (line : GoString) : Option (GoString × GoString) :=
  match tokens line with
  | some (h, t) => if ContainsAny h && ContainsAny t then some (h, t) else none
  | none => none

/-- The accepted pairs of a sequence of records, in input order. -/
def acceptedPairs (lines : List GoString) : List (GoString × GoString) :=
  lines.filterMap acceptedPair

/-- The tails of the pairs whose head is `k`, in input order. -/
def tailsOf (k : GoString) (ps : List (GoString × GoString)) : List GoString :=
  (ps.filter (fun e => e.1 = k)).map Prod.snd

/-- The distinct elements of a list, in order of first occurrence. -/
def firstOccurrences : List GoString → List GoString
  | [] => []
  | x :: xs => x :: (firstOccurrences xs).filter (fun y => y ≠ x)

/-- The `Path` of each entry of `n.Children`, `none` for an entry that is nil. -/
def childPaths (h : Heap) (n : TreeNode) : List (Option GoString) :=
  n.Children.map (fun c => (deref h c).map TreeNode.Path)

/-- Heap `h2` has the records of `h1` at the same addresses, with the same `Name`, `Path`
and `Value`; only `Children` may differ. -/
def SameIds (h1 h2 : Heap) : Prop :=
  ∀ p n, deref h1 p = some n →
    ∃ n2, deref h2 p = some n2 ∧ n2.Name = n.Name ∧ n2.Path = n.Path ∧ n2.Value = n.Value

/-- Head of the first pair, the empty string when there is none. -/
def firstHead : List (GoString × GoString) → GoString
  | [] => []
  | e :: _ => e.1

/-- Invariant of the heap and the map during parsing, `ps` being the accepted pairs
processed so far. -/
structure NodeInv (ps : List (GoString × GoString)) (heap : Heap) (nodes : NodeMap) :
    Prop where
  nodup : (keys nodes).Nodup
  cover : ∀ e ∈ ps, e.1 ∈ keys nodes ∧ e.2 ∈ keys nodes
  cells : ∀ p n, deref heap p = some n → n.Name = n.Path
  node : ∀ k p, (k, p) ∈ nodes → ∃ n, deref heap p = some n ∧ n.Path = k ∧ n.Value = 1 ∧
    childPaths heap n = (firstOccurrences (tailsOf k ps)).map some

/-- Invariant of the parse loop, `ps` being the accepted pairs processed so far. -/
structure ParseInv (ps : List (GoString × GoString)) (st : ParseState) : Prop where
  inv : NodeInv ps st.heap st.nodes
  only : ∀ k, k ∈ keys st.nodes → ∃ e ∈ ps, k = e.1 ∨ k = e.2
  start : st.startNode = firstHead ps
  heads : ∀ e ∈ ps, e.1 ≠ []

/-- The accepted pairs of an input buffer, in input order. -/
def accepted (byteData : GoString) : List (GoString × GoString) :=
  acceptedPairs (readRecords [] byteData)

/-- Spec wording, "whitespace-separated tokens": the maximal runs of bytes of a record
that are not space, tab, carriage return or newline. `cur` is the run being read. -/
def wsTokensFrom (cur : GoString) : GoString → List GoString
  | [] => if cur = [] then [] else [cur]
  | b :: rest =>
    if inCutset b then
      (if cur = [] then wsTokensFrom [] rest else cur :: wsTokensFrom [] rest)
    else wsTokensFrom (cur ++ [b]) rest

/-- Spec wording: the whitespace-separated tokens of a record. -/
def wsTokens (line : GoString) : List GoString := wsTokensFrom [] line

/-- Lines 229-292 of `main`: the parse loop, then `GenTreeNodeByDependency` on
`startNode` and `nodes`. A panic of the parse loop ends the run. -/
def mainTrees (fuel : Nat) (byteData : GoString) : Run (Heap × List Nat) :=
  match parse byteData with
  | none => Run.panic
  | some st => GenTreeNodeByDependency fuel st.startNode st.nodes st.heap

/-- Heap of the cyclic example: `root -> A`, `A -> B`, `B -> A`. -/
def cycHeap : Heap :=
  [ { Name := str "root", Value := 1, Path := str "root", Children := [2] },
    { Name := str "A", Value := 1, Path := str "A", Children := [3] },
    { Name := str "B", Value := 1, Path := str "B", Children := [2] } ]

/-- Map of the cyclic example. -/
def cycMap : NodeMap := [(str "root", 1), (str "A", 2), (str "B", 3)]

/-- Input of the end-to-end example. -/
def chainInput : GoString := str "m/root m/a\nm/a m/b\nm/b m/c\n"

/-- The value of a run that returned, the empty collection otherwise. -/
def runResult (x : Run (Heap × List Nat)) : Heap × List Nat :=
  match x with
  | Run.done r => r
  | _ => ([], [])

/-- The input buffer cut just after its last `\n`; empty when it has none. -/
def uptoLastNewline (byteData : GoString) : GoString :=
  match LastIndex newline byteData with
  | some i => byteData.take (i + 1)
  | none => []

/-- The paths of the records removed from the queue by the main loop, in order: the loop
of `bfs`, keeping the `Path` read at line 64 of each dequeued record. -/
def dequeuedPaths (allNodes : NodeMap) (fuel : Nat) (st : GenState) : List GoString :=
  match st.queue with
  | [] => []
  | node :: rest =>
    match fuel with
    | 0 => []
    | fuel' + 1 =>
      match deref st.heap node, expand allNodes { st with queue := rest } node with
      | some n, some st' => n.Path :: dequeuedPaths allNodes fuel' st'
      | _, _ => []

/-- Input on which `m/c` is a direct child of the root and a child of `m/d`. -/
def diamondInput : GoString := str "m/r m/d\nm/r m/c\nm/d m/c\nm/c m/x\n"

/-- The paths dequeued by the main loop of `GenTreeNodeByDependency` on the given input:
the first loop of the function, then `dequeuedPaths`. -/
def GenTreeDequeued (fuel : Nat) (startNode : GoString) (allNodes : NodeMap)
    (heap : Heap) : List GoString :=
  match deref heap ((mapGet allNodes startNode).getD 0) with
  | none => []
  | some rn =>
    match forEach seedChild { heap := heap, queue := [], visitedNode := [] } rn.Children with
    | none => []
    | some st0 => dequeuedPaths allNodes fuel st0

/-- State of the cyclic example at the start of the inner loop for the dequeued record of
`A` (address 4): nothing visited yet but `A` itself. -/
def cycInner : GenState :=
  { heap := cycHeap ++ [{ Name := str ".", Value := 2, Path := str "A", Children := [] }],
    queue := [], visitedNode := [(str "A", 4)] }

/-- State of the cyclic example at the start of the inner loop for the dequeued record of
`B` (address 5): its only target `A` is already in the visited map. -/
def cycSeen : GenState :=
  { heap := cycHeap ++ [{ Name := str ".", Value := 3, Path := str "A", Children := [] },
      { Name := str ".", Value := 2, Path := str "B", Children := [] }],
    queue := [], visitedNode := [(str "A", 4), (str "B", 5)] }

/-- The input of a run of `GenTreeNodeByDependency`: the heap and the map it receives and
the address of the root node. -/
structure Src where
  heap0 : Heap
  allNodes : NodeMap
  root : Nat

/-- Nodes reachable from `root` by a path of one or more `Children` edges. -/
inductive ReachPlus (heap : Heap) (root : Nat) : Nat → Prop where
  | child {rn : TreeNode} {c : Nat} :
      deref heap root = some rn → c ∈ rn.Children → ReachPlus heap root c
  | step {c d : Nat} {cn : TreeNode} :
      ReachPlus heap root c → deref heap c = some cn → d ∈ cn.Children →
      ReachPlus heap root d

/-- Well-formed adjacency map: every entry of the `Children` of a node of the map points
to a record, and that record is the node the map holds for its `Path`. -/
def WellFormed (heap : Heap) (allNodes : NodeMap) : Prop :=
  ∀ e ∈ allNodes, ∀ n ∈ (deref heap e.2).toList, ∀ c ∈ n.Children,
    ∃ cn ∈ (deref heap c).toList, mapGet allNodes cn.Path = some c

instance (heap : Heap) (allNodes : NodeMap) : Decidable (WellFormed heap allNodes) := by
  unfold WellFormed; infer_instance

/-- The map node `c`, with record `cn`, that a materialized record of path `k` stands for:
the node of the map for `k`, reachable from the root. -/
def Origin (S : Src) (k : GoString) (c : Nat) (cn : TreeNode) : Prop :=
  mapGet S.allNodes k = some c ∧ deref S.heap0 c = some cn ∧ cn.Path = k ∧
    ReachPlus S.heap0 S.root c

/-- Lines 73-76 for one target `ch`, on the weight `acc` of the dequeued node. -/
def childStep (heap0 : Heap) (acc : Int) (ch : Nat) : Int :=
  match deref heap0 ch with
  | some chn => if 0 < chn.Children.length then addInt acc chn.Children.length else acc
  | none => acc

/-- The weight lines 69-76 give to the record made for the map node `cn`. -/
def expandedValue (heap0 : Heap) (cn : TreeNode) : Int :=
  cn.Children.foldl (childStep heap0) (addInt cn.Value cn.Children.length)

/-- A materialized record `n` for the map node `cn` of path `k` is finished: it carries
its own short name and its final weight. -/
def Finished (S : Src) (k : GoString) (cn n : TreeNode) : Prop :=
  n.Name = ShortName k ∧
    (n.Value = expandedValue S.heap0 cn ∨ (cn.Children = [] ∧ n.Value = cn.Value))

/-- The input records are untouched and every queued or visited record is new. -/
structure Fresh (heap0 : Heap) (st : GenState) : Prop where
  frame : ∀ p, p ≤ heap0.length → deref st.heap p = deref heap0 p
  len : heap0.length ≤ st.heap.length
  qfresh : ∀ q ∈ st.queue, heap0.length < q ∧ q ≤ st.heap.length
  vfresh : ∀ e ∈ st.visitedNode, heap0.length < e.2 ∧ e.2 ≤ st.heap.length

/-- Invariant of a run on a well-formed map; `x` is the record being expanded (`0` when
there is none), about which nothing is said. -/
structure W (S : Src) (x : Nat) (st : GenState) : Prop where
  fresh : Fresh S.heap0 st
  qx : x ∉ st.queue
  qnodup : st.queue.Nodup
  pend : ∀ q ∈ st.queue, ∃ n c cn, deref st.heap q = some n ∧ Origin S n.Path c cn ∧
    n.Value = cn.Value
  vis : ∀ k q, (k, q) ∈ st.visitedNode → q ≠ x →
    ∃ n c cn, deref st.heap q = some n ∧ n.Path = k ∧ Origin S k c cn ∧
      (q ∈ st.queue ∨ (Finished S k cn n ∧
        ∀ ch ∈ cn.Children, ∀ chn, deref S.heap0 ch = some chn →
          chn.Path ∈ keys st.visitedNode))

/-- The state after lines 73-76 of one pass of the inner loop. -/
def afterFanOut (node : Nat) (n vn : TreeNode) (st : GenState) : GenState :=
  if 0 < vn.Children.length then
    { heap := store st.heap node { n with Value := addInt n.Value vn.Children.length }, queue := st.queue, visitedNode := mapSet st.visitedNode n.Path node }
  else st

/-- The state after one pass of the inner loop. -/
def afterVisit (node : Nat) (n vn : TreeNode) (st : GenState) : GenState :=
  if (mapGet st.visitedNode vn.Path).isSome then afterFanOut node n vn st
  else
    { heap := (afterFanOut node n vn st).heap ++ [⟨ShortName n.Path, vn.Value, vn.Path, []⟩], queue := (afterFanOut node n vn st).queue ++ [(afterFanOut node n vn st).heap.length + 1], visitedNode := mapSet (afterFanOut node n vn st).visitedNode vn.Path ((afterFanOut node n vn st).heap.length + 1) }

/-- Invariant of the inner loop while the record `x` of path `k` is expanded: `done` are
the targets already passed, `a0` the weight of `x` when the loop started. -/
structure Inner (S : Src) (x : Nat) (k : GoString) (a0 : Int) (done : List Nat)
    (st : GenState) : Prop where
  w : W S x st
  cell : ∃ nx, deref st.heap x = some nx ∧ nx.Name = ShortName k ∧ nx.Path = k ∧
    nx.Value = done.foldl (childStep S.heap0) a0
  seen : k ∈ keys st.visitedNode
  marked : ∀ ch ∈ done, ∀ chn, deref S.heap0 ch = some chn →
    chn.Path ∈ keys st.visitedNode
  queued : ∀ q ∈ st.queue, ∃ n, deref st.heap q = some n

/-- What the well-formedness of the map gives for a target `v`. -/
def Target (S : Src) (v : Nat) : Prop :=
  ∃ vn, deref S.heap0 v = some vn ∧ Origin S vn.Path v vn

/-- Invariant of the main loop on a well-formed map; `L` are the root's children. -/
structure Main (S : Src) (P : List GoString) (L : List Nat) (st : GenState) : Prop where
  w : W S 0 st
  good : Good P st
  cov : ∀ c ∈ L, ∀ cn, deref S.heap0 c = some cn →
    cn.Path ∈ keys st.visitedNode ∨
      ∃ q ∈ st.queue, ∃ n, deref st.heap q = some n ∧ n.Path = cn.Path

/-- Number of outgoing edges of the node at address `ch` (0 for nil). -/
def fanOut (heap : Heap) (ch : Nat) : Nat :=
  ((deref heap ch).map (fun n => n.Children.length)).getD 0

/-- Spec wording: the weight of the map node `cn` as a sum of integers: its `Value`, plus
the number of its outgoing edges, plus the number of outgoing edges of each target. -/
def plainWeight (heap : Heap) (cn : TreeNode) : Int :=
  cn.Value + cn.Children.length + ((cn.Children.map (fanOut heap)).sum : Nat)

/-- Heap of the overflow example: `A` carries the largest `int` and has one child. -/
def bigHeap : Heap :=
  [ { Name := str "root", Value := 1, Path := str "root", Children := [2] },
    { Name := str "A", Value := 9223372036854775807, Path := str "A", Children := [3] },
    { Name := str "B", Value := 1, Path := str "B", Children := [] } ]

/-- Map of the overflow example. -/
def bigMap : NodeMap := [(str "root", 1), (str "A", 2), (str "B", 3)]

/-- No dangling pointer: every pointer of the map and of every `Children` slice is nil or
the address of a record of the heap. -/
def NoDangling (heap : Heap) (allNodes : NodeMap) : Prop :=
  (∀ e ∈ allNodes, e.2 ≤ heap.length) ∧ (∀ n ∈ heap, ∀ c ∈ n.Children, c ≤ heap.length)

instance (heap : Heap) (allNodes : NodeMap) : Decidable (NoDangling heap allNodes) := by
  unfold NoDangling; infer_instance

/-- Two runs on the same input records, the second on a heap that holds `k` more records
after the first `n0`: the states agree up to the shift by `k` of the addresses of the
records made by the run. -/
structure Sim (n0 k : Nat) (s1 s2 : GenState) : Prop where
  len : s2.heap.length = s1.heap.length + k
  n0le : n0 ≤ s1.heap.length
  old : ∀ p, p ≤ n0 → deref s2.heap p = deref s1.heap p
  new : ∀ p, n0 < p → deref s2.heap (p + k) = deref s1.heap p
  queue : s2.queue = s1.queue.map (fun q => q + k)
  vis : s2.visitedNode = s1.visitedNode.map (fun e => (e.1, e.2 + k))

/-- Pointer invariant of the parse loop: every record of the heap is the node the map
holds for its `Path`, every key of the map points to a record of that path, and every
`Children` entry points to a record. -/
structure PtrInv (heap : Heap) (nodes : NodeMap) : Prop where
  own : ∀ p n, deref heap p = some n → mapGet nodes n.Path = some p
  mapped : ∀ k p, mapGet nodes k = some p → ∃ n, deref heap p = some n ∧ n.Path = k
  kids : ∀ p n, deref heap p = some n → ∀ c ∈ n.Children, ∃ cn, deref heap c = some cn

/-! ## Heap and map lemmas -/

theorem Ext.extRefl (h : Heap) : Ext h h :=
  ⟨fun _ n hn => ⟨n, hn, rfl, rfl⟩, fun _ n hn => Or.inl ⟨n, hn⟩⟩

theorem Ext.extTrans {h1 h2 h3 : Heap} (a : Ext h1 h2) (b : Ext h2 h3) : Ext h1 h3 := by
  constructor
  · intro p n hn
    obtain ⟨n2, h2, e1, e2⟩ := a.1 p n hn
    obtain ⟨n3, h3, e3, e4⟩ := b.1 p n2 h2
    exact ⟨n3, h3, e3.trans e1, e4.trans e2⟩
  · intro p n3 hn3
    rcases b.2 p n3 hn3 with ⟨n2, hn2⟩ | hc
    · rcases a.2 p n2 hn2 with hold | hc2
      · exact Or.inl hold
      · right
        obtain ⟨m, hm, _, e⟩ := b.1 p n2 hn2
        rw [hn3] at hm
        cases hm
        rw [e, hc2]
    · exact Or.inr hc

theorem deref_alloc_old {h : Heap} {p : Nat} {n : TreeNode} (x : TreeNode)
    (hp : deref h p = some n) : deref (alloc h x).1 p = some n := by
  cases p with
  | zero => simp [deref] at hp
  | succ q =>
    simp only [deref, alloc] at hp ⊢
    have hq : q < h.length := by
      rcases Nat.lt_or_ge q h.length with hlt | hge
      · exact hlt
      · rw [List.getElem?_eq_none hge] at hp; cases hp
    rw [List.getElem?_append_left hq]; exact hp

theorem deref_alloc_new (h : Heap) (x : TreeNode) :
    deref (alloc h x).1 (alloc h x).2 = some x := by
  simp [deref, alloc]

theorem deref_alloc (h : Heap) (x : TreeNode) (p : Nat) :
    deref (alloc h x).1 p = if p = h.length + 1 then some x else deref h p := by
  cases p with
  | zero => simp [deref]
  | succ q =>
    simp only [deref, alloc, Nat.add_right_cancel_iff]
    rcases Nat.lt_trichotomy q h.length with hlt | heq | hgt
    · rw [List.getElem?_append_left hlt, if_neg (Nat.ne_of_lt hlt)]
    · subst heq; simp
    · rw [if_neg (Nat.ne_of_gt hgt), List.getElem?_eq_none (Nat.le_of_lt hgt),
        List.getElem?_eq_none]
      simp; omega

theorem ext_alloc (h : Heap) {x : TreeNode} (hx : x.Children = []) : Ext h (alloc h x).1 := by
  refine ⟨fun _ n hn => ⟨n, deref_alloc_old x hn, rfl, rfl⟩, fun p n2 hn2 => ?_⟩
  rw [deref_alloc] at hn2
  split_ifs at hn2 with h1
  · cases hn2; exact Or.inr hx
  · exact Or.inl ⟨n2, hn2⟩

theorem deref_store (h : Heap) (p q : Nat) (x : TreeNode) :
    deref (store h p x) q =
      if q = p then (deref h p).map (fun _ => x) else deref h q := by
  cases p with
  | zero =>
    cases q with
    | zero => simp [deref, store]
    | succ q => simp [deref, store]
  | succ p =>
    cases q with
    | zero => simp [deref, store]
    | succ q =>
      simp only [deref, store, Nat.add_right_cancel_iff]
      by_cases hqp : q = p
      · subst hqp
        simp only [if_true]
        rcases Nat.lt_or_ge q h.length with hlt | hge
        · simp [List.getElem?_set_self, hlt, List.getElem?_eq_getElem hlt]
        · simp [List.getElem?_eq_none, hge]
      · rw [if_neg hqp, List.getElem?_set_ne (Ne.symm hqp)]

theorem length_store (h : Heap) (p : Nat) (x : TreeNode) : (store h p x).length = h.length := by
  cases p <;> simp [store]

theorem update_some {h h2 : Heap} {p : Nat} {f : TreeNode → TreeNode}
    (hu : update h p f = some h2) :
    ∃ n, deref h p = some n ∧ h2 = store h p (f n) := by
  unfold update at hu
  cases hd : deref h p with
  | none => simp [hd] at hu
  | some n => simp [hd] at hu; exact ⟨n, rfl, hu.symm⟩

theorem deref_update {h h2 : Heap} {p : Nat} {f : TreeNode → TreeNode}
    (hu : update h p f = some h2) (q : Nat) :
    deref h2 q = if q = p then (deref h p).map f else deref h q := by
  obtain ⟨n, hn, rfl⟩ := update_some hu
  rw [deref_store]
  by_cases hqp : q = p
  · simp [hqp, hn]
  · simp [hqp]

theorem ext_update {h h2 : Heap} {p : Nat} {f : TreeNode → TreeNode}
    (hu : update h p f = some h2)
    (hf : ∀ x, (f x).Path = x.Path ∧ (f x).Children = x.Children) : Ext h h2 := by
  constructor
  · intro q n hn
    rw [deref_update hu]
    by_cases hqp : q = p
    · subst hqp; simp [hn, hf]
    · simp [hqp, hn]
  · intro q n2 hn2
    rw [deref_update hu] at hn2
    left
    by_cases hqp : q = p
    · subst hqp
      cases hd : deref h q with
      | none => simp [hd] at hn2
      | some m => exact ⟨m, rfl⟩
    · rw [if_neg hqp] at hn2; exact ⟨n2, hn2⟩

theorem update_isSome {h : Heap} {p : Nat} {n : TreeNode} (f : TreeNode → TreeNode)
    (hn : deref h p = some n) : update h p f = some (store h p (f n)) := by
  simp [update, hn]

theorem mem_mapSet {m : NodeMap} {k : GoString} {v : Nat} {e : GoString × Nat}
    (he : e ∈ mapSet m k v) : e = (k, v) ∨ e ∈ m := by
  induction m with
  | nil => simp [mapSet] at he; exact Or.inl he
  | cons a rest ih =>
    obtain ⟨k1, v1⟩ := a
    simp only [mapSet] at he
    split_ifs at he with hk
    · rcases List.mem_cons.1 he with h1 | h1
      · left; rw [h1, hk]
      · right; exact List.mem_cons_of_mem _ h1
    · rcases List.mem_cons.1 he with h1 | h1
      · right; rw [h1]; exact List.mem_cons_self _ _
      · rcases ih h1 with h2 | h2
        · exact Or.inl h2
        · right; exact List.mem_cons_of_mem _ h2

theorem keys_mapSet (m : NodeMap) (k : GoString) (v : Nat) :
    keys (mapSet m k v) = if k ∈ keys m then keys m else keys m ++ [k] := by
  induction m with
  | nil => simp [mapSet, keys]
  | cons a rest ih =>
    obtain ⟨k1, v1⟩ := a
    simp only [mapSet]
    by_cases hk : k1 = k
    · subst hk; simp [keys]
    · rw [if_neg hk]
      have hk2 : ¬ k = k1 := fun h => hk h.symm
      simp only [keys, List.map_cons, List.mem_cons, hk2, false_or] at ih ⊢
      rw [ih]
      split_ifs <;> simp

theorem mem_keys_mapSet (m : NodeMap) (k : GoString) (v : Nat) (x : GoString) :
    x ∈ keys (mapSet m k v) ↔ x = k ∨ x ∈ keys m := by
  rw [keys_mapSet]
  split_ifs with h
  · constructor
    · exact Or.inr
    · rintro (rfl | h2)
      · exact h
      · exact h2
  · simp [or_comm]

theorem nodup_keys_mapSet {m : NodeMap} (k : GoString) (v : Nat) (hm : (keys m).Nodup) :
    (keys (mapSet m k v)).Nodup := by
  rw [keys_mapSet]
  split_ifs with h
  · exact hm
  · exact List.Nodup.append hm (List.nodup_singleton k) (by simpa using h)

theorem mapGet_isSome_iff (m : NodeMap) (k : GoString) :
    (mapGet m k).isSome = true ↔ k ∈ keys m := by
  induction m with
  | nil => simp [mapGet, keys]
  | cons a rest ih =>
    obtain ⟨k1, v1⟩ := a
    simp only [mapGet, keys, List.map_cons, List.mem_cons]
    by_cases hk : k1 = k
    · simp [hk]
    · have hk2 : ¬ k = k1 := fun h => hk h.symm
      simp only [hk, if_false, hk2, false_or]
      exact ih

theorem mapGet_eq_none_iff (m : NodeMap) (k : GoString) :
    mapGet m k = none ↔ k ∉ keys m := by
  rw [← mapGet_isSome_iff]
  cases mapGet m k <;> simp

theorem mapGet_mem {m : NodeMap} {k : GoString} {p : Nat} (h : mapGet m k = some p) :
    (k, p) ∈ m := by
  induction m with
  | nil => simp [mapGet] at h
  | cons a rest ih =>
    obtain ⟨k1, v1⟩ := a
    simp only [mapGet] at h
    split_ifs at h with hk
    · cases h; subst hk; exact List.mem_cons_self _ _
    · exact List.mem_cons_of_mem _ (ih h)

/-! ## Invariant of the visited map -/

theorem VisInv.visExt {h h2 : Heap} {vis : NodeMap} (hv : VisInv h vis) (he : Ext h h2) :
    VisInv h2 vis := by
  refine ⟨hv.1, fun k p hkp => ?_⟩
  obtain ⟨n, hn, hpath⟩ := hv.2 k p hkp
  obtain ⟨n2, hn2, e1, _⟩ := he.1 p n hn
  exact ⟨n2, hn2, e1.trans hpath⟩

theorem VisInv.visSet {h : Heap} {vis : NodeMap} (hv : VisInv h vis) {p : Nat} {n : TreeNode}
    {k : GoString} (hn : deref h p = some n) (hk : n.Path = k) : VisInv h (mapSet vis k p) := by
  refine ⟨nodup_keys_mapSet _ _ hv.1, fun k2 q hkq => ?_⟩
  rcases mem_mapSet hkq with h1 | h1
  · cases h1; exact ⟨n, hn, hk⟩
  · exact hv.2 k2 q h1

theorem forEach_induction (body : GenState → Nat → Option GenState)
    (R : GenState → GenState → Prop) (hrefl : ∀ s, R s s)
    (htrans : ∀ a b c, R a b → R b c → R a c)
    (I : GenState → Prop)
    (hstep : ∀ s v s2, I s → body s v = some s2 → I s2 ∧ R s s2) :
    ∀ (l : List Nat) (s s2 : GenState), I s → forEach body s l = some s2 → I s2 ∧ R s s2 := by
  intro l
  induction l with
  | nil =>
    intro s s2 hI h
    simp only [forEach, Option.some.injEq] at h
    subst h
    exact ⟨hI, hrefl s⟩
  | cons v rest ih =>
    intro s s2 hI h
    simp only [forEach] at h
    cases hb : body s v with
    | none => simp [hb] at h
    | some s1 =>
      simp only [hb] at h
      obtain ⟨hI1, hR1⟩ := hstep s v s1 hI hb
      obtain ⟨hI2, hR2⟩ := ih s1 s2 hI1 h
      exact ⟨hI2, htrans _ _ _ hR1 hR2⟩

theorem Step.stepRefl (s : GenState) : Step s s := ⟨Ext.extRefl _, fun _ h => h⟩

theorem Step.stepTrans {a b c : GenState} (x : Step a b) (y : Step b c) : Step a c :=
  ⟨x.ext.extTrans y.ext, fun k h => y.keys k (x.keys k h)⟩

theorem PathsIn.pathsAlloc {P : List GoString} {h : Heap} (hp : PathsIn P h) {x : TreeNode}
    (hx : x.Path ∈ P) : PathsIn P (alloc h x).1 := by
  intro p n hn
  rw [deref_alloc] at hn
  split_ifs at hn with h1
  · cases hn; exact hx
  · exact hp p n hn

theorem PathsIn.pathsUpdate {P : List GoString} {h h2 : Heap} (hp : PathsIn P h) {p : Nat}
    {f : TreeNode → TreeNode} (hu : update h p f = some h2)
    (hf : ∀ x, (f x).Path = x.Path) : PathsIn P h2 := by
  intro q n hn
  rw [deref_update hu] at hn
  split_ifs at hn with h1
  · cases hd : deref h p with
    | none => simp [hd] at hn
    | some m =>
      simp only [hd, Option.map_some', Option.some.injEq] at hn
      subst hn
      rw [hf]; exact hp p m hd
  · exact hp q n hn

theorem unvisited_mapSet_subset (P : List GoString) (vis : NodeMap) (k : GoString) (v : Nat) :
    unvisited P (mapSet vis k v) ⊆ unvisited P vis := by
  intro x hx
  simp only [unvisited, Finset.mem_filter, List.mem_toFinset, mem_keys_mapSet] at hx ⊢
  exact ⟨hx.1, fun h => hx.2 (Or.inr h)⟩

theorem card_unvisited_mapSet_le (P : List GoString) (vis : NodeMap) (k : GoString) (v : Nat) :
    (unvisited P (mapSet vis k v)).card ≤ (unvisited P vis).card :=
  Finset.card_le_card (unvisited_mapSet_subset P vis k v)

theorem card_unvisited_mapSet_lt {P : List GoString} {vis : NodeMap} {k : GoString} (v : Nat)
    (hk : k ∈ P) (hn : k ∉ keys vis) :
    (unvisited P (mapSet vis k v)).card + 1 ≤ (unvisited P vis).card := by
  apply Finset.card_lt_card
  refine ⟨unvisited_mapSet_subset P vis k v, fun hsub => ?_⟩
  have h1 : k ∈ unvisited P vis := by
    simp [unvisited, hk, hn]
  have h2 := hsub h1
  simp [unvisited, mem_keys_mapSet] at h2

theorem addFanOut_spec {P : List GoString} {node fan : Nat} {st s : GenState}
    (h : addFanOut node fan st = some s) (hg : Good P st) :
    Good P s ∧ Step st s ∧ loopMeasure P s ≤ loopMeasure P st := by
  unfold addFanOut at h
  cases hd : deref st.heap node with
  | none => simp [hd] at h
  | some n =>
    simp only [hd] at h
    cases hu : update st.heap node (fun x => { x with Value := addInt x.Value fan }) with
    | none => simp [hu] at h
    | some h2 =>
      simp only [hu, Option.some.injEq] at h
      subst h
      have e : Ext st.heap h2 := ext_update hu (fun x => ⟨rfl, rfl⟩)
      obtain ⟨n2, hn2, hp2, _⟩ := e.1 node n hd
      refine ⟨⟨(hg.vis.visExt e).visSet hn2 hp2, hg.paths.pathsUpdate hu (fun _ => rfl), ?_⟩,
        ⟨e, fun k hk => (mem_keys_mapSet _ _ _ _).2 (Or.inr hk)⟩, ?_⟩
      · intro q hq
        obtain ⟨m, hm⟩ := hg.queue q hq
        obtain ⟨m2, hm2, _⟩ := e.1 q m hm
        exact ⟨m2, hm2⟩
      · simp only [loopMeasure]
        exact Nat.add_le_add_left (card_unvisited_mapSet_le _ _ _ _) _

theorem pushChild_spec {P : List GoString} {node v : Nat} {st s : GenState}
    (h : pushChild node v st = some s) (hg : Good P st) :
    Good P s ∧ Step st s ∧
      ∃ vn, deref st.heap v = some vn ∧
        (vn.Path ∉ keys st.visitedNode → loopMeasure P s ≤ loopMeasure P st) := by
  unfold pushChild at h
  cases hd : deref st.heap v with
  | none => simp [hd] at h
  | some vn =>
    cases hd2 : deref st.heap node with
    | none => simp [hd, hd2] at h
    | some n =>
      simp only [hd, hd2, Option.some.injEq] at h
      subst h
      have e : Ext st.heap (alloc st.heap _).1 :=
        ext_alloc st.heap (x := ⟨ShortName n.Path, vn.Value, vn.Path, []⟩) rfl
      have hin : vn.Path ∈ P := hg.paths v vn hd
      refine ⟨⟨(hg.vis.visExt e).visSet (deref_alloc_new _ _) rfl, hg.paths.pathsAlloc hin, ?_⟩,
        ⟨e, fun k hk => (mem_keys_mapSet _ _ _ _).2 (Or.inr hk)⟩, vn, rfl, ?_⟩
      · intro q hq
        rcases List.mem_append.1 hq with h1 | h1
        · obtain ⟨m, hm⟩ := hg.queue q h1
          exact ⟨m, deref_alloc_old _ hm⟩
        · simp only [List.mem_singleton] at h1
          subst h1
          exact ⟨_, deref_alloc_new _ _⟩
      · intro hnot
        have := card_unvisited_mapSet_lt (P := P) (st.heap.length + 1) hin hnot
        simp only [loopMeasure, List.length_append, List.length_singleton, alloc]
        omega

theorem NodeSeen.seenStep {node : Nat} {s s2 : GenState} (h : NodeSeen node s) (hs : Step s s2) :
    NodeSeen node s2 := by
  obtain ⟨n, hn, hk⟩ := h
  obtain ⟨n2, hn2, hp, _⟩ := hs.ext.1 node n hn
  exact ⟨n2, hn2, hs.keys _ (hp ▸ hk)⟩

theorem visitChild_spec {P : List GoString} {node v : Nat} {st s : GenState}
    (h : visitChild node st v = some s) (hg : Good P st) (hseen : NodeSeen node st) :
    Good P s ∧ Step st s ∧ loopMeasure P s ≤ loopMeasure P st := by
  unfold visitChild at h
  cases hd : deref st.heap v with
  | none => simp [hd] at h
  | some vn =>
    simp only [hd] at h
    -- the state after lines 73-76
    have key : ∀ s1, (if 0 < vn.Children.length then addFanOut node vn.Children.length st
          else some st) = some s1 →
        Good P s1 ∧ Step st s1 ∧ loopMeasure P s1 ≤ loopMeasure P st ∧
          (∀ k, k ∈ keys s1.visitedNode → k ∈ keys st.visitedNode) := by
      intro s1 h1
      split_ifs at h1 with hc
      · obtain ⟨a, b, c⟩ := addFanOut_spec h1 hg
        refine ⟨a, b, c, ?_⟩
        unfold addFanOut at h1
        obtain ⟨n, hn, hk⟩ := hseen
        simp only [hn] at h1
        cases hu : update st.heap node
            (fun x => { x with Value := addInt x.Value vn.Children.length }) with
        | none => simp [hu] at h1
        | some h2 =>
          simp only [hu, Option.some.injEq] at h1
          subst h1
          intro k hk2
          rcases (mem_keys_mapSet _ _ _ _).1 hk2 with h3 | h3
          · rw [h3]; exact hk
          · exact h3
      · simp only [Option.some.injEq] at h1
        subst h1
        exact ⟨hg, Step.stepRefl _, le_rfl, fun _ hk => hk⟩
    cases h1 : (if 0 < vn.Children.length then addFanOut node vn.Children.length st
          else some st) with
    | none => simp [h1] at h
    | some s1 =>
      simp only [h1] at h
      obtain ⟨g1, st1, m1, k1⟩ := key s1 h1
      split_ifs at h with hok
      · simp only [Option.some.injEq] at h
        subst h
        exact ⟨g1, st1, m1⟩
      · obtain ⟨g2, st2, vn2, hvn2, m2⟩ := pushChild_spec h g1
        refine ⟨g2, st1.stepTrans st2, le_trans (m2 ?_) m1⟩
        obtain ⟨vn3, hvn3, hp3, _⟩ := st1.ext.1 v vn hd
        rw [hvn3] at hvn2
        cases hvn2
        rw [hp3]
        intro hmem
        exact hok ((mapGet_isSome_iff _ _).2 (k1 _ hmem))

theorem forEach_visitChild_spec {P : List GoString} {node : Nat} (l : List Nat)
    {st s : GenState} (h : forEach (visitChild node) st l = some s)
    (hg : Good P st) (hseen : NodeSeen node st) :
    Good P s ∧ Step st s ∧ loopMeasure P s ≤ loopMeasure P st := by
  have := forEach_induction (visitChild node)
    (fun a b => Step a b ∧ loopMeasure P b ≤ loopMeasure P a)
    (fun a => ⟨Step.stepRefl a, le_rfl⟩)
    (fun a b c x y => ⟨x.1.stepTrans y.1, le_trans y.2 x.2⟩)
    (fun a => Good P a ∧ NodeSeen node a)
    (fun a v b hI hb => by
      obtain ⟨g, st2, m⟩ := visitChild_spec hb hI.1 hI.2
      exact ⟨⟨g, hI.2.seenStep st2⟩, st2, m⟩)
    l st s ⟨hg, hseen⟩ h
  exact ⟨this.1.1, this.2.1, this.2.2⟩

theorem expand_spec {P : List GoString} {allNodes : NodeMap} {node : Nat} {st s : GenState}
    (h : expand allNodes st node = some s) (hg : Good P st) :
    Good P s ∧ Step st s ∧ loopMeasure P s ≤ loopMeasure P st := by
  unfold expand at h
  cases hd : deref st.heap node with
  | none => simp [hd] at h
  | some n =>
    simp only [hd] at h
    cases hm : mapGet allNodes n.Path with
    | none =>
      simp only [hm, Option.some.injEq] at h
      subst h
      exact ⟨hg, Step.stepRefl _, le_rfl⟩
    | some treeNode =>
      simp only [hm] at h
      cases hu1 : update st.heap node (fun x => { x with Name := ShortName x.Path }) with
      | none => simp [hu1] at h
      | some h1 =>
        simp only [hu1] at h
        cases hd1 : deref h1 treeNode with
        | none => simp [hd1] at h
        | some tn =>
          simp only [hd1] at h
          cases hu2 : update h1 node
              (fun x => { x with Value := addInt x.Value tn.Children.length }) with
          | none => simp [hu2] at h
          | some h2 =>
            simp only [hu2] at h
            have e1 : Ext st.heap h1 := ext_update hu1 (fun x => ⟨rfl, rfl⟩)
            have e2 : Ext h1 h2 := ext_update hu2 (fun x => ⟨rfl, rfl⟩)
            have e := e1.extTrans e2
            obtain ⟨n2, hn2, hp2, _⟩ := e.1 node n hd
            have g0 : Good P { heap := h2, queue := st.queue, visitedNode := mapSet st.visitedNode n.Path node } := by
              refine ⟨(hg.vis.visExt e).visSet hn2 hp2,
                (hg.paths.pathsUpdate hu1 (fun _ => rfl)).pathsUpdate hu2 (fun _ => rfl), ?_⟩
              intro q hq
              obtain ⟨m, hm2⟩ := hg.queue q hq
              obtain ⟨m2, hm3, _⟩ := e.1 q m hm2
              exact ⟨m2, hm3⟩
            have s0 : Step st { heap := h2, queue := st.queue, visitedNode := mapSet st.visitedNode n.Path node } :=
              ⟨e, fun k hk => (mem_keys_mapSet _ _ _ _).2 (Or.inr hk)⟩
            have m0 : loopMeasure P { heap := h2, queue := st.queue, visitedNode := mapSet st.visitedNode n.Path node } ≤ loopMeasure P st := by
              simp only [loopMeasure]
              exact Nat.add_le_add_left (card_unvisited_mapSet_le _ _ _ _) _
            have seen : NodeSeen node { heap := h2, queue := st.queue, visitedNode := mapSet st.visitedNode n.Path node } :=
              ⟨n2, hn2, (mem_keys_mapSet _ _ _ _).2 (Or.inl hp2)⟩
            obtain ⟨g, st2, m⟩ := forEach_visitChild_spec tn.Children h g0 seen
            exact ⟨g, s0.stepTrans st2, le_trans m m0⟩

/-- The main loop keeps the invariant, whatever the budget. -/
theorem bfs_good {P : List GoString} {allNodes : NodeMap} :
    ∀ (fuel : Nat) (st s : GenState), Good P st → bfs allNodes fuel st = Run.done s →
      Good P s ∧ Step st s := by
  intro fuel
  induction fuel with
  | zero =>
    intro st s hg h
    unfold bfs at h
    cases hq : st.queue with
    | nil => simp only [hq, Run.done.injEq] at h; subst h; exact ⟨hg, Step.stepRefl _⟩
    | cons node rest => simp [hq] at h
  | succ fuel ih =>
    intro st s hg h
    unfold bfs at h
    cases hq : st.queue with
    | nil => simp only [hq, Run.done.injEq] at h; subst h; exact ⟨hg, Step.stepRefl _⟩
    | cons node rest =>
      simp only [hq] at h
      cases he : expand allNodes { st with queue := rest } node with
      | none => simp [he] at h
      | some st2 =>
        simp only [he] at h
        have g1 : Good P { st with queue := rest } :=
          ⟨hg.vis, hg.paths, fun q hq2 => hg.queue q (by rw [hq]; exact List.mem_cons_of_mem _ hq2)⟩
        obtain ⟨g2, s2, _⟩ := expand_spec he g1
        obtain ⟨g3, s3⟩ := ih st2 s g2 h
        exact ⟨g3, Step.stepTrans ⟨s2.ext, s2.keys⟩ s3⟩

/-- With a budget of at least the loop measure, the main loop does not exhaust it. -/
theorem bfs_fuel {P : List GoString} (allNodes : NodeMap) :
    ∀ (fuel : Nat) (st : GenState), Good P st → loopMeasure P st ≤ fuel →
      bfs allNodes fuel st ≠ Run.outOfFuel := by
  intro fuel
  induction fuel with
  | zero =>
    intro st hg hm
    unfold bfs
    cases hq : st.queue with
    | nil => simp
    | cons node rest => simp [loopMeasure, hq] at hm
  | succ fuel ih =>
    intro st hg hm
    unfold bfs
    cases hq : st.queue with
    | nil => simp
    | cons node rest =>
      simp only
      cases he : expand allNodes { st with queue := rest } node with
      | none => simp
      | some st2 =>
        simp only
        have g1 : Good P { st with queue := rest } :=
          ⟨hg.vis, hg.paths, fun q hq2 => hg.queue q (by rw [hq]; exact List.mem_cons_of_mem _ hq2)⟩
        obtain ⟨g2, _, m2⟩ := expand_spec he g1
        apply ih st2 g2
        simp only [loopMeasure, hq, List.length_cons] at hm m2 ⊢
        omega

theorem deref_mem {h : Heap} {p : Nat} {n : TreeNode} (hd : deref h p = some n) : n ∈ h := by
  cases p with
  | zero => simp [deref] at hd
  | succ q => exact List.getElem?_mem hd

theorem ChildrenValid.childrenExt {h h2 : Heap} (hc : ChildrenValid h) (he : Ext h h2) :
    ChildrenValid h2 := by
  intro p n2 hn2 c hcm
  rcases he.2 p n2 hn2 with ⟨n, hn⟩ | hnil
  · obtain ⟨m, hm, _, hch⟩ := he.1 p n hn
    rw [hn2] at hm
    cases hm
    rw [hch] at hcm
    obtain ⟨x, hx⟩ := hc p n hn c hcm
    obtain ⟨x2, hx2, _⟩ := he.1 c x hx
    exact ⟨x2, hx2⟩
  · rw [hnil] at hcm; cases hcm

theorem MapValid.mapExt {allNodes : NodeMap} {h h2 : Heap} (hm : MapValid allNodes h)
    (he : Ext h h2) : MapValid allNodes h2 := by
  intro k p hkp
  obtain ⟨n, hn⟩ := hm k p hkp
  obtain ⟨n2, hn2, _⟩ := he.1 p n hn
  exact ⟨n2, hn2⟩

theorem NilFree.nilFreeValid {heap : Heap} {allNodes : NodeMap} (h : NilFree heap allNodes) :
    ChildrenValid heap ∧ MapValid allNodes heap := by
  constructor
  · intro p n hn c hc
    have := h.2 n (deref_mem hn) c hc
    exact Option.isSome_iff_exists.1 this
  · intro k p hkp
    exact Option.isSome_iff_exists.1 (h.1 (k, p) hkp)

theorem seedChild_spec {P : List GoString} {c : Nat} {st s : GenState}
    (h : seedChild st c = some s) (hg : Good P st) : Good P s ∧ Step st s := by
  unfold seedChild at h
  cases hd : deref st.heap c with
  | none => simp [hd] at h
  | some n =>
    simp only [hd] at h
    have hin : n.Path ∈ P := hg.paths c n hd
    have e1 : Ext st.heap (alloc st.heap _).1 :=
      ext_alloc st.heap (x := ⟨n.Path, n.Value, n.Path, []⟩) rfl
    have p1 : PathsIn P (alloc st.heap _).1 :=
      hg.paths.pathsAlloc (x := ⟨n.Path, n.Value, n.Path, []⟩) hin
    split_ifs at h with hc
    · cases hu : update (alloc st.heap ⟨n.Path, n.Value, n.Path, []⟩).1
          (alloc st.heap ⟨n.Path, n.Value, n.Path, []⟩).2
          (fun x => { x with Name := ShortName x.Path }) with
      | none => simp [hu] at h
      | some h2 =>
        simp only [hu, Option.some.injEq] at h
        subst h
        have e2 : Ext _ h2 := ext_update hu (fun x => ⟨rfl, rfl⟩)
        have e := e1.extTrans e2
        have hnew : deref h2 (alloc st.heap ⟨n.Path, n.Value, n.Path, []⟩).2 =
            some ⟨ShortName n.Path, n.Value, n.Path, []⟩ := by
          rw [deref_update hu, if_pos rfl, deref_alloc_new]; rfl
        refine ⟨⟨(hg.vis.visExt e).visSet hnew rfl, p1.pathsUpdate hu (fun _ => rfl), ?_⟩,
          ⟨e, fun k hk => (mem_keys_mapSet _ _ _ _).2 (Or.inr hk)⟩⟩
        intro q hq
        obtain ⟨m, hm⟩ := hg.queue q hq
        obtain ⟨m2, hm2, _⟩ := e.1 q m hm
        exact ⟨m2, hm2⟩
    · simp only [Option.some.injEq] at h
      subst h
      refine ⟨⟨hg.vis.visExt e1, p1, ?_⟩, ⟨e1, fun k hk => hk⟩⟩
      intro q hq
      rcases List.mem_append.1 hq with h1 | h1
      · obtain ⟨m, hm⟩ := hg.queue q h1
        exact ⟨m, deref_alloc_old _ hm⟩
      · simp only [List.mem_singleton] at h1
        subst h1
        exact ⟨_, deref_alloc_new _ _⟩

theorem forEach_seedChild_spec {P : List GoString} (l : List Nat) {st s : GenState}
    (h : forEach seedChild st l = some s) (hg : Good P st) : Good P s ∧ Step st s :=
  forEach_induction seedChild Step Step.stepRefl (fun _ _ _ x y => x.stepTrans y)
    (Good P) (fun _ _ _ hI hb => seedChild_spec hb hI) l st s hg h

theorem good_init (heap : Heap) :
    Good (heap.map TreeNode.Path) { heap := heap, queue := [], visitedNode := [] } := by
  refine ⟨⟨by simp [keys], fun k p h => by cases h⟩, ?_, fun q h => by cases h⟩
  intro p n hn
  exact List.mem_map_of_mem _ (deref_mem hn)

/-! ## Absence of panics on nil-free inputs -/

theorem seedChild_progress (st : GenState) {c : Nat} {n : TreeNode}
    (hd : deref st.heap c = some n) : ∃ s, seedChild st c = some s := by
  unfold seedChild
  simp only [hd]
  split_ifs with hc
  · rw [update_isSome _ (deref_alloc_new _ _)]
    exact ⟨_, rfl⟩
  · exact ⟨_, rfl⟩

theorem forEach_seedChild_progress {P : List GoString} :
    ∀ (l : List Nat) (st : GenState), Good P st →
      (∀ c ∈ l, ∃ n, deref st.heap c = some n) → ∃ s, forEach seedChild st l = some s := by
  intro l
  induction l with
  | nil => intro st _ _; exact ⟨st, rfl⟩
  | cons c rest ih =>
    intro st hg hv
    obtain ⟨n, hn⟩ := hv c (List.mem_cons_self _ _)
    obtain ⟨s1, hs1⟩ := seedChild_progress st hn
    obtain ⟨g1, st1⟩ := seedChild_spec hs1 hg
    have hv1 : ∀ c2 ∈ rest, ∃ n, deref s1.heap c2 = some n := by
      intro c2 hc2
      obtain ⟨m, hm⟩ := hv c2 (List.mem_cons_of_mem _ hc2)
      obtain ⟨m2, hm2, _⟩ := st1.ext.1 c2 m hm
      exact ⟨m2, hm2⟩
    obtain ⟨s, hs⟩ := ih s1 g1 hv1
    exact ⟨s, by simp only [forEach, hs1]; exact hs⟩

theorem addFanOut_progress {node : Nat} (fan : Nat) {st : GenState} {n : TreeNode}
    (hn : deref st.heap node = some n) : ∃ s, addFanOut node fan st = some s := by
  unfold addFanOut
  simp only [hn]
  rw [update_isSome _ hn]
  exact ⟨_, rfl⟩

theorem pushChild_progress {node v : Nat} {st : GenState} {n vn : TreeNode}
    (hn : deref st.heap node = some n) (hv : deref st.heap v = some vn) :
    ∃ s, pushChild node v st = some s := by
  unfold pushChild
  simp only [hn, hv]
  exact ⟨_, rfl⟩

theorem visitChild_progress {P : List GoString} {node v : Nat} {st : GenState}
    {n vn : TreeNode} (hg : Good P st)
    (hn : deref st.heap node = some n) (hv : deref st.heap v = some vn) :
    ∃ s, visitChild node st v = some s := by
  unfold visitChild
  simp only [hv]
  have key : ∃ s1, (if 0 < vn.Children.length then addFanOut node vn.Children.length st
      else some st) = some s1 ∧ Step st s1 := by
    split_ifs with hc
    · obtain ⟨s1, hs1⟩ := addFanOut_progress vn.Children.length hn
      exact ⟨s1, hs1, (addFanOut_spec hs1 hg).2.1⟩
    · exact ⟨st, rfl, Step.stepRefl _⟩
  obtain ⟨s1, hs1, st1⟩ := key
  simp only [hs1]
  split_ifs with hok
  · exact ⟨_, rfl⟩
  · obtain ⟨n2, hn2, _⟩ := st1.ext.1 node n hn
    obtain ⟨v2, hv2, _⟩ := st1.ext.1 v vn hv
    exact pushChild_progress hn2 hv2

theorem forEach_visitChild_progress {P : List GoString} {node : Nat} :
    ∀ (l : List Nat) (st : GenState), Good P st → NodeSeen node st →
      (∀ v ∈ l, ∃ m, deref st.heap v = some m) →
      ∃ s, forEach (visitChild node) st l = some s := by
  intro l
  induction l with
  | nil => intro st _ _ _; exact ⟨st, rfl⟩
  | cons v rest ih =>
    intro st hg hseen hv
    obtain ⟨vn, hvn⟩ := hv v (List.mem_cons_self _ _)
    obtain ⟨n, hn, hk⟩ := hseen
    obtain ⟨s1, hs1⟩ := visitChild_progress hg hn hvn
    obtain ⟨g1, st1, _⟩ := visitChild_spec hs1 hg ⟨n, hn, hk⟩
    have hv1 : ∀ c2 ∈ rest, ∃ m, deref s1.heap c2 = some m := by
      intro c2 hc2
      obtain ⟨m, hm⟩ := hv c2 (List.mem_cons_of_mem _ hc2)
      obtain ⟨m2, hm2, _⟩ := st1.ext.1 c2 m hm
      exact ⟨m2, hm2⟩
    obtain ⟨s, hs⟩ := ih s1 g1 (NodeSeen.seenStep ⟨n, hn, hk⟩ st1) hv1
    exact ⟨s, by simp only [forEach, hs1]; exact hs⟩

theorem expand_progress {P : List GoString} (allNodes : NodeMap) {node : Nat}
    (st : GenState) {n : TreeNode} (hg : Good P st) (hc : ChildrenValid st.heap)
    (hm : MapValid allNodes st.heap) (hn : deref st.heap node = some n) :
    ∃ s, expand allNodes st node = some s := by
  unfold expand
  simp only [hn]
  cases hmg : mapGet allNodes n.Path with
  | none => exact ⟨st, rfl⟩
  | some treeNode =>
    simp only
    have hu1 := update_isSome (fun x => { x with Name := ShortName x.Path }) hn
    have e1 : Ext st.heap _ := ext_update hu1 (fun x => ⟨rfl, rfl⟩)
    rw [hu1]
    simp only
    obtain ⟨tn0, htn0⟩ := hm _ _ (mapGet_mem hmg)
    obtain ⟨tn, htn, _, hch⟩ := e1.1 treeNode tn0 htn0
    obtain ⟨n1, hn1, hp1, _⟩ := e1.1 node n hn
    simp only [htn]
    have hu2 := update_isSome (fun x => { x with Value := addInt x.Value tn.Children.length }) hn1
    have e2 : Ext _ _ := ext_update hu2 (fun x => ⟨rfl, rfl⟩)
    rw [hu2]
    simp only
    have e := e1.extTrans e2
    obtain ⟨n2, hn2, hp2, _⟩ := e.1 node n hn
    have g0 : Good P { heap := store (store st.heap node { n with Name := ShortName n.Path }) node { n1 with Value := addInt n1.Value tn.Children.length }, queue := st.queue, visitedNode := mapSet st.visitedNode n.Path node } := by
      refine ⟨(hg.vis.visExt e).visSet hn2 hp2,
        (hg.paths.pathsUpdate hu1 (fun _ => rfl)).pathsUpdate hu2 (fun _ => rfl), ?_⟩
      intro q hq
      obtain ⟨m, hm2⟩ := hg.queue q hq
      obtain ⟨m2, hm3, _⟩ := e.1 q m hm2
      exact ⟨m2, hm3⟩
    apply forEach_visitChild_progress tn.Children _ g0
      ⟨n2, hn2, (mem_keys_mapSet _ _ _ _).2 (Or.inl hp2)⟩
    intro v hv
    have := (hc.childrenExt e1) treeNode tn htn v hv
    obtain ⟨m, hm2⟩ := this
    obtain ⟨m2, hm3, _⟩ := e2.1 v m hm2
    exact ⟨m2, hm3⟩

/-- On a nil-free input the main loop returns as soon as the budget reaches the measure. -/
theorem bfs_progress {P : List GoString} (allNodes : NodeMap) :
    ∀ (fuel : Nat) (st : GenState), Good P st → ChildrenValid st.heap →
      MapValid allNodes st.heap → loopMeasure P st ≤ fuel →
      ∃ s, bfs allNodes fuel st = Run.done s := by
  intro fuel
  induction fuel with
  | zero =>
    intro st hg _ _ hm
    unfold bfs
    cases hq : st.queue with
    | nil => exact ⟨_, rfl⟩
    | cons node rest => simp [loopMeasure, hq] at hm
  | succ fuel ih =>
    intro st hg hc hmv hm
    unfold bfs
    cases hq : st.queue with
    | nil => exact ⟨_, rfl⟩
    | cons node rest =>
      simp only
      have g1 : Good P { st with queue := rest } :=
        ⟨hg.vis, hg.paths, fun q hq2 => hg.queue q (by rw [hq]; exact List.mem_cons_of_mem _ hq2)⟩
      obtain ⟨n, hn⟩ := hg.queue node (by rw [hq]; exact List.mem_cons_self _ _)
      obtain ⟨st2, he⟩ := expand_progress allNodes { st with queue := rest }
        g1 hc hmv hn
      obtain ⟨g2, s2, m2⟩ := expand_spec he g1
      simp only [he]
      apply ih st2 g2 (hc.childrenExt s2.ext) (hmv.mapExt s2.ext)
      simp only [loopMeasure, hq, List.length_cons] at hm m2 ⊢
      omega

theorem mem_firstOccurrences (l : List GoString) (x : GoString) :
    x ∈ firstOccurrences l ↔ x ∈ l := by
  induction l with
  | nil => simp [firstOccurrences]
  | cons a rest ih =>
    simp only [firstOccurrences, List.mem_cons, List.mem_filter, ih]
    by_cases hx : x = a
    · simp [hx]
    · simp [hx]

theorem nodup_firstOccurrences (l : List GoString) : (firstOccurrences l).Nodup := by
  induction l with
  | nil => simp [firstOccurrences]
  | cons a rest ih =>
    simp only [firstOccurrences, List.nodup_cons, List.mem_filter]
    exact ⟨fun h => by simp at h, ih.filter _⟩

theorem firstOccurrences_concat (l : List GoString) (t : GoString) :
    firstOccurrences (l ++ [t]) =
      if t ∈ l then firstOccurrences l else firstOccurrences l ++ [t] := by
  induction l with
  | nil => simp [firstOccurrences]
  | cons a rest ih =>
    simp only [List.cons_append, firstOccurrences, List.mem_cons, List.append_eq]
    rw [ih]
    by_cases h1 : t ∈ rest
    · simp [h1]
    · by_cases h2 : t = a
      · subst h2
        simp [h1, List.filter_append]
      · simp [h1, h2, List.filter_append]

theorem tailsOf_concat (k h t : GoString) (ps : List (GoString × GoString)) :
    tailsOf k (ps ++ [(h, t)]) = if h = k then tailsOf k ps ++ [t] else tailsOf k ps := by
  simp only [tailsOf, List.filter_append, List.map_append]
  by_cases hk : h = k
  · simp [hk]
  · simp [hk]

theorem SameIds.sameChildPaths {h1 h2 : Heap} (hs : SameIds h1 h2) {cs : List Nat}
    {names : List GoString}
    (hc : cs.map (fun c => (deref h1 c).map TreeNode.Path) = names.map some) :
    cs.map (fun c => (deref h2 c).map TreeNode.Path) = names.map some := by
  induction cs generalizing names with
  | nil => simpa using hc
  | cons c rest ih =>
    cases names with
    | nil => simp at hc
    | cons a as =>
      simp only [List.map_cons, List.cons.injEq] at hc ⊢
      obtain ⟨hc1, hc2⟩ := hc
      refine ⟨?_, ih hc2⟩
      cases hd : deref h1 c with
      | none => simp [hd] at hc1
      | some n =>
        obtain ⟨n2, hn2, _, hp, _⟩ := hs c n hd
        simp only [hd, Option.map_some', Option.some.injEq] at hc1
        simp [hn2, hp, hc1]

theorem childExists_eq {h : Heap} {tailNode : Nat} {tn : TreeNode}
    (hcells : ∀ p n, deref h p = some n → n.Name = n.Path)
    (ht : deref h tailNode = some tn) :
    ∀ (cs : List Nat) (names : List GoString),
      cs.map (fun c => (deref h c).map TreeNode.Path) = names.map some →
      childExists h tailNode cs = some (decide (tn.Path ∈ names)) := by
  intro cs
  induction cs with
  | nil =>
    intro names hc
    cases names with
    | nil => simp [childExists]
    | cons a as => simp at hc
  | cons c rest ih =>
    intro names hc
    cases names with
    | nil => simp at hc
    | cons a as =>
      simp only [List.map_cons, List.cons.injEq] at hc
      obtain ⟨hc1, hc2⟩ := hc
      cases hd : deref h c with
      | none => simp [hd] at hc1
      | some vn =>
        simp only [hd, Option.map_some', Option.some.injEq] at hc1
        simp only [childExists, hd, ht]
        rw [hcells c vn hd, hcells tailNode tn ht, hc1]
        by_cases hat : a = tn.Path
        · simp [hat]
        · rw [if_neg hat, ih as hc2]
          have : ¬ tn.Path = a := fun h => hat h.symm
          simp [this]

theorem mem_mapSet_self (m : NodeMap) (k : GoString) (v : Nat) : (k, v) ∈ mapSet m k v := by
  induction m with
  | nil => simp [mapSet]
  | cons a rest ih =>
    obtain ⟨k1, v1⟩ := a
    simp only [mapSet]
    split_ifs with hk
    · rw [hk]; exact List.mem_cons_self _ _
    · exact List.mem_cons_of_mem _ ih

theorem mem_mapSet_of_mem {m : NodeMap} {k : GoString} (v : Nat) {e : GoString × Nat}
    (he : e ∈ m) (hk : e.1 ≠ k) : e ∈ mapSet m k v := by
  induction m with
  | nil => cases he
  | cons a rest ih =>
    obtain ⟨k1, v1⟩ := a
    simp only [mapSet]
    rcases List.mem_cons.1 he with h1 | h1
    · subst h1
      rw [if_neg hk]
      exact List.mem_cons_self _ _
    · split_ifs with hk1
      · exact List.mem_cons_of_mem _ h1
      · exact List.mem_cons_of_mem _ (ih h1)

theorem mem_keys_of_mem {m : NodeMap} {k : GoString} {p : Nat} (h : (k, p) ∈ m) :
    k ∈ keys m := List.mem_map_of_mem Prod.fst h

theorem map_functional {m : NodeMap} (hn : (keys m).Nodup) {k : GoString} {p q : Nat}
    (hp : (k, p) ∈ m) (hq : (k, q) ∈ m) : p = q := by
  induction m with
  | nil => cases hp
  | cons a rest ih =>
    simp only [keys, List.map_cons, List.nodup_cons] at hn
    rcases List.mem_cons.1 hp with h1 | h1
    · rcases List.mem_cons.1 hq with h2 | h2
      · rw [← h1] at h2; cases h2; rfl
      · exact absurd (by rw [← h1]; exact mem_keys_of_mem h2) hn.1
    · rcases List.mem_cons.1 hq with h2 | h2
      · exact absurd (by rw [← h2]; exact mem_keys_of_mem h1) hn.1
      · exact ih hn.2 h1 h2

theorem sameIds_alloc (h : Heap) (x : TreeNode) : SameIds h (alloc h x).1 :=
  fun _ n hn => ⟨n, deref_alloc_old x hn, rfl, rfl, rfl⟩

theorem tailsOf_eq_nil {ps : List (GoString × GoString)} {k : GoString}
    (h : ∀ e ∈ ps, e.1 ≠ k) : tailsOf k ps = [] := by
  simp only [tailsOf, List.map_eq_nil_iff, List.filter_eq_nil_iff]
  intro e he
  simpa using h e he

theorem getOrCreate_spec {ps : List (GoString × GoString)} {heap : Heap} {nodes : NodeMap}
    (name : GoString) (hI : NodeInv ps heap nodes) :
    NodeInv ps (getOrCreate heap nodes name).1 (getOrCreate heap nodes name).2.1 ∧
    (∀ k, k ∈ keys (getOrCreate heap nodes name).2.1 ↔ k = name ∨ k ∈ keys nodes) ∧
    (name, (getOrCreate heap nodes name).2.2) ∈ (getOrCreate heap nodes name).2.1 ∧
    (∀ e ∈ nodes, e ∈ (getOrCreate heap nodes name).2.1) := by
  unfold getOrCreate
  cases hm : mapGet nodes name with
  | some p =>
    simp only
    have hmem := mapGet_mem hm
    refine ⟨hI, fun k => ⟨Or.inr, ?_⟩, hmem, fun e he => he⟩
    rintro (rfl | h)
    · exact mem_keys_of_mem hmem
    · exact h
  | none =>
    simp only
    have hnot : name ∉ keys nodes := (mapGet_eq_none_iff _ _).1 hm
    refine ⟨⟨nodup_keys_mapSet _ _ hI.nodup, ?_, ?_, ?_⟩, fun k => mem_keys_mapSet _ _ _ _,
      mem_mapSet_self _ _ _, fun e he => mem_mapSet_of_mem _ he ?_⟩
    · intro e he
      exact ⟨(mem_keys_mapSet _ _ _ _).2 (Or.inr (hI.cover e he).1),
        (mem_keys_mapSet _ _ _ _).2 (Or.inr (hI.cover e he).2)⟩
    · intro p n hn
      rw [deref_alloc] at hn
      split_ifs at hn with h1
      · cases hn; rfl
      · exact hI.cells p n hn
    · intro k p hkp
      rcases mem_mapSet hkp with h1 | h1
      · cases h1
        refine ⟨_, deref_alloc_new _ _, rfl, rfl, ?_⟩
        rw [tailsOf_eq_nil (fun e he h2 => hnot (by rw [← h2]; exact (hI.cover e he).1))]
        rfl
      · obtain ⟨n, hn, hp, hv, hc⟩ := hI.node k p h1
        exact ⟨n, deref_alloc_old _ hn, hp, hv, (sameIds_alloc heap _).sameChildPaths hc⟩
    · intro h2
      exact hnot (by rw [← h2]; exact mem_keys_of_mem (p := e.2) he)

theorem addEdge_spec {ps : List (GoString × GoString)} {st st2 : ParseState}
    {h t : GoString} (hI : ParseInv ps st) (hh : h ≠ [])
    (he : addEdge st h t = some st2) : ParseInv (ps ++ [(h, t)]) st2 := by
  unfold addEdge at he
  simp only at he
  obtain ⟨I1, k1, m1, sub1⟩ := getOrCreate_spec h hI.inv
  generalize getOrCreate st.heap st.nodes h = r1 at he I1 k1 m1 sub1
  obtain ⟨I2, k2, m2, sub2⟩ := getOrCreate_spec t I1
  generalize getOrCreate r1.1 r1.2.1 t = r2 at he I2 k2 m2 sub2
  have mh := sub2 _ m1
  obtain ⟨hn, hhn, hhp, hhv, hhc⟩ := I2.node h r1.2.2 mh
  obtain ⟨tn, htn, htp, htv, htc⟩ := I2.node t r2.2.2 m2
  simp only [hhn] at he
  have hce := childExists_eq I2.cells htn hn.Children _ hhc
  rw [hce, htp] at he
  simp only [Option.some.injEq] at he
  -- the heap after lines 287-289
  have key : ∃ H3, st2 = { heap := H3, nodes := mapSet r2.2.1 h r1.2.2, startNode := if st.startNode = [] then h else st.startNode } ∧
      (∀ p n, deref H3 p = some n → n.Name = n.Path) ∧
      (∀ k p, (k, p) ∈ r2.2.1 → ∃ n, deref H3 p = some n ∧ n.Path = k ∧ n.Value = 1 ∧
        childPaths H3 n = (firstOccurrences (tailsOf k (ps ++ [(h, t)]))).map some) := by
    by_cases hex : t ∈ firstOccurrences (tailsOf h ps)
    · simp only [hex, decide_True, if_true] at he
      refine ⟨r2.1, he.symm, I2.cells, fun k p hkp => ?_⟩
      obtain ⟨n, hn1, hp1, hv1, hc1⟩ := I2.node k p hkp
      refine ⟨n, hn1, hp1, hv1, ?_⟩
      rw [hc1, tailsOf_concat]
      split_ifs with hk
      · subst hk
        rw [firstOccurrences_concat, if_pos ((mem_firstOccurrences _ _).1 hex)]
      · rfl
    · simp only [hex, decide_False, Bool.false_eq_true, if_false] at he
      have hd3 : ∀ q, deref (store r2.1 r1.2.2 { hn with Children := hn.Children ++ [r2.2.2] }) q =
          if q = r1.2.2 then some { hn with Children := hn.Children ++ [r2.2.2] } else deref r2.1 q := by
        intro q
        rw [deref_store, hhn]
        rfl
      have hsame : SameIds r2.1 (store r2.1 r1.2.2 { hn with Children := hn.Children ++ [r2.2.2] }) := by
        intro q n hq
        rw [hd3]
        split_ifs with h1
        · subst h1
          rw [hhn] at hq
          cases hq
          exact ⟨_, rfl, rfl, rfl, rfl⟩
        · exact ⟨n, hq, rfl, rfl, rfl⟩
      refine ⟨_, he.symm, ?_, fun k p hkp => ?_⟩
      · intro p n hn1
        rw [hd3] at hn1
        split_ifs at hn1 with h1
        · cases hn1
          exact I2.cells _ hn hhn
        · exact I2.cells p n hn1
      · obtain ⟨n, hn1, hp1, hv1, hc1⟩ := I2.node k p hkp
        by_cases hp : p = r1.2.2
        · subst hp
          rw [hhn] at hn1
          cases hn1
          have hk : h = k := hhp.symm.trans hp1
          subst hk
          refine ⟨{ hn with Children := hn.Children ++ [r2.2.2] }, by rw [hd3, if_pos rfl],
            hhp, hhv, ?_⟩
          obtain ⟨tn3, htn3, _, htp3, _⟩ := hsame _ _ htn
          rw [tailsOf_concat, if_pos rfl, firstOccurrences_concat,
            if_neg (fun hmem => hex ((mem_firstOccurrences _ _).2 hmem))]
          have := hsame.sameChildPaths hhc
          simp only [childPaths, List.map_append, List.map_cons, List.map_nil, this, htn3,
            Option.map_some', htp3, htp]
        · have hkh : ¬ h = k := by
            intro hk
            subst hk
            exact hp (map_functional I2.nodup hkp mh)
          refine ⟨n, by rw [hd3, if_neg hp]; exact hn1, hp1, hv1, ?_⟩
          rw [tailsOf_concat, if_neg hkh]
          exact hsame.sameChildPaths hc1
  obtain ⟨H3, rfl, hcells, hnode⟩ := key
  have hkeys : ∀ k, k ∈ keys (mapSet r2.2.1 h r1.2.2) ↔ k = h ∨ k = t ∨ k ∈ keys st.nodes := by
    intro k
    rw [mem_keys_mapSet, k2, k1]
    constructor
    · rintro (h1 | h1 | h1 | h1)
      · exact Or.inl h1
      · exact Or.inr (Or.inl h1)
      · exact Or.inl h1
      · exact Or.inr (Or.inr h1)
    · rintro (h1 | h1 | h1)
      · exact Or.inl h1
      · exact Or.inr (Or.inl h1)
      · exact Or.inr (Or.inr (Or.inr h1))
  refine ⟨⟨nodup_keys_mapSet _ _ I2.nodup, ?_, hcells, ?_⟩, ?_, ?_, ?_⟩
  · intro e he2
    rcases List.mem_append.1 he2 with h1 | h1
    · exact ⟨(hkeys _).2 (Or.inr (Or.inr (hI.inv.cover e h1).1)),
        (hkeys _).2 (Or.inr (Or.inr (hI.inv.cover e h1).2))⟩
    · simp only [List.mem_singleton] at h1
      subst h1
      exact ⟨(hkeys _).2 (Or.inl rfl), (hkeys _).2 (Or.inr (Or.inl rfl))⟩
  · intro k p hkp
    rcases mem_mapSet hkp with h1 | h1
    · cases h1; exact hnode _ _ mh
    · exact hnode _ _ h1
  · intro k hk
    rcases (hkeys k).1 hk with h1 | h1 | h1
    · exact ⟨(h, t), by simp, Or.inl h1⟩
    · exact ⟨(h, t), by simp, Or.inr h1⟩
    · obtain ⟨e, he2, h2⟩ := hI.only k h1
      exact ⟨e, List.mem_append_left _ he2, h2⟩
  · simp only
    cases ps with
    | nil =>
      have := hI.start
      simp only [firstHead] at this
      simp [this, firstHead]
    | cons e rest =>
      have h1 := hI.start
      simp only [firstHead] at h1
      have h2 := hI.heads e (List.mem_cons_self _ _)
      rw [h1, if_neg h2]
      rfl
  · intro e he2
    rcases List.mem_append.1 he2 with h1 | h1
    · exact hI.heads e h1
    · simp only [List.mem_singleton] at h1
      subst h1
      exact hh

/-! ## String lemmas -/

theorem containsAny_iff (s : GoString) : ContainsAny s = true ↔ slash ∈ s := by
  unfold ContainsAny
  rw [List.any_eq_true]
  constructor
  · rintro ⟨x, hx, h⟩
    have hxs : x = slash := by simpa using h
    rw [← hxs]; exact hx
  · intro h
    exact ⟨slash, h, by simp⟩

theorem firstPiece_Split (sep : Nat) (s : GoString) :
    firstPiece (Split sep s) = s.takeWhile (fun b => decide (b ≠ sep)) := by
  induction s with
  | nil => simp [Split, firstPiece]
  | cons b rest ih =>
    simp only [Split]
    by_cases hb : b = sep
    · simp [hb, firstPiece]
    · rw [if_neg hb, List.takeWhile_cons_of_pos (by simpa using hb), ← ih]
      cases Split sep rest with
      | nil => simp [firstPiece]
      | cons p ps => simp [firstPiece]

theorem not_mem_firstPiece_Split (sep : Nat) (s : GoString) :
    sep ∉ firstPiece (Split sep s) := by
  rw [firstPiece_Split]
  intro h
  have := List.mem_takeWhile_imp h
  simp at this

theorem Split_of_not_mem {sep : Nat} {s : GoString} (h : sep ∉ s) : Split sep s = [s] := by
  induction s with
  | nil => simp [Split]
  | cons b rest ih =>
    simp only [List.mem_cons, not_or] at h
    simp only [Split]
    rw [if_neg (fun hb => h.1 hb.symm), ih h.2]

theorem Split_of_mem {sep : Nat} {s : GoString} (h : sep ∈ s) :
    ∃ p0 p1 rest, Split sep s = p0 :: p1 :: rest := by
  induction s with
  | nil => cases h
  | cons b rest ih =>
    simp only [Split]
    by_cases hb : b = sep
    · rw [if_pos hb]
      cases hs : Split sep rest with
      | nil =>
        exfalso
        cases rest with
        | nil => simp [Split] at hs
        | cons c cs =>
          simp only [Split] at hs
          split_ifs at hs
          cases h2 : Split sep cs <;> simp [h2] at hs
      | cons p ps => exact ⟨[], p, ps, rfl⟩
    · rw [if_neg hb]
      have hr : sep ∈ rest := by
        rcases List.mem_cons.1 h with h1 | h1
        · exact absurd h1.symm hb
        · exact h1
      obtain ⟨p0, p1, ps, hps⟩ := ih hr
      rw [hps]
      exact ⟨_, _, _, rfl⟩

theorem tokens_eq_none_iff (line : GoString) : tokens line = none ↔ space ∉ line := by
  constructor
  · intro h hmem
    obtain ⟨p0, p1, rest, hs⟩ := Split_of_mem hmem
    simp [tokens, hs] at h
  · intro h
    simp [tokens, Split_of_not_mem h]

theorem tokens_no_at {line h t : GoString} (ht : tokens line = some (h, t)) :
    atSign ∉ h ∧ atSign ∉ t := by
  unfold tokens at ht
  split at ht
  · simp only [Option.some.injEq, Prod.mk.injEq] at ht
    rw [← ht.1, ← ht.2]
    exact ⟨not_mem_firstPiece_Split _ _, not_mem_firstPiece_Split _ _⟩
  · cases ht

/-! ## The parse loop keeps its invariant and fails only on a record without a space -/

theorem addEdge_progress {ps : List (GoString × GoString)} {st : ParseState}
    (h t : GoString) (hI : ParseInv ps st) : ∃ st2, addEdge st h t = some st2 := by
  unfold addEdge
  simp only
  obtain ⟨I1, _, m1, _⟩ := getOrCreate_spec h hI.inv
  generalize getOrCreate st.heap st.nodes h = r1 at I1 m1 ⊢
  obtain ⟨I2, _, m2, sub2⟩ := getOrCreate_spec t I1
  generalize getOrCreate r1.1 r1.2.1 t = r2 at I2 m2 sub2 ⊢
  obtain ⟨hn, hhn, _, _, hhc⟩ := I2.node h r1.2.2 (sub2 _ m1)
  obtain ⟨tn, htn, _⟩ := I2.node t r2.2.2 m2
  simp only [hhn]
  rw [childExists_eq I2.cells htn hn.Children _ hhc]
  exact ⟨_, rfl⟩

theorem processLine_spec {ps : List (GoString × GoString)} {st st2 : ParseState}
    {line : GoString} (hI : ParseInv ps st) (h : processLine st line = some st2) :
    ParseInv (ps ++ (acceptedPair line).toList) st2 := by
  unfold processLine at h
  unfold acceptedPair
  cases ht : tokens line with
  | none => simp [ht] at h
  | some e =>
    obtain ⟨hd, tl⟩ := e
    simp only [ht] at h ⊢
    by_cases h1 : ContainsAny hd = true
    · by_cases h2 : ContainsAny tl = true
      · simp only [h1, h2, Bool.not_true, Bool.false_eq_true, if_false, Bool.and_self,
          if_true, Option.toList_some] at h ⊢
        refine addEdge_spec hI ?_ h
        intro hnil
        rw [hnil] at h1
        simp [ContainsAny] at h1
      · simp only [h1, h2, Bool.not_true, Bool.false_eq_true, if_false, Bool.not_false,
          if_true, Option.some.injEq, Bool.and_false, Option.toList_none,
          List.append_nil] at h ⊢
        rw [← h]; exact hI
    · simp only [h1, Bool.not_false, if_true, Option.some.injEq, Bool.false_and,
        Bool.false_eq_true, if_false, Option.toList_none, List.append_nil] at h ⊢
      rw [← h]; exact hI

theorem processLine_progress {ps : List (GoString × GoString)} {st : ParseState}
    {line : GoString} (hI : ParseInv ps st) (hs : space ∈ line) :
    ∃ st2, processLine st line = some st2 := by
  unfold processLine
  cases ht : tokens line with
  | none => exact absurd hs ((tokens_eq_none_iff line).1 ht)
  | some e =>
    obtain ⟨hd, tl⟩ := e
    simp only
    split_ifs
    · exact ⟨st, rfl⟩
    · exact ⟨st, rfl⟩
    · exact addEdge_progress hd tl hI

theorem runRecords_spec :
    ∀ (lines : List GoString) (ps : List (GoString × GoString)) (st st2 : ParseState),
      ParseInv ps st → runRecords st lines = some st2 →
      ParseInv (ps ++ acceptedPairs lines) st2 := by
  intro lines
  induction lines with
  | nil =>
    intro ps st st2 hI h
    simp only [runRecords, Option.some.injEq] at h
    subst h
    simpa [acceptedPairs] using hI
  | cons line rest ih =>
    intro ps st st2 hI h
    simp only [runRecords] at h
    cases hp : processLine st line with
    | none => simp [hp] at h
    | some st1 =>
      simp only [hp] at h
      have := ih _ st1 st2 (processLine_spec hI hp) h
      have e : ps ++ acceptedPairs (line :: rest) =
          ps ++ (acceptedPair line).toList ++ acceptedPairs rest := by
        simp only [acceptedPairs, List.filterMap_cons, List.append_assoc]
        cases acceptedPair line <;> simp
      rw [e]; exact this

theorem runRecords_eq_none_iff :
    ∀ (lines : List GoString) (ps : List (GoString × GoString)) (st : ParseState),
      ParseInv ps st → (runRecords st lines = none ↔ ∃ line ∈ lines, space ∉ line) := by
  intro lines
  induction lines with
  | nil => intro ps st _; simp [runRecords]
  | cons line rest ih =>
    intro ps st hI
    simp only [runRecords, List.mem_cons, exists_eq_or_imp]
    by_cases hs : space ∈ line
    · obtain ⟨st1, hp⟩ := processLine_progress hI hs
      simp only [hp, hs, not_true_eq_false, false_or]
      exact ih _ st1 (processLine_spec hI hp)
    · have : processLine st line = none := by
        simp [processLine, (tokens_eq_none_iff line).2 hs]
      simp [this, hs]

theorem parseInv_init : ParseInv [] initState := by
  refine ⟨⟨by simp [initState, keys], fun e he => (by cases he), ?_,
    fun k p h => (by cases h)⟩,
    fun k h => (by simp [initState, keys] at h), rfl, fun e he => (by cases he)⟩
  intro p n hn
  cases p <;> simp [initState, deref] at hn

theorem parse_spec {byteData : GoString} {st : ParseState} (h : parse byteData = some st) :
    ParseInv (accepted byteData) st := by
  have := runRecords_spec _ [] initState st parseInv_init h
  simpa [accepted] using this

theorem paths_of_visited {h : Heap} :
    ∀ (vis : NodeMap), (∀ k p, (k, p) ∈ vis → ∃ n, deref h p = some n ∧ n.Path = k) →
      ((vis.map Prod.snd).filterMap (deref h)).map TreeNode.Path = keys vis ∧
      ((vis.map Prod.snd).filterMap (deref h)).length = vis.length := by
  intro vis
  induction vis with
  | nil => intro _; simp [keys]
  | cons a rest ih =>
    intro hv
    obtain ⟨k, p⟩ := a
    obtain ⟨n, hn, hp⟩ := hv k p (List.mem_cons_self _ _)
    obtain ⟨ih1, ih2⟩ := ih (fun k2 p2 h2 => hv k2 p2 (List.mem_cons_of_mem _ h2))
    simp only [List.map_cons, List.filterMap_cons, hn, keys, List.length_cons]
    simp only [keys] at ih1
    rw [ih1, ih2, hp]
    exact ⟨rfl, rfl⟩

theorem GenTree_done {fuel : Nat} {startNode : GoString} {allNodes : NodeMap} {heap : Heap}
    {r : Heap × List Nat}
    (h : GenTreeNodeByDependency fuel startNode allNodes heap = Run.done r) :
    ∃ st, Good (heap.map TreeNode.Path) st ∧ Ext heap st.heap ∧
      r = (st.heap, st.visitedNode.map Prod.snd) := by
  unfold GenTreeNodeByDependency at h
  simp only at h
  cases hd : deref heap ((mapGet allNodes startNode).getD 0) with
  | none => simp [hd] at h
  | some rn =>
    simp only [hd] at h
    cases hs : forEach seedChild { heap := heap, queue := [], visitedNode := [] }
        rn.Children with
    | none => simp [hs] at h
    | some st0 =>
      simp only [hs] at h
      obtain ⟨g0, s0⟩ := forEach_seedChild_spec rn.Children hs (good_init heap)
      cases hb : bfs allNodes fuel st0 with
      | done st =>
        simp only [hb, Run.done.injEq] at h
        obtain ⟨g, s1⟩ := bfs_good fuel st0 st g0 hb
        exact ⟨st, g, s0.ext.extTrans s1.ext, h.symm⟩
      | panic => simp [hb] at h
      | outOfFuel => simp [hb] at h

/-- C1. Whenever `GenTreeNodeByDependency` returns, every returned pointer points to a
record and no two of the returned records have the same `Path`. -/
theorem GenTreeNodeByDependency_paths_unique (fuel : Nat) (startNode : GoString)
    (allNodes : NodeMap) (heap : Heap) (r : Heap × List Nat)
    (h : GenTreeNodeByDependency fuel startNode allNodes heap = Run.done r) :
    (resultNodes r).length = r.2.length ∧ ((resultNodes r).map TreeNode.Path).Nodup := by
  obtain ⟨st, g, _, rfl⟩ := GenTree_done h
  obtain ⟨h1, h2⟩ := paths_of_visited st.visitedNode g.vis.2
  simp only [resultNodes]
  rw [h1, h2]
  exact ⟨by simp, g.vis.1⟩

theorem GenTreeNodeByDependency_paths_unique_witness :
    ∃ r, GenTreeNodeByDependency 2 (str "root") cycMap cycHeap = Run.done r ∧
      (resultNodes r).length = r.2.length ∧ ((resultNodes r).map TreeNode.Path).Nodup ∧
      (resultNodes r).map TreeNode.Path = [str "A", str "B"] :=
  ⟨_, rfl, (GenTreeNodeByDependency_paths_unique 2 (str "root") cycMap cycHeap _ rfl).1,
    (GenTreeNodeByDependency_paths_unique 2 (str "root") cycMap cycHeap _ rfl).2, by decide⟩

/-- C2. For every heap, map and root that is a key of the map there is a number of
dequeues after which the main loop has stopped: with any budget at least that large
`GenTreeNodeByDependency` does not exhaust it, cycles or not, and when the input has no
nil pointer it returns a collection. -/
theorem GenTreeNodeByDependency_terminates (startNode : GoString) (allNodes : NodeMap)
    (heap : Heap) (hroot : startNode ∈ keys allNodes) :
    ∃ N, ∀ fuel, N ≤ fuel →
      GenTreeNodeByDependency fuel startNode allNodes heap ≠ Run.outOfFuel ∧
      (NilFree heap allNodes →
        ∃ r, GenTreeNodeByDependency fuel startNode allNodes heap = Run.done r) := by
  unfold GenTreeNodeByDependency
  simp only
  obtain ⟨root, hroot2⟩ := Option.isSome_iff_exists.1 ((mapGet_isSome_iff _ _).2 hroot)
  cases hd : deref heap ((mapGet allNodes startNode).getD 0) with
  | none =>
    refine ⟨0, fun fuel _ => ⟨by simp, fun hnil => ?_⟩⟩
    obtain ⟨n, hn⟩ := hnil.nilFreeValid.2 _ _ (mapGet_mem hroot2)
    simp [hroot2, hn] at hd
  | some rn =>
    simp only
    cases hs : forEach seedChild { heap := heap, queue := [], visitedNode := [] }
        rn.Children with
    | none =>
      refine ⟨0, fun fuel _ => ⟨by simp, fun hnil => ?_⟩⟩
      obtain ⟨s, hs2⟩ := forEach_seedChild_progress rn.Children _ (good_init heap)
        (hnil.nilFreeValid.1 _ rn hd)
      rw [hs2] at hs
      cases hs
    | some st0 =>
      simp only
      obtain ⟨g0, s0⟩ := forEach_seedChild_spec rn.Children hs (good_init heap)
      refine ⟨loopMeasure (heap.map TreeNode.Path) st0, fun fuel hfuel => ⟨?_, fun hnil => ?_⟩⟩
      · have := bfs_fuel allNodes fuel st0 g0 hfuel
        cases hb : bfs allNodes fuel st0 with
        | done st => simp
        | panic => simp
        | outOfFuel => exact absurd hb this
      · obtain ⟨s, hs2⟩ := bfs_progress allNodes fuel st0 g0
          (hnil.nilFreeValid.1.childrenExt s0.ext) (hnil.nilFreeValid.2.mapExt s0.ext) hfuel
        rw [hs2]
        exact ⟨_, rfl⟩

theorem GenTreeNodeByDependency_terminates_witness :
    str "root" ∈ keys cycMap ∧ NilFree cycHeap cycMap ∧
    (∃ N, ∀ fuel, N ≤ fuel →
      GenTreeNodeByDependency fuel (str "root") cycMap cycHeap ≠ Run.outOfFuel ∧
      (NilFree cycHeap cycMap →
        ∃ r, GenTreeNodeByDependency fuel (str "root") cycMap cycHeap = Run.done r)) ∧
    (∃ r, GenTreeNodeByDependency 2 (str "root") cycMap cycHeap = Run.done r ∧
      resultNodes r ≠ []) :=
  ⟨by decide, by decide,
    GenTreeNodeByDependency_terminates (str "root") cycMap cycHeap (by decide),
    ⟨_, rfl, by decide⟩⟩

/-- C9. When the root identity is not a key of the map, `allNodes[startNode]` is nil and
the dereference `rootNode.Children` panics: whatever the budget, the run ends in a panic
and returns no collection. -/
theorem GenTreeNodeByDependency_missing_root (fuel : Nat) (startNode : GoString)
    (allNodes : NodeMap) (heap : Heap) (h : startNode ∉ keys allNodes) :
    GenTreeNodeByDependency fuel startNode allNodes heap = Run.panic := by
  unfold GenTreeNodeByDependency
  rw [(mapGet_eq_none_iff _ _).2 h]
  rfl

theorem GenTreeNodeByDependency_missing_root_witness :
    parse [] = some initState ∧ initState.startNode ∉ keys initState.nodes ∧
      GenTreeNodeByDependency 0 initState.startNode initState.nodes initState.heap = Run.panic ∧
      str "X" ∉ keys cycMap ∧
      GenTreeNodeByDependency 7 (str "X") cycMap cycHeap = Run.panic :=
  ⟨rfl, by decide,
    GenTreeNodeByDependency_missing_root 0 initState.startNode initState.nodes initState.heap
      (by decide),
    by decide, GenTreeNodeByDependency_missing_root 7 (str "X") cycMap cycHeap (by decide)⟩

theorem acceptedPair_some {line : GoString} {e : GoString × GoString}
    (h : acceptedPair line = some e) :
    tokens line = some e ∧ slash ∈ e.1 ∧ slash ∈ e.2 := by
  unfold acceptedPair at h
  cases ht : tokens line with
  | none => simp [ht] at h
  | some e2 =>
    obtain ⟨hd, tl⟩ := e2
    simp only [ht] at h
    split_ifs at h with hc
    simp only [Option.some.injEq] at h
    subst h
    simp only [Bool.and_eq_true] at hc
    exact ⟨rfl, (containsAny_iff _).1 hc.1, (containsAny_iff _).1 hc.2⟩

theorem tokens_some {line : GoString} {e : GoString × GoString} (h : tokens line = some e) :
    ∃ p0 p1 rest, Split space line = p0 :: p1 :: rest ∧
      e.1 = (Trim p0).takeWhile (fun b => decide (b ≠ atSign)) ∧
      e.2 = (Trim p1).takeWhile (fun b => decide (b ≠ atSign)) := by
  unfold tokens at h
  split at h
  · rename_i p0 p1 rest hs
    simp only [Option.some.injEq] at h
    subst h
    exact ⟨p0, p1, rest, hs, firstPiece_Split _ _, firstPiece_Split _ _⟩
  · cases h

theorem takeWhile_before_sep {sep : Nat} {x : GoString} (hx : sep ∉ x) (v : GoString) :
    (x ++ sep :: v).takeWhile (fun b => decide (b ≠ sep)) = x := by
  induction x with
  | nil => simp
  | cons a rest ih =>
    simp only [List.mem_cons, not_or] at hx
    have ha : a ≠ sep := fun h => hx.1 h.symm
    simp only [List.cons_append]
    rw [List.takeWhile_cons_of_pos (by simpa using ha), ih hx.2]

theorem takeWhile_of_not_mem {sep : Nat} {x : GoString} (hx : sep ∉ x) :
    x.takeWhile (fun b => decide (b ≠ sep)) = x := by
  induction x with
  | nil => simp
  | cons a rest ih =>
    simp only [List.mem_cons, not_or] at hx
    have ha : a ≠ sep := fun h => hx.1 h.symm
    rw [List.takeWhile_cons_of_pos (by simpa using ha), ih hx.2]

/-- C4. After a parse without panic, the `Children` of every node of the map point to
records whose paths are pairwise different and are, in this order, the distinct tails of
the accepted records with that node as head, in order of first occurrence in the input. -/
theorem parse_children_first_occurrence (byteData : GoString) (st : ParseState)
    (k : GoString) (p : Nat) (h : parse byteData = some st) (hk : (k, p) ∈ st.nodes) :
    ∃ n, deref st.heap p = some n ∧ n.Path = k ∧ (childPaths st.heap n).Nodup ∧
      childPaths st.heap n = (firstOccurrences (tailsOf k (accepted byteData))).map some := by
  obtain ⟨n, hn, hp, _, hc⟩ := (parse_spec h).inv.node k p hk
  refine ⟨n, hn, hp, ?_, hc⟩
  rw [hc]
  exact (nodup_firstOccurrences _).map (Option.some_injective _)

theorem parse_children_first_occurrence_witness :
    ∃ st, parse (str "a/x b/y\na/x c/z\na/x b/y\nc/z b/y\n") = some st ∧
      (str "a/x", 1) ∈ st.nodes ∧
      tailsOf (str "a/x") (accepted (str "a/x b/y\na/x c/z\na/x b/y\nc/z b/y\n"))
        = [str "b/y", str "c/z", str "b/y"] ∧
      ∃ n, deref st.heap 1 = some n ∧ n.Path = str "a/x" ∧ (childPaths st.heap n).Nodup ∧
        childPaths st.heap n = (firstOccurrences (tailsOf (str "a/x")
          (accepted (str "a/x b/y\na/x c/z\na/x b/y\nc/z b/y\n")))).map some :=
  ⟨_, rfl, by decide, by decide,
    parse_children_first_occurrence (str "a/x b/y\na/x c/z\na/x b/y\nc/z b/y\n") _
      (str "a/x") 1 rfl (by decide)⟩

/-- C5. A record whose head token or tail token (after version stripping) contains no `/`
leaves every variable of the parse loop as it was: heap, map and `startNode`. -/
theorem processLine_skip (st : ParseState) (line headName tailName : GoString)
    (ht : tokens line = some (headName, tailName))
    (hs : slash ∉ headName ∨ slash ∉ tailName) : processLine st line = some st := by
  unfold processLine
  simp only [ht]
  by_cases h1 : ContainsAny headName = true
  · have h2 : ContainsAny tailName = false := by
      rcases hs with h | h
      · exact absurd ((containsAny_iff _).1 h1) h
      · cases hc : ContainsAny tailName with
        | false => rfl
        | true => exact absurd ((containsAny_iff _).1 hc) h
    simp [h1, h2]
  · simp [h1]

theorem processLine_skip_witness :
    tokens (str "std std2\n") = some (str "std", str "std2") ∧
    (slash ∉ str "std" ∨ slash ∉ str "std2") ∧
    processLine ⟨cycHeap, cycMap, str "root"⟩ (str "std std2\n")
      = some ⟨cycHeap, cycMap, str "root"⟩ :=
  ⟨by decide, by decide,
    processLine_skip ⟨cycHeap, cycMap, str "root"⟩ (str "std std2\n") (str "std") (str "std2")
      (by decide) (by decide)⟩

/-- C6. After a parse without panic, the keys of the map are exactly the heads and tails
of the accepted records; no key occurs twice; each key points to a record whose `Path`
and `Name` are the key and whose `Value` is 1; every accepted head and tail is the text
before the first `@` of the trimmed first or second piece of a record and contains `/`;
no key contains `@`; and a version annotation does not change the token. -/
theorem parse_keys (byteData : GoString) (st : ParseState) (h : parse byteData = some st) :
    (∀ k, k ∈ keys st.nodes ↔ ∃ e ∈ accepted byteData, k = e.1 ∨ k = e.2) ∧
    (keys st.nodes).Nodup ∧
    (∀ k p, (k, p) ∈ st.nodes →
      ∃ n, deref st.heap p = some n ∧ n.Path = k ∧ n.Name = k ∧ n.Value = 1) ∧
    (∀ e ∈ accepted byteData, ∃ line ∈ readRecords [] byteData, ∃ p0 p1 rest,
      Split space line = p0 :: p1 :: rest ∧
      e.1 = (Trim p0).takeWhile (fun b => decide (b ≠ atSign)) ∧
      e.2 = (Trim p1).takeWhile (fun b => decide (b ≠ atSign)) ∧
      slash ∈ e.1 ∧ slash ∈ e.2) ∧
    (∀ k, k ∈ keys st.nodes → atSign ∉ k) ∧
    (∀ x v : GoString, atSign ∉ x →
      firstPiece (Split atSign (x ++ atSign :: v)) = x ∧ firstPiece (Split atSign x) = x) := by
  have hI := parse_spec h
  have hacc : ∀ e ∈ accepted byteData, ∃ line ∈ readRecords [] byteData,
      tokens line = some e ∧ slash ∈ e.1 ∧ slash ∈ e.2 := by
    intro e he
    simp only [accepted, acceptedPairs, List.mem_filterMap] at he
    obtain ⟨line, hl, hp⟩ := he
    exact ⟨line, hl, acceptedPair_some hp⟩
  refine ⟨fun k => ⟨hI.only k, ?_⟩, hI.inv.nodup, ?_, ?_, ?_, ?_⟩
  · rintro ⟨e, he, h1 | h1⟩
    · rw [h1]; exact (hI.inv.cover e he).1
    · rw [h1]; exact (hI.inv.cover e he).2
  · intro k p hkp
    obtain ⟨n, hn, hp, hv, _⟩ := hI.inv.node k p hkp
    exact ⟨n, hn, hp, (hI.inv.cells p n hn).trans hp, hv⟩
  · intro e he
    obtain ⟨line, hl, ht, h1, h2⟩ := hacc e he
    obtain ⟨p0, p1, rest, hs, e1, e2⟩ := tokens_some ht
    exact ⟨line, hl, p0, p1, rest, hs, e1, e2, h1, h2⟩
  · intro k hk
    obtain ⟨e, he, h1⟩ := hI.only k hk
    obtain ⟨line, _, ht, _⟩ := hacc e he
    have := tokens_no_at (h := e.1) (t := e.2) ht
    rcases h1 with h1 | h1
    · rw [h1]; exact this.1
    · rw [h1]; exact this.2
  · intro x v hx
    rw [firstPiece_Split, firstPiece_Split]
    exact ⟨takeWhile_before_sep hx v, takeWhile_of_not_mem hx⟩

theorem parse_keys_witness :
    ∃ st, parse (str "m/a@v1.0 m/b@v2\nstd m/c\nm/b@v3 m/a\n") = some st ∧
      keys st.nodes = [str "m/a", str "m/b"] ∧
      accepted (str "m/a@v1.0 m/b@v2\nstd m/c\nm/b@v3 m/a\n")
        = [(str "m/a", str "m/b"), (str "m/b", str "m/a")] ∧
      (∀ k, k ∈ keys st.nodes ↔
        ∃ e ∈ accepted (str "m/a@v1.0 m/b@v2\nstd m/c\nm/b@v3 m/a\n"), k = e.1 ∨ k = e.2) ∧
      (keys st.nodes).Nodup :=
  ⟨_, rfl, by decide, by decide,
    (parse_keys (str "m/a@v1.0 m/b@v2\nstd m/c\nm/b@v3 m/a\n") _ rfl).1,
    (parse_keys (str "m/a@v1.0 m/b@v2\nstd m/c\nm/b@v3 m/a\n") _ rfl).2.1⟩

/-- C7. After a parse without panic of an input with at least one accepted record,
`startNode` is the head of the first accepted record, it is a key of the map, it is the
root passed to `GenTreeNodeByDependency`, and once set no later record changes it. -/
theorem parse_startNode (byteData : GoString) (st : ParseState) (e : GoString × GoString)
    (rest : List (GoString × GoString)) (h : parse byteData = some st)
    (ha : accepted byteData = e :: rest) :
    st.startNode = e.1 ∧ e.1 ∈ keys st.nodes ∧
    (∀ fuel, mainTrees fuel byteData =
      GenTreeNodeByDependency fuel e.1 st.nodes st.heap) ∧
    (∀ (s s2 : ParseState) (hd tl : GoString), s.startNode ≠ [] →
      addEdge s hd tl = some s2 → s2.startNode = s.startNode) := by
  have hI := parse_spec h
  have hs : st.startNode = e.1 := by
    rw [hI.start, ha]; rfl
  refine ⟨hs, ?_, ?_, ?_⟩
  · exact (hI.inv.cover e (by rw [ha]; exact List.mem_cons_self _ _)).1
  · intro fuel
    simp only [mainTrees, h, hs]
  · intro s s2 hd tl hne hadd
    unfold addEdge at hadd
    simp only at hadd
    split at hadd
    · cases hadd
    · split at hadd
      · cases hadd
      · simp only [Option.some.injEq] at hadd
        rw [← hadd]
        simp [hne]

theorem parse_startNode_witness :
    ∃ st, parse (str "std m/x\nm/root@v1 m/a\nm/a m/b\n") = some st ∧
      accepted (str "std m/x\nm/root@v1 m/a\nm/a m/b\n")
        = (str "m/root", str "m/a") :: [(str "m/a", str "m/b")] ∧
      st.startNode = str "m/root" ∧ str "m/root" ∈ keys st.nodes :=
  ⟨_, rfl, by decide,
    (parse_startNode (str "std m/x\nm/root@v1 m/a\nm/a m/b\n") _ (str "m/root", str "m/a")
      [(str "m/a", str "m/b")] rfl (by decide)).1,
    (parse_startNode (str "std m/x\nm/root@v1 m/a\nm/a m/b\n") _ (str "m/root", str "m/a")
      [(str "m/a", str "m/b")] rfl (by decide)).2.1⟩

/-- C8, as stated, fails: the record `"a/b \n"` has a single whitespace-separated token,
yet the parse loop skips it without a panic. -/
theorem parse_short_record_counterexample :
    ¬ (∀ byteData : GoString,
        (∃ line ∈ readRecords [] byteData, (wsTokens line).length < 2) →
        parse byteData = none) := by
  intro h
  have := h (str "a/b \n") ⟨str "a/b \n", by decide, by decide⟩
  revert this
  decide

/-- C8, amended. The parse loop panics exactly when some newline-terminated record
contains no space byte; it then yields no map and `main` produces no collection. -/
theorem parse_fatal_iff (byteData : GoString) :
    (parse byteData = none ↔ ∃ line ∈ readRecords [] byteData, space ∉ line) ∧
    ((∃ line ∈ readRecords [] byteData, space ∉ line) →
      ∀ fuel, mainTrees fuel byteData = Run.panic) := by
  have h1 := runRecords_eq_none_iff (readRecords [] byteData) [] initState parseInv_init
  refine ⟨h1, fun h fuel => ?_⟩
  simp only [mainTrees]
  rw [show parse byteData = none from h1.2 h]

theorem parse_fatal_iff_witness :
    (∃ line ∈ readRecords [] (str "m/a m/b\nm/c\n"), space ∉ line) ∧
    parse (str "m/a m/b\nm/c\n") = none ∧ mainTrees 9 (str "m/a m/b\nm/c\n") = Run.panic :=
  ⟨⟨str "m/c\n", by decide, by decide⟩,
    (parse_fatal_iff (str "m/a m/b\nm/c\n")).1.2 ⟨str "m/c\n", by decide, by decide⟩,
    (parse_fatal_iff (str "m/a m/b\nm/c\n")).2 ⟨str "m/c\n", by decide, by decide⟩ 9⟩

/-! ## The result does not depend on the budget -/

theorem bfs_mono {allNodes : NodeMap} (k : Nat) :
    ∀ (fuel : Nat) (st s : GenState), bfs allNodes fuel st = Run.done s →
      bfs allNodes (fuel + k) st = Run.done s := by
  intro fuel
  induction fuel with
  | zero =>
    intro st s h
    unfold bfs at h ⊢
    cases hq : st.queue with
    | nil => simpa [hq] using h
    | cons node rest => simp [hq] at h
  | succ fuel ih =>
    intro st s h
    rw [Nat.add_right_comm]
    unfold bfs at h ⊢
    cases hq : st.queue with
    | nil => simpa [hq] using h
    | cons node rest =>
      simp only [hq] at h ⊢
      cases he : expand allNodes { st with queue := rest } node with
      | none => simp [he] at h
      | some st2 =>
        simp only [he] at h ⊢
        exact ih st2 s h

theorem GenTree_mono {fuel : Nat} {startNode : GoString} {allNodes : NodeMap} {heap : Heap}
    {r : Heap × List Nat} (k : Nat)
    (h : GenTreeNodeByDependency fuel startNode allNodes heap = Run.done r) :
    GenTreeNodeByDependency (fuel + k) startNode allNodes heap = Run.done r := by
  unfold GenTreeNodeByDependency at h ⊢
  simp only at h ⊢
  cases hd : deref heap ((mapGet allNodes startNode).getD 0) with
  | none => simp [hd] at h
  | some rn =>
    simp only [hd] at h ⊢
    cases hs : forEach seedChild { heap := heap, queue := [], visitedNode := [] }
        rn.Children with
    | none => simp [hs] at h
    | some st0 =>
      simp only [hs] at h ⊢
      cases hb : bfs allNodes fuel st0 with
      | done st =>
        rw [bfs_mono k fuel st0 st hb]
        simpa [hb] using h
      | panic => simp [hb] at h
      | outOfFuel => simp [hb] at h

theorem mainTrees_unique {byteData : GoString} {f1 f2 : Nat} {r1 r2 : Heap × List Nat}
    (h1 : mainTrees f1 byteData = Run.done r1) (h2 : mainTrees f2 byteData = Run.done r2) :
    r1 = r2 := by
  unfold mainTrees at h1 h2
  cases hp : parse byteData with
  | none => simp [hp] at h1
  | some st =>
    simp only [hp] at h1 h2
    have a := GenTree_mono f2 h1
    have b := GenTree_mono f1 h2
    rw [Nat.add_comm] at b
    rw [a] at b
    cases b
    rfl

theorem mainTrees_chain : mainTrees 3 chainInput = Run.done (runResult (mainTrees 3 chainInput)) := by
  decide

/-- C3, as stated, fails: no run on the example input returns an entry `m/a` of weight 2
(together with `m/b` of weight 2 and `m/c` of weight 1). -/
theorem mainTrees_chain_counterexample :
    ¬ ∃ fuel r, mainTrees fuel chainInput = Run.done r ∧
      ((resultNodes r).map TreeNode.Path).Nodup ∧
      (∃ n ∈ resultNodes r, n.Path = str "m/a" ∧ n.Value = 2) ∧
      (∃ n ∈ resultNodes r, n.Path = str "m/b" ∧ n.Value = 2) ∧
      (∃ n ∈ resultNodes r, n.Path = str "m/c" ∧ n.Value = 1) := by
  rintro ⟨fuel, r, h, _, ha, _⟩
  have hr := mainTrees_unique h mainTrees_chain
  subst hr
  revert ha
  decide

/-- C3, amended. Every run on the example input that returns, returns exactly three
records, for `m/a`, `m/b` and `m/c`, with pairwise different paths and weights 3, 2 and 1:
the base value 1, plus the fan-out of the node, plus the fan-out of each of its targets. -/
theorem mainTrees_chain_weights (fuel : Nat) (r : Heap × List Nat)
    (h : mainTrees fuel chainInput = Run.done r) :
    ((resultNodes r).map TreeNode.Path).Nodup ∧
    List.Perm ((resultNodes r).map (fun n => (n.Path, n.Value)))
      [(str "m/a", 3), (str "m/b", 2), (str "m/c", 1)] := by
  have hr := mainTrees_unique h mainTrees_chain
  subst hr
  exact ⟨by decide, List.Perm.of_eq (by decide)⟩

theorem mainTrees_chain_weights_witness :
    ∃ r, mainTrees 3 chainInput = Run.done r ∧
      ((resultNodes r).map TreeNode.Path).Nodup ∧
      List.Perm ((resultNodes r).map (fun n => (n.Path, n.Value)))
        [(str "m/a", 3), (str "m/b", 2), (str "m/c", 1)] :=
  ⟨_, mainTrees_chain, mainTrees_chain_weights 3 _ mainTrees_chain⟩

/-! ## `ShortName` -/

theorem LastIndex_of_not_mem {sep : Nat} {s : GoString} (h : sep ∉ s) :
    LastIndex sep s = none := by
  induction s with
  | nil => rfl
  | cons b rest ih =>
    simp only [List.mem_cons, not_or] at h
    simp only [LastIndex, ih h.2]
    rw [if_neg (fun hb => h.1 hb.symm)]

theorem LastIndex_append_sep {sep : Nat} (a : GoString) {s : GoString} (h : sep ∉ s) :
    LastIndex sep (a ++ sep :: s) = some a.length := by
  induction a with
  | nil => simp [LastIndex, LastIndex_of_not_mem h]
  | cons b rest ih => simp [LastIndex, ih]

theorem pathSplit_append_slash (a : GoString) {s : GoString} (h : slash ∉ s) :
    pathSplit (a ++ slash :: s) = (a ++ [slash], s) := by
  unfold pathSplit
  rw [LastIndex_append_sep a h]
  simp only [Prod.mk.injEq]
  constructor
  · rw [show a ++ slash :: s = (a ++ [slash]) ++ s by simp]
    rw [List.take_left' (by simp)]
  · rw [show a ++ slash :: s = (a ++ [slash]) ++ s by simp]
    rw [List.drop_left' (by simp)]

theorem pathSplit_of_not_mem {s : GoString} (h : slash ∉ s) : pathSplit s = ([], s) := by
  unfold pathSplit
  rw [LastIndex_of_not_mem h]

theorem TrimRight_slashes (k : Nat) : TrimRight (List.replicate k slash) = [] := by
  unfold TrimRight
  rw [List.reverse_replicate]
  rw [List.reverse_eq_nil_iff, List.dropWhile_eq_nil_iff]
  intro x hx
  simp [List.eq_of_mem_replicate hx]

theorem TrimRight_append_slashes (y : GoString) {c : Nat} (hc : c ≠ slash) (k : Nat) :
    TrimRight (y ++ [c] ++ List.replicate k slash) = y ++ [c] := by
  unfold TrimRight
  rw [List.reverse_append, List.reverse_replicate, List.reverse_append]
  simp only [List.reverse_cons, List.reverse_nil, List.nil_append, List.singleton_append]
  have : List.dropWhile (fun b => b == slash) (List.replicate k slash ++ c :: y.reverse)
      = c :: y.reverse := by
    induction k with
    | zero => simp [hc]
    | succ k ih => simp [List.replicate_succ, ih]
  rw [this]
  simp

theorem Base_last_segment {pre seg : GoString} (hseg : seg ≠ []) (hs : slash ∉ seg)
    (hpre : pre = [] ∨ ∃ q, pre = q ++ [slash]) : Base (pre ++ seg) = seg := by
  obtain ⟨y, c, rfl⟩ : ∃ y c, seg = y ++ [c] :=
    ⟨seg.dropLast, seg.getLast hseg, (List.dropLast_append_getLast hseg).symm⟩
  have hc : c ≠ slash := fun h => hs (by simp [h])
  have ht : TrimRight (pre ++ (y ++ [c])) = pre ++ (y ++ [c]) := by
    have := TrimRight_append_slashes (pre ++ y) hc 0
    simpa using this
  unfold Base
  rw [if_neg (by simp)]
  simp only [ht]
  rcases hpre with rfl | ⟨q, rfl⟩
  · simp only [List.nil_append]
    rw [LastIndex_of_not_mem hs]
    simp
  · rw [show q ++ [slash] ++ (y ++ [c]) = q ++ slash :: (y ++ [c]) by simp]
    rw [LastIndex_append_sep q hs]
    simp only
    rw [show q ++ slash :: (y ++ [c]) = (q ++ [slash]) ++ (y ++ [c]) by simp]
    rw [List.drop_left' (by simp)]
    simp

/-- C10, as stated, fails: the trailing segment `cc` of `a/bb/cc` has length two and the
name has no trailing `/`, so the claim gives `cc`, but `ShortName` returns `bb`. -/
theorem ShortName_short_counterexample :
    ¬ (∀ name : GoString, (pathSplit name).2.length ≤ 2 →
        ShortName name = (pathSplit (TrimRight name)).2) := by
  intro h
  have := h (str "a/bb/cc") (by decide)
  revert this
  decide

theorem TrimRight_of_last {s : GoString} (a : GoString) (hs : slash ∉ s) (hne : s ≠ []) :
    TrimRight (a ++ s) = a ++ s := by
  obtain ⟨y, c, rfl⟩ : ∃ y c, s = y ++ [c] :=
    ⟨s.dropLast, s.getLast hne, (List.dropLast_append_getLast hne).symm⟩
  have hc : c ≠ slash := fun h => hs (by simp [h])
  have := TrimRight_append_slashes (a ++ y) hc 0
  simpa using this

/-- The two shapes of a name whose trailing segment is `s`, and what `ShortName` returns
on each when `s` has length two or fewer: on `pre ++ seg ++ "/"..."/" ++ s`, with `seg`
non-empty and free of `/` and `pre` empty or ending in `/`, it returns `seg`; on
`"/"..."/" ++ s` it returns `"."`. Each result is compared with the text after the last
`/` of the name with its trailing `/` trimmed. -/
theorem ShortName_short_forms (pre seg s : GoString) (k : Nat) (hs : slash ∉ s)
    (hlen : s.length ≤ 2) (hseg : seg ≠ []) (hseg2 : slash ∉ seg)
    (hpre : pre = [] ∨ ∃ q, pre = q ++ [slash]) :
    (pathSplit (pre ++ seg ++ List.replicate (k + 1) slash ++ s)).2 = s ∧
    ShortName (pre ++ seg ++ List.replicate (k + 1) slash ++ s) = seg ∧
    (ShortName (pre ++ seg ++ List.replicate (k + 1) slash ++ s) =
        (pathSplit (TrimRight (pre ++ seg ++ List.replicate (k + 1) slash ++ s))).2 ↔
      s = [] ∨ s = seg) ∧
    (pathSplit (List.replicate k slash ++ s)).2 = s ∧
    ShortName (List.replicate k slash ++ s) = [46] ∧
    (ShortName (List.replicate k slash ++ s) =
        (pathSplit (TrimRight (List.replicate k slash ++ s))).2 ↔ s = [46]) := by
  obtain ⟨y, c, hyc⟩ : ∃ y c, seg = y ++ [c] :=
    ⟨seg.dropLast, seg.getLast hseg, (List.dropLast_append_getLast hseg).symm⟩
  have hc : c ≠ slash := fun h => hseg2 (by simp [hyc, h])
  have e1 : pre ++ seg ++ List.replicate (k + 1) slash ++ s =
      (pre ++ seg ++ List.replicate k slash) ++ slash :: s := by
    rw [List.replicate_succ']; simp
  have p1 := pathSplit_append_slash (pre ++ seg ++ List.replicate k slash) hs
  have t1 : TrimRight (pre ++ seg ++ List.replicate k slash ++ [slash]) = pre ++ seg := by
    have := TrimRight_append_slashes (pre ++ y) hc (k + 1)
    rw [List.replicate_succ'] at this
    rw [hyc]
    simpa using this
  have p2 : pathSplit (List.replicate k slash ++ s) =
      (List.replicate k slash, s) := by
    cases k with
    | zero => simpa using pathSplit_of_not_mem hs
    | succ k =>
      rw [List.replicate_succ']
      have := pathSplit_append_slash (List.replicate k slash) hs
      simpa using this
  have s1 : ShortName (pre ++ seg ++ List.replicate (k + 1) slash ++ s) = seg := by
    unfold ShortName
    simp only [e1, p1, hlen, if_true, t1]
    exact Base_last_segment hseg hseg2 hpre
  have s2 : ShortName (List.replicate k slash ++ s) = [46] := by
    unfold ShortName
    simp only [p2, hlen, if_true, TrimRight_slashes]
    rfl
  have p3 : (pathSplit (pre ++ seg)).2 = seg := by
    rcases hpre with rfl | ⟨q, rfl⟩
    · simpa using congrArg Prod.snd (pathSplit_of_not_mem hseg2)
    · have := pathSplit_append_slash q hseg2
      rw [show q ++ [slash] ++ seg = q ++ slash :: seg by simp, this]
  refine ⟨by rw [e1, p1], s1, ?_, by rw [p2], s2, ?_⟩
  · rw [s1]
    by_cases hne : s = []
    · subst hne
      have t2 : TrimRight (pre ++ seg ++ List.replicate (k + 1) slash ++ []) = pre ++ seg := by
        have := TrimRight_append_slashes (pre ++ y) hc (k + 1)
        rw [hyc]
        simpa using this
      rw [t2, p3]
      simp
    · rw [TrimRight_of_last _ hs hne, e1, p1]
      constructor
      · intro h; exact Or.inr h.symm
      · rintro (h | h)
        · exact absurd h hne
        · exact h.symm
  · rw [s2]
    by_cases hne : s = []
    · subst hne
      have t3 : TrimRight (List.replicate k slash ++ []) = [] := by
        simpa using TrimRight_slashes k
      rw [t3]
      simp [pathSplit, LastIndex]
    · rw [TrimRight_of_last _ hs hne, p2]
      exact eq_comm

/-- C11. When the text after the last `/` of a name (the whole name when it has no `/`) is
longer than two bytes, `ShortName` returns exactly that text. -/
theorem ShortName_long_trailing (pre s : GoString) (hs : slash ∉ s) (hlen : 2 < s.length) :
    (pathSplit (pre ++ slash :: s)).2 = s ∧ ShortName (pre ++ slash :: s) = s ∧
    (pathSplit s).2 = s ∧ ShortName s = s := by
  have p1 := pathSplit_append_slash pre hs
  have p2 := pathSplit_of_not_mem hs
  have hn : ¬ s.length ≤ 2 := by omega
  refine ⟨by rw [p1], ?_, by rw [p2], ?_⟩
  · unfold ShortName
    simp only [p1, hn, if_false]
  · unfold ShortName
    simp only [p2, hn, if_false]

theorem ShortName_long_trailing_witness :
    ShortName (str "a/bb/ccccc") = str "ccccc" ∧ ShortName (str "ccccc") = str "ccccc" :=
  ⟨(ShortName_long_trailing (str "a/bb") (str "ccccc") (by decide) (by decide)).2.1,
   (ShortName_long_trailing (str "a/bb") (str "ccccc") (by decide) (by decide)).2.2.2⟩

/-- C12, as stated, fails: `ShortName` does not return `bb` for `a/bb/cc/`. -/
theorem ShortName_trailing_slash_counterexample :
    ¬ (ShortName (str "a/bb/cc/") = str "bb") := by
  decide

/-- C12, amended. For `a/bb/cc/` the trailing segment is empty, so `ShortName` falls back
to `path.Base` of the name with its trailing `/` trimmed, which is `cc`. -/
theorem ShortName_trailing_slash :
    (pathSplit (str "a/bb/cc/")).2 = [] ∧ TrimRight (str "a/bb/cc/") = str "a/bb/cc" ∧
    ShortName (str "a/bb/cc/") = str "cc" := by
  decide

theorem readRecords_of_not_mem {t : GoString} (h : newline ∉ t) (cur : GoString) :
    readRecords cur t = [] := by
  induction t generalizing cur with
  | nil => rfl
  | cons b rest ih =>
    simp only [List.mem_cons, not_or] at h
    simp only [readRecords]
    rw [if_neg (fun hb => h.1 hb.symm)]
    exact ih h.2 _

theorem readRecords_append_newline (a : GoString) {t : GoString} (h : newline ∉ t)
    (cur : GoString) :
    readRecords cur (a ++ newline :: t) = readRecords cur (a ++ [newline]) := by
  induction a generalizing cur with
  | nil =>
    simp only [List.nil_append, readRecords, if_true]
    rw [readRecords_of_not_mem h]
  | cons b rest ih =>
    simp only [List.cons_append, readRecords, List.append_eq]
    split_ifs
    · rw [ih]
    · rw [ih]

theorem LastIndex_some_split {sep : Nat} :
    ∀ (s : GoString) (i : Nat), LastIndex sep s = some i →
      ∃ a t, s = a ++ sep :: t ∧ sep ∉ t ∧ a.length = i := by
  intro s
  induction s with
  | nil => intro i h; cases h
  | cons b rest ih =>
    intro i h
    simp only [LastIndex] at h
    cases hl : LastIndex sep rest with
    | some j =>
      simp only [hl, Option.some.injEq] at h
      obtain ⟨a, t, hs, ht, ha⟩ := ih j hl
      exact ⟨b :: a, t, by rw [hs]; rfl, ht, by simp [ha, h]⟩
    | none =>
      simp only [hl] at h
      split_ifs at h with hb
      simp only [Option.some.injEq] at h
      refine ⟨[], rest, by rw [hb]; rfl, ?_, by simp [h]⟩
      intro hmem
      have : ∀ (l : GoString), sep ∈ l → LastIndex sep l ≠ none := by
        intro l
        induction l with
        | nil => intro h2; cases h2
        | cons c cs ih2 =>
          intro h2
          simp only [LastIndex]
          cases hc : LastIndex sep cs with
          | some j => simp
          | none =>
            rcases List.mem_cons.1 h2 with h3 | h3
            · simp [h3]
            · exact absurd hc (ih2 h3)
      exact this rest hmem hl

theorem LastIndex_none_not_mem {sep : Nat} {s : GoString} (h : LastIndex sep s = none) :
    sep ∉ s := by
  induction s with
  | nil => simp
  | cons b rest ih =>
    simp only [LastIndex] at h
    cases hl : LastIndex sep rest with
    | some j => simp [hl] at h
    | none =>
      simp only [hl] at h
      split_ifs at h with hb
      simp only [List.mem_cons, not_or]
      exact ⟨fun h2 => hb h2.symm, ih hl⟩

theorem uptoLastNewline_split (byteData : GoString) :
    ∃ tail, byteData = uptoLastNewline byteData ++ tail ∧ newline ∉ tail ∧
      (uptoLastNewline byteData = [] ∨
        ∃ a, uptoLastNewline byteData = a ++ [newline]) := by
  unfold uptoLastNewline
  cases hl : LastIndex newline byteData with
  | none => exact ⟨byteData, rfl, LastIndex_none_not_mem hl, Or.inl rfl⟩
  | some i =>
    obtain ⟨a, t, hs, ht, ha⟩ := LastIndex_some_split byteData i hl
    refine ⟨t, ?_, ht, Or.inr ⟨a, ?_⟩⟩
    · simp only
      rw [hs, show a ++ newline :: t = (a ++ [newline]) ++ t by simp,
        List.take_left' (by simp [ha])]
    · simp only
      rw [hs, show a ++ newline :: t = (a ++ [newline]) ++ t by simp,
        List.take_left' (by simp [ha])]

/-- C20. The bytes after the last `\n` of the input have no effect: the records read, the
outcome of the parse loop (state or panic) and the outcome of the whole run are those of
the input cut just after its last `\n`; the cut input is empty or ends in `\n`, and what
was cut off contains no `\n`. -/
theorem parse_ignores_unterminated_tail (byteData : GoString) :
    readRecords [] byteData = readRecords [] (uptoLastNewline byteData) ∧
    parse byteData = parse (uptoLastNewline byteData) ∧
    (∀ fuel, mainTrees fuel byteData = mainTrees fuel (uptoLastNewline byteData)) ∧
    (∃ tail, byteData = uptoLastNewline byteData ++ tail ∧ newline ∉ tail ∧
      (uptoLastNewline byteData = [] ∨ ∃ a, uptoLastNewline byteData = a ++ [newline])) := by
  have hsplit := uptoLastNewline_split byteData
  have hr : readRecords [] byteData = readRecords [] (uptoLastNewline byteData) := by
    obtain ⟨tail, hb, ht, hu⟩ := hsplit
    rcases hu with hu | ⟨a, hu⟩
    · rw [hu] at hb ⊢
      simp only [List.nil_append] at hb
      rw [hb, readRecords_of_not_mem ht]
      rfl
    · rw [hu] at hb ⊢
      conv_lhs => rw [hb]
      rw [show a ++ [newline] ++ tail = a ++ newline :: tail by simp]
      exact readRecords_append_newline a ht []
  have hp : parse byteData = parse (uptoLastNewline byteData) := by
    unfold parse
    rw [hr]
  refine ⟨hr, hp, fun fuel => ?_, hsplit⟩
  unfold mainTrees
  rw [hp]

theorem mapSet_eq_self {m : NodeMap} {k : GoString} {v : Nat} (h : mapGet m k = some v) :
    mapSet m k v = m := by
  induction m with
  | nil => cases h
  | cons a rest ih =>
    obtain ⟨k1, v1⟩ := a
    simp only [mapGet] at h
    simp only [mapSet]
    split_ifs at h ⊢ with hk
    · simp only [Option.some.injEq] at h
      rw [h]
    · rw [ih h]

theorem mem_tailsOf {ps : List (GoString × GoString)} {h t : GoString} (hm : (h, t) ∈ ps) :
    t ∈ tailsOf h ps := by
  simp only [tailsOf, List.mem_map, List.mem_filter]
  exact ⟨(h, t), ⟨hm, by simp⟩, rfl⟩

theorem addEdge_same {ps : List (GoString × GoString)} {st : ParseState} {h t : GoString}
    (hI : ParseInv ps st) (hm : (h, t) ∈ ps) : addEdge st h t = some st := by
  obtain ⟨hp, hhp⟩ := Option.isSome_iff_exists.1
    ((mapGet_isSome_iff _ _).2 (hI.inv.cover _ hm).1)
  obtain ⟨tp, htp⟩ := Option.isSome_iff_exists.1
    ((mapGet_isSome_iff _ _).2 (hI.inv.cover _ hm).2)
  obtain ⟨hn, hhn, _, _, hhc⟩ := hI.inv.node h hp (mapGet_mem hhp)
  obtain ⟨tn, htn, htpath, _⟩ := hI.inv.node t tp (mapGet_mem htp)
  have hstart : st.startNode ≠ [] := by
    rw [hI.start]
    cases ps with
    | nil => cases hm
    | cons e rest => exact hI.heads e (List.mem_cons_self _ _)
  have hce := childExists_eq hI.inv.cells htn hn.Children _ hhc
  rw [htpath] at hce
  have hmem : t ∈ firstOccurrences (tailsOf h ps) :=
    (mem_firstOccurrences _ _).2 (mem_tailsOf hm)
  unfold addEdge
  simp only [getOrCreate, hhp, htp, hhn, hce, hmem, decide_True, if_true, hstart, if_false,
    mapSet_eq_self hhp]

/-- C13. In a state reached by the parse loop after an accepted record with pair
`(head, tail)`, a record with the same pair, whatever its version annotations, leaves
every variable of the loop as it was: heap (so every node, its `Value` and its `Children`
in order), map and `startNode`. -/
theorem processLine_idempotent (byteData : GoString) (st : ParseState) (line : GoString)
    (e : GoString × GoString) (hp : parse byteData = some st)
    (hl : acceptedPair line = some e) (hacc : e ∈ accepted byteData) :
    processLine st line = some st ∧ addEdge st e.1 e.2 = some st := by
  have hsame : addEdge st e.1 e.2 = some st := addEdge_same (parse_spec hp) hacc
  refine ⟨?_, hsame⟩
  obtain ⟨ht, h1, h2⟩ := acceptedPair_some hl
  unfold processLine
  simp only [ht, (containsAny_iff _).2 h1, (containsAny_iff _).2 h2, Bool.not_true,
    Bool.false_eq_true, if_false]
  exact hsame

theorem processLine_idempotent_witness :
    ∃ st, parse (str "m/a@v1 m/b@v1\nm/a m/c\n") = some st ∧
      acceptedPair (str "m/a@v9 m/b@v7\n") = some (str "m/a", str "m/b") ∧
      (str "m/a", str "m/b") ∈ accepted (str "m/a@v1 m/b@v1\nm/a m/c\n") ∧
      processLine st (str "m/a@v9 m/b@v7\n") = some st :=
  ⟨_, rfl, by decide, by decide,
    (processLine_idempotent (str "m/a@v1 m/b@v1\nm/a m/c\n") _ (str "m/a@v9 m/b@v7\n")
      (str "m/a", str "m/b") rfl (by decide) (by decide)).1⟩

theorem addFanOut_value {node fan : Nat} {st s : GenState} {n : TreeNode}
    (hn : deref st.heap node = some n) (h : addFanOut node fan st = some s) :
    deref s.heap node = some { n with Value := addInt n.Value fan } := by
  unfold addFanOut at h
  simp only [hn, update_isSome _ hn, Option.some.injEq] at h
  subst h
  simp only
  rw [deref_store, if_pos rfl, hn]
  rfl

theorem pushChild_keeps {node v p : Nat} {st s : GenState} {n : TreeNode}
    (hp : deref st.heap p = some n) (h : pushChild node v st = some s) :
    deref s.heap p = some n := by
  unfold pushChild at h
  split at h
  · simp only [Option.some.injEq] at h
    subst h
    exact deref_alloc_old _ hp
  · cases h

/-- C19: on the diamond input the identity `m/c`, a direct child of the root that is also
a child of `m/d`, is removed from the queue, and so expanded, twice; the returned
collection is not affected. -/
theorem diamond_dequeued_twice :
    (parse diamondInput).map
        (fun st => GenTreeDequeued 4 st.startNode st.nodes st.heap)
      = some [str "m/d", str "m/c", str "m/c", str "m/x"] ∧
    (match mainTrees 4 diamondInput with
      | Run.done r => (resultNodes r).map (fun n => (n.Path, n.Value))
      | _ => []) = [(str "m/d", 3), (str "m/c", 2), (str "m/x", 1)] := by
  decide

/-! ## Exact effect of each step on the state -/

theorem store_alloc (h : Heap) (x y : TreeNode) :
    store (alloc h x).1 (alloc h x).2 y = h ++ [y] := by
  simp [store, alloc]

theorem store_store (h : Heap) (p : Nat) (x y : TreeNode) :
    store (store h p x) p y = store h p y := by
  cases p with
  | zero => rfl
  | succ q => simp [store]

theorem seedChild_eq {st : GenState} {c : Nat} {n : TreeNode}
    (hd : deref st.heap c = some n) :
    seedChild st c = some (if n.Children.length = 0 then
      { heap := st.heap ++ [⟨ShortName n.Path, n.Value, n.Path, []⟩], queue := st.queue, visitedNode := mapSet st.visitedNode n.Path (st.heap.length + 1) }
      else { heap := st.heap ++ [⟨n.Path, n.Value, n.Path, []⟩], queue := st.queue ++ [st.heap.length + 1], visitedNode := st.visitedNode }) := by
  unfold seedChild
  simp only [hd]
  split_ifs with hc
  · rw [update_isSome _ (deref_alloc_new _ _)]
    simp only [store_alloc]
    rfl
  · rfl

theorem addFanOut_eq {node fan : Nat} {st : GenState} {n : TreeNode}
    (hn : deref st.heap node = some n) :
    addFanOut node fan st = some { heap := store st.heap node { n with Value := addInt n.Value fan }, queue := st.queue, visitedNode := mapSet st.visitedNode n.Path node } := by
  unfold addFanOut
  simp only [hn, update_isSome _ hn]

theorem pushChild_eq {node v : Nat} {st : GenState} {n vn : TreeNode}
    (hn : deref st.heap node = some n) (hv : deref st.heap v = some vn) :
    pushChild node v st = some { heap := st.heap ++ [⟨ShortName n.Path, vn.Value, vn.Path, []⟩], queue := st.queue ++ [st.heap.length + 1], visitedNode := mapSet st.visitedNode vn.Path (st.heap.length + 1) } := by
  unfold pushChild
  simp only [hn, hv]
  rfl

theorem deref_le_length {h : Heap} {p : Nat} {n : TreeNode} (hd : deref h p = some n) :
    0 < p ∧ p ≤ h.length := by
  cases p with
  | zero => simp [deref] at hd
  | succ q =>
    simp only [deref] at hd
    have := (List.getElem?_eq_some_iff.1 hd).1
    omega

theorem deref_append_old (h : Heap) (x : TreeNode) {p : Nat} (hp : p ≤ h.length) :
    deref (h ++ [x]) p = deref h p := by
  have := deref_alloc h x p
  simp only [alloc] at this
  rw [this, if_neg (by omega)]

theorem deref_append_new (h : Heap) (x : TreeNode) :
    deref (h ++ [x]) (h.length + 1) = some x := deref_alloc_new h x

/-! ## The input records are never written -/

theorem fresh_storeAt {heap0 : Heap} {st : GenState} {x : Nat} (y : TreeNode) (k : GoString)
    (hf : Fresh heap0 st) (hx : heap0.length < x) (hx2 : x ≤ st.heap.length) :
    Fresh heap0 { heap := store st.heap x y, queue := st.queue, visitedNode := mapSet st.visitedNode k x } := by
  refine ⟨fun p hp => ?_, ?_, fun q hq => ?_, fun e he => ?_⟩
  · simp only
    rw [deref_store, if_neg (by omega)]
    exact hf.frame p hp
  · simp only [length_store]; exact hf.len
  · simp only [length_store]; exact hf.qfresh q hq
  · simp only [length_store]
    rcases mem_mapSet he with h1 | h1
    · rw [h1]; exact ⟨hx, hx2⟩
    · exact hf.vfresh e h1

theorem fresh_push {heap0 : Heap} {st : GenState} (y : TreeNode) (k : GoString)
    (hf : Fresh heap0 st) :
    Fresh heap0 { heap := st.heap ++ [y], queue := st.queue ++ [st.heap.length + 1], visitedNode := mapSet st.visitedNode k (st.heap.length + 1) } ∧
    Fresh heap0 { heap := st.heap ++ [y], queue := st.queue ++ [st.heap.length + 1], visitedNode := st.visitedNode } ∧
    Fresh heap0 { heap := st.heap ++ [y], queue := st.queue, visitedNode := mapSet st.visitedNode k (st.heap.length + 1) } := by
  have hlen := hf.len
  have fr : ∀ p, p ≤ heap0.length → deref (st.heap ++ [y]) p = deref heap0 p := by
    intro p hp
    rw [deref_append_old _ _ (by omega)]
    exact hf.frame p hp
  have q1 : ∀ q ∈ st.queue ++ [st.heap.length + 1],
      heap0.length < q ∧ q ≤ (st.heap ++ [y]).length := by
    intro q hq
    simp only [List.length_append, List.length_singleton]
    rcases List.mem_append.1 hq with h1 | h1
    · have := hf.qfresh q h1; omega
    · simp only [List.mem_singleton] at h1; omega
  have q2 : ∀ q ∈ st.queue, heap0.length < q ∧ q ≤ (st.heap ++ [y]).length := by
    intro q hq
    simp only [List.length_append, List.length_singleton]
    have := hf.qfresh q hq; omega
  have v1 : ∀ e ∈ mapSet st.visitedNode k (st.heap.length + 1),
      heap0.length < e.2 ∧ e.2 ≤ (st.heap ++ [y]).length := by
    intro e he
    simp only [List.length_append, List.length_singleton]
    rcases mem_mapSet he with h1 | h1
    · rw [h1]; simp only; omega
    · have := hf.vfresh e h1; omega
  have v2 : ∀ e ∈ st.visitedNode, heap0.length < e.2 ∧ e.2 ≤ (st.heap ++ [y]).length := by
    intro e he
    simp only [List.length_append, List.length_singleton]
    have := hf.vfresh e he; omega
  have l1 : heap0.length ≤ (st.heap ++ [y]).length := by
    simp only [List.length_append, List.length_singleton]; omega
  exact ⟨⟨fr, l1, q1, v1⟩, ⟨fr, l1, q1, v2⟩, ⟨fr, l1, q2, v1⟩⟩

theorem seedChild_fresh {heap0 : Heap} {st s : GenState} {c : Nat} (hf : Fresh heap0 st)
    (h : seedChild st c = some s) : Fresh heap0 s := by
  cases hd : deref st.heap c with
  | none => simp [seedChild, hd] at h
  | some n =>
    rw [seedChild_eq hd] at h
    simp only [Option.some.injEq] at h
    subst h
    split_ifs
    · exact (fresh_push _ _ hf).2.2
    · exact (fresh_push _ [] hf).2.1

theorem addFanOut_fresh {heap0 : Heap} {st s : GenState} {node fan : Nat}
    (hf : Fresh heap0 st) (hx : heap0.length < node) (h : addFanOut node fan st = some s) :
    Fresh heap0 s := by
  cases hd : deref st.heap node with
  | none => simp [addFanOut, hd] at h
  | some n =>
    rw [addFanOut_eq hd] at h
    simp only [Option.some.injEq] at h
    subst h
    exact fresh_storeAt _ _ hf hx (deref_le_length hd).2

theorem pushChild_fresh {heap0 : Heap} {st s : GenState} {node v : Nat}
    (hf : Fresh heap0 st) (h : pushChild node v st = some s) : Fresh heap0 s := by
  unfold pushChild at h
  split at h
  · simp only [Option.some.injEq] at h
    subst h
    exact (fresh_push _ _ hf).1
  · cases h

theorem visitChild_fresh {heap0 : Heap} {st s : GenState} {node v : Nat}
    (hf : Fresh heap0 st) (hx : heap0.length < node) (h : visitChild node st v = some s) :
    Fresh heap0 s := by
  unfold visitChild at h
  cases hd : deref st.heap v with
  | none => simp [hd] at h
  | some vn =>
    simp only [hd] at h
    cases h1 : (if 0 < vn.Children.length then addFanOut node vn.Children.length st
          else some st) with
    | none => simp [h1] at h
    | some s1 =>
      simp only [h1] at h
      have f1 : Fresh heap0 s1 := by
        split_ifs at h1
        · exact addFanOut_fresh hf hx h1
        · simp only [Option.some.injEq] at h1
          subst h1; exact hf
      split_ifs at h
      · simp only [Option.some.injEq] at h
        subst h; exact f1
      · exact pushChild_fresh f1 h

theorem forEach_visitChild_fresh {heap0 : Heap} {node : Nat} (hx : heap0.length < node)
    (l : List Nat) {st s : GenState} (hf : Fresh heap0 st)
    (h : forEach (visitChild node) st l = some s) : Fresh heap0 s :=
  (forEach_induction (visitChild node) (fun _ _ => True) (fun _ => trivial)
    (fun _ _ _ _ _ => trivial) (Fresh heap0)
    (fun _ _ _ hI hb => ⟨visitChild_fresh hI hx hb, trivial⟩) l st s hf h).1

theorem expand_fresh {heap0 : Heap} {allNodes : NodeMap} {st s : GenState} {node : Nat}
    (hf : Fresh heap0 st) (hx : heap0.length < node)
    (h : expand allNodes st node = some s) : Fresh heap0 s := by
  unfold expand at h
  cases hd : deref st.heap node with
  | none => simp [hd] at h
  | some n =>
    simp only [hd] at h
    cases hm : mapGet allNodes n.Path with
    | none =>
      simp only [hm, Option.some.injEq] at h
      subst h; exact hf
    | some treeNode =>
      simp only [hm, update_isSome _ hd] at h
      cases hd1 : deref (store st.heap node { n with Name := ShortName n.Path }) treeNode with
      | none => simp [hd1] at h
      | some tn =>
        simp only [hd1] at h
        have hd2 : deref (store st.heap node { n with Name := ShortName n.Path }) node
            = some { n with Name := ShortName n.Path } := by
          rw [deref_store, if_pos rfl, hd]; rfl
        simp only [update_isSome _ hd2, store_store] at h
        exact forEach_visitChild_fresh hx tn.Children
          (fresh_storeAt _ _ hf hx (deref_le_length hd).2) h

theorem bfs_fresh {heap0 : Heap} {allNodes : NodeMap} :
    ∀ (fuel : Nat) (st s : GenState), Fresh heap0 st → bfs allNodes fuel st = Run.done s →
      Fresh heap0 s ∧ s.queue = [] := by
  intro fuel
  induction fuel with
  | zero =>
    intro st s hf h
    unfold bfs at h
    cases hq : st.queue with
    | nil => simp only [hq, Run.done.injEq] at h; subst h; exact ⟨hf, hq⟩
    | cons node rest => simp [hq] at h
  | succ fuel ih =>
    intro st s hf h
    unfold bfs at h
    cases hq : st.queue with
    | nil => simp only [hq, Run.done.injEq] at h; subst h; exact ⟨hf, hq⟩
    | cons node rest =>
      simp only [hq] at h
      cases he : expand allNodes { st with queue := rest } node with
      | none => simp [he] at h
      | some st2 =>
        simp only [he] at h
        have f1 : Fresh heap0 { st with queue := rest } :=
          ⟨hf.frame, hf.len, fun q hq2 => hf.qfresh q (by rw [hq]; exact List.mem_cons_of_mem _ hq2),
            hf.vfresh⟩
        have hx := (hf.qfresh node (by rw [hq]; exact List.mem_cons_self _ _)).1
        exact ih st2 s (expand_fresh f1 hx he) h

theorem fresh_init (heap : Heap) :
    Fresh heap { heap := heap, queue := [], visitedNode := [] } :=
  ⟨fun _ _ => rfl, le_rfl, fun q h => (by cases h), fun e h => (by cases h)⟩

theorem GenTree_fresh {fuel : Nat} {startNode : GoString} {allNodes : NodeMap} {heap : Heap}
    {r : Heap × List Nat}
    (h : GenTreeNodeByDependency fuel startNode allNodes heap = Run.done r) :
    ∃ st, Fresh heap st ∧ st.queue = [] ∧ r = (st.heap, st.visitedNode.map Prod.snd) := by
  unfold GenTreeNodeByDependency at h
  simp only at h
  cases hd : deref heap ((mapGet allNodes startNode).getD 0) with
  | none => simp [hd] at h
  | some rn =>
    simp only [hd] at h
    cases hs : forEach seedChild { heap := heap, queue := [], visitedNode := [] }
        rn.Children with
    | none => simp [hs] at h
    | some st0 =>
      simp only [hs] at h
      have f0 : Fresh heap st0 :=
        (forEach_induction seedChild (fun _ _ => True) (fun _ => trivial)
          (fun _ _ _ _ _ => trivial) (Fresh heap)
          (fun _ _ _ hI hb => ⟨seedChild_fresh hI hb, trivial⟩) rn.Children _ st0
          (fresh_init heap) hs).1
      cases hb : bfs allNodes fuel st0 with
      | done st =>
        simp only [hb, Run.done.injEq] at h
        obtain ⟨f, hq⟩ := bfs_fresh fuel st0 st f0 hb
        exact ⟨st, f, hq, h.symm⟩
      | panic => simp [hb] at h
      | outOfFuel => simp [hb] at h

theorem heap_eq_append_of_frame {heap0 h : Heap}
    (hfr : ∀ p, p ≤ heap0.length → deref h p = deref heap0 p) :
    h = heap0 ++ h.drop heap0.length := by
  have ht : h.take heap0.length = heap0 := by
    apply List.ext_getElem?
    intro i
    by_cases hi : i < heap0.length
    · have := hfr (i + 1) (by omega)
      simp only [deref] at this
      rw [List.getElem?_take_of_lt hi, this]
    · rw [List.getElem?_eq_none (by simp; omega), List.getElem?_eq_none (by omega)]
  conv_lhs => rw [← List.take_append_drop heap0.length h]
  rw [ht]

/-! ## The invariant of a run on a well-formed map -/

theorem W_storeAt {S : Src} {x : Nat} {st : GenState} (y : TreeNode) (k : GoString)
    (hw : W S x st) (hx : S.heap0.length < x) (hx2 : x ≤ st.heap.length) :
    W S x { heap := store st.heap x y, queue := st.queue, visitedNode := mapSet st.visitedNode k x } := by
  have hne : ∀ q, q ≠ x → deref (store st.heap x y) q = deref st.heap q := by
    intro q hq
    rw [deref_store, if_neg hq]
  refine ⟨fresh_storeAt y k hw.fresh hx hx2, hw.qx, hw.qnodup, fun q hq => ?_,
    fun k2 q hkq hqx => ?_⟩
  · obtain ⟨n, c, cn, hn, ho, hv⟩ := hw.pend q hq
    refine ⟨n, c, cn, ?_, ho, hv⟩
    simp only
    rw [hne q (fun h => hw.qx (h ▸ hq))]
    exact hn
  · rcases mem_mapSet hkq with h1 | h1
    · simp only [Prod.mk.injEq] at h1
      exact absurd h1.2 hqx
    · obtain ⟨n, c, cn, hn, hp, ho, hrest⟩ := hw.vis k2 q h1 hqx
      refine ⟨n, c, cn, ?_, hp, ho, ?_⟩
      · simp only
        rw [hne q hqx]; exact hn
      · rcases hrest with h2 | ⟨h2, h3⟩
        · exact Or.inl h2
        · exact Or.inr ⟨h2, fun ch hch chn hchn =>
            (mem_keys_mapSet _ _ _ _).2 (Or.inr (h3 ch hch chn hchn))⟩

theorem W_push {S : Src} {x : Nat} {st : GenState} {y cn : TreeNode} {c : Nat}
    (hw : W S x st) (hx2 : x ≤ st.heap.length) (ho : Origin S y.Path c cn)
    (hv : y.Value = cn.Value) :
    W S x { heap := st.heap ++ [y], queue := st.queue ++ [st.heap.length + 1], visitedNode := mapSet st.visitedNode y.Path (st.heap.length + 1) } ∧
    W S x { heap := st.heap ++ [y], queue := st.queue ++ [st.heap.length + 1], visitedNode := st.visitedNode } := by
  have hnew : st.heap.length + 1 ∉ st.queue := by
    intro h
    have := (hw.fresh.qfresh _ h).2
    omega
  have hqx : x ∉ st.queue ++ [st.heap.length + 1] := by
    intro h
    rcases List.mem_append.1 h with h1 | h1
    · exact hw.qx h1
    · simp only [List.mem_singleton] at h1; omega
  have hnd : (st.queue ++ [st.heap.length + 1]).Nodup :=
    List.Nodup.append hw.qnodup (List.nodup_singleton _) (by simpa using hnew)
  have hpend : ∀ q ∈ st.queue ++ [st.heap.length + 1], ∃ n c cn,
      deref (st.heap ++ [y]) q = some n ∧ Origin S n.Path c cn ∧ n.Value = cn.Value := by
    intro q hq
    rcases List.mem_append.1 hq with h1 | h1
    · obtain ⟨n, c2, cn2, hn, ho2, hv2⟩ := hw.pend q h1
      refine ⟨n, c2, cn2, ?_, ho2, hv2⟩
      rw [deref_append_old _ _ (hw.fresh.qfresh q h1).2]; exact hn
    · simp only [List.mem_singleton] at h1
      subst h1
      exact ⟨y, c, cn, deref_append_new _ _, ho, hv⟩
  have hold : ∀ (vis2 : NodeMap), (∀ k, k ∈ keys st.visitedNode → k ∈ keys vis2) →
      ∀ k2 q, (k2, q) ∈ st.visitedNode → q ≠ x →
      ∃ n c cn, deref (st.heap ++ [y]) q = some n ∧ n.Path = k2 ∧ Origin S k2 c cn ∧
        (q ∈ st.queue ++ [st.heap.length + 1] ∨ (Finished S k2 cn n ∧
          ∀ ch ∈ cn.Children, ∀ chn, deref S.heap0 ch = some chn → chn.Path ∈ keys vis2)) := by
    intro vis2 hmono k2 q hkq hq
    obtain ⟨n, c2, cn2, hn, hp, ho2, hrest⟩ := hw.vis k2 q hkq hq
    refine ⟨n, c2, cn2, ?_, hp, ho2, ?_⟩
    · rw [deref_append_old _ _ (hw.fresh.vfresh _ hkq).2]; exact hn
    · rcases hrest with h2 | ⟨h2, h3⟩
      · exact Or.inl (List.mem_append_left _ h2)
      · exact Or.inr ⟨h2, fun ch hch chn hchn => hmono _ (h3 ch hch chn hchn)⟩
  refine ⟨⟨(fresh_push y y.Path hw.fresh).1, hqx, hnd, hpend, fun k2 q hkq hq => ?_⟩,
    ⟨(fresh_push y y.Path hw.fresh).2.1, hqx, hnd, hpend,
      fun k2 q hkq hq => hold st.visitedNode (fun _ h => h) k2 q hkq hq⟩⟩
  rcases mem_mapSet hkq with h1 | h1
  · simp only [Prod.mk.injEq] at h1
    obtain ⟨rfl, rfl⟩ := h1
    exact ⟨y, c, cn, deref_append_new _ _, rfl, ho, Or.inl (by simp)⟩
  · exact hold _ (fun k hk => (mem_keys_mapSet _ _ _ _).2 (Or.inr hk)) k2 q h1 hq

theorem W_seedLeaf {S : Src} {st : GenState} {y cn : TreeNode} {c : Nat}
    (hw : W S 0 st) (ho : Origin S y.Path c cn) (hfin : Finished S y.Path cn y)
    (hleaf : cn.Children = []) :
    W S 0 { heap := st.heap ++ [y], queue := st.queue, visitedNode := mapSet st.visitedNode y.Path (st.heap.length + 1) } := by
  refine ⟨(fresh_push y y.Path hw.fresh).2.2, hw.qx, hw.qnodup, fun q hq => ?_,
    fun k2 q hkq hq => ?_⟩
  · obtain ⟨n, c2, cn2, hn, ho2, hv2⟩ := hw.pend q hq
    refine ⟨n, c2, cn2, ?_, ho2, hv2⟩
    simp only
    rw [deref_append_old _ _ (hw.fresh.qfresh q hq).2]; exact hn
  · rcases mem_mapSet hkq with h1 | h1
    · simp only [Prod.mk.injEq] at h1
      obtain ⟨rfl, rfl⟩ := h1
      refine ⟨y, c, cn, deref_append_new _ _, rfl, ho, Or.inr ⟨hfin, ?_⟩⟩
      intro ch hch
      rw [hleaf] at hch
      cases hch
    · obtain ⟨n, c2, cn2, hn, hp, ho2, hrest⟩ := hw.vis k2 q h1 hq
      refine ⟨n, c2, cn2, ?_, hp, ho2, ?_⟩
      · simp only
        rw [deref_append_old _ _ (hw.fresh.vfresh _ h1).2]; exact hn
      · rcases hrest with h2 | ⟨h2, h3⟩
        · exact Or.inl h2
        · exact Or.inr ⟨h2, fun ch hch chn hchn =>
            (mem_keys_mapSet _ _ _ _).2 (Or.inr (h3 ch hch chn hchn))⟩

theorem afterFanOut_deref_node {node : Nat} {n vn : TreeNode} {st : GenState}
    (hn : deref st.heap node = some n) :
    deref (afterFanOut node n vn st).heap node = some { n with Value := (if 0 < vn.Children.length then addInt n.Value vn.Children.length else n.Value) } := by
  unfold afterFanOut
  split_ifs
  · simp only
    rw [deref_store, if_pos rfl, hn]; rfl
  · exact hn

theorem afterFanOut_deref_other {node p : Nat} {n vn : TreeNode} {st : GenState}
    (hp : p ≠ node) : deref (afterFanOut node n vn st).heap p = deref st.heap p := by
  unfold afterFanOut
  split_ifs
  · simp only
    rw [deref_store, if_neg hp]
  · rfl

theorem visitChild_eq {node v : Nat} {st : GenState} {n vn : TreeNode}
    (hn : deref st.heap node = some n) (hv : deref st.heap v = some vn) (hne : v ≠ node) :
    visitChild node st v = some (afterVisit node n vn st) := by
  unfold visitChild
  simp only [hv]
  have h1 : (if 0 < vn.Children.length then addFanOut node vn.Children.length st
      else some st) = some (afterFanOut node n vn st) := by
    unfold afterFanOut
    split_ifs
    · exact addFanOut_eq hn
    · rfl
  simp only [h1]
  unfold afterVisit
  split_ifs with hok
  · rfl
  · have hv2 : deref (afterFanOut node n vn st).heap v = some vn := by
      rw [afterFanOut_deref_other hne]; exact hv
    rw [pushChild_eq (afterFanOut_deref_node hn) hv2]

theorem afterFanOut_W {S : Src} {x : Nat} {st : GenState} {n vn : TreeNode}
    (hw : W S x st) (hx : S.heap0.length < x) (hn : deref st.heap x = some n) :
    W S x (afterFanOut x n vn st) := by
  unfold afterFanOut
  split_ifs
  · exact W_storeAt _ _ hw hx (deref_le_length hn).2
  · exact hw

theorem afterFanOut_keys {node : Nat} {n vn : TreeNode} {st : GenState} (k : GoString) :
    k ∈ keys (afterFanOut node n vn st).visitedNode ↔ (k ∈ keys st.visitedNode ∨
      (0 < vn.Children.length ∧ k = n.Path)) := by
  unfold afterFanOut
  split_ifs with hc
  · simp only [mem_keys_mapSet]
    constructor
    · rintro (h | h)
      · exact Or.inr ⟨hc, h⟩
      · exact Or.inl h
    · rintro (h | ⟨_, h⟩)
      · exact Or.inr h
      · exact Or.inl h
  · simp [hc]

theorem afterFanOut_queue {node : Nat} {n vn : TreeNode} {st : GenState} :
    (afterFanOut node n vn st).queue = st.queue := by
  unfold afterFanOut
  split_ifs <;> rfl

theorem afterFanOut_length {node : Nat} {n vn : TreeNode} {st : GenState} :
    (afterFanOut node n vn st).heap.length = st.heap.length := by
  unfold afterFanOut
  split_ifs
  · simp [length_store]
  · rfl

theorem afterVisit_W {S : Src} {x v : Nat} {st : GenState} {n vn : TreeNode}
    (hw : W S x st) (hx : S.heap0.length < x) (hn : deref st.heap x = some n)
    (ho : Origin S vn.Path v vn) : W S x (afterVisit x n vn st) := by
  unfold afterVisit
  split_ifs
  · exact afterFanOut_W hw hx hn
  · have hw1 : W S x (afterFanOut x n vn st) := afterFanOut_W hw hx hn
    have hx2 : x ≤ (afterFanOut x n vn st).heap.length := by
      rw [afterFanOut_length]; exact (deref_le_length hn).2
    exact (W_push (y := ⟨ShortName n.Path, vn.Value, vn.Path, []⟩) hw1 hx2 ho rfl).1

theorem afterVisit_deref_node {node : Nat} {n vn : TreeNode} {st : GenState}
    (hn : deref st.heap node = some n) :
    deref (afterVisit node n vn st).heap node = some { n with Value := (if 0 < vn.Children.length then addInt n.Value vn.Children.length else n.Value) } := by
  unfold afterVisit
  by_cases hok : (mapGet st.visitedNode vn.Path).isSome = true
  · rw [if_pos hok]
    exact afterFanOut_deref_node hn
  · rw [if_neg hok]
    simp only
    rw [deref_append_old _ _ (by rw [afterFanOut_length]; exact (deref_le_length hn).2)]
    exact afterFanOut_deref_node hn

theorem afterVisit_keys (node : Nat) (n vn : TreeNode) (st : GenState) :
    vn.Path ∈ keys (afterVisit node n vn st).visitedNode ∧
    (∀ k, k ∈ keys st.visitedNode → k ∈ keys (afterVisit node n vn st).visitedNode) ∧
    (∀ q, q ∈ st.queue → q ∈ (afterVisit node n vn st).queue) := by
  unfold afterVisit
  split_ifs with hok
  · refine ⟨(afterFanOut_keys _).2 (Or.inl ((mapGet_isSome_iff _ _).1 hok)),
      fun k hk => (afterFanOut_keys _).2 (Or.inl hk), fun q hq => ?_⟩
    rw [afterFanOut_queue]; exact hq
  · refine ⟨(mem_keys_mapSet _ _ _ _).2 (Or.inl rfl),
      fun k hk => (mem_keys_mapSet _ _ _ _).2 (Or.inr ((afterFanOut_keys _).2 (Or.inl hk))),
      fun q hq => ?_⟩
    simp only [afterFanOut_queue]
    exact List.mem_append_left _ hq

theorem target_old {S : Src} {v : Nat} (h : Target S v) : 0 < v ∧ v ≤ S.heap0.length := by
  obtain ⟨vn, hv, _⟩ := h
  exact deref_le_length hv

theorem inner_step {S : Src} {x v : Nat} {k : GoString} {a0 : Int} {done : List Nat}
    {st s : GenState} (hI : Inner S x k a0 done st) (hx : S.heap0.length < x)
    (ht : Target S v) (h : visitChild x st v = some s) :
    Inner S x k a0 (done ++ [v]) s ∧ (∀ q, q ∈ st.queue → q ∈ s.queue) ∧
      (∀ k2, k2 ∈ keys st.visitedNode → k2 ∈ keys s.visitedNode) := by
  obtain ⟨nx, hnx, hname, hpath, hval⟩ := hI.cell
  have hvold := target_old ht
  obtain ⟨vn, hv0, ho⟩ := ht
  have hv : deref st.heap v = some vn := by
    rw [hI.w.fresh.frame v hvold.2]; exact hv0
  have hne : v ≠ x := by omega
  rw [visitChild_eq hnx hv hne] at h
  simp only [Option.some.injEq] at h
  subst h
  obtain ⟨k1, k2, k3⟩ := afterVisit_keys x nx vn st
  refine ⟨⟨afterVisit_W hI.w hx hnx ho, ⟨_, afterVisit_deref_node hnx, hname, hpath, ?_⟩,
    k2 _ hI.seen, ?_, ?_⟩, k3, k2⟩
  · simp only [List.foldl_append, List.foldl_cons, List.foldl_nil, childStep, hv0, hval]
  · intro ch hch chn hchn
    rcases List.mem_append.1 hch with h1 | h1
    · exact k2 _ (hI.marked ch h1 chn hchn)
    · simp only [List.mem_singleton] at h1
      subst h1
      rw [hv0] at hchn
      cases hchn
      exact k1
  · intro q hq
    obtain ⟨n, c, cn, hn, _⟩ := (afterVisit_W hI.w hx hnx ho).pend q hq
    exact ⟨n, hn⟩

theorem inner_loop {S : Src} {x : Nat} {k : GoString} {a0 : Int} (hx : S.heap0.length < x) :
    ∀ (l done : List Nat) (st s : GenState), Inner S x k a0 done st →
      (∀ v ∈ l, Target S v) → forEach (visitChild x) st l = some s →
      Inner S x k a0 (done ++ l) s ∧ (∀ q, q ∈ st.queue → q ∈ s.queue) ∧
        (∀ k2, k2 ∈ keys st.visitedNode → k2 ∈ keys s.visitedNode) := by
  intro l
  induction l with
  | nil =>
    intro done st s hI _ h
    simp only [forEach, Option.some.injEq] at h
    subst h
    refine ⟨?_, fun q hq => hq, fun k2 hk => hk⟩
    simpa using hI
  | cons v rest ih =>
    intro done st s hI ht h
    simp only [forEach] at h
    cases hb : visitChild x st v with
    | none => simp [hb] at h
    | some s1 =>
      simp only [hb] at h
      obtain ⟨i1, q1, k1⟩ := inner_step hI hx (ht v (List.mem_cons_self _ _)) hb
      obtain ⟨i2, q2, k2⟩ := ih (done ++ [v]) s1 s i1
        (fun v2 hv2 => ht v2 (List.mem_cons_of_mem _ hv2)) h
      refine ⟨?_, fun q hq => q2 q (q1 q hq), fun k3 hk => k2 k3 (k1 k3 hk)⟩
      simpa using i2

theorem wellFormed_children {S : Src} (hwf : WellFormed S.heap0 S.allNodes) {k : GoString}
    {c : Nat} {cn : TreeNode} (hm : mapGet S.allNodes k = some c)
    (hc : deref S.heap0 c = some cn) (hr : c = S.root ∨ ReachPlus S.heap0 S.root c) :
    ∀ v ∈ cn.Children, Target S v := by
  intro v hv
  have := hwf (k, c) (mapGet_mem hm) cn (by simp [hc]) v hv
  obtain ⟨vn, hvn, hmap⟩ := this
  have hvn2 : deref S.heap0 v = some vn := by simpa using hvn
  refine ⟨vn, hvn2, hmap, hvn2, rfl, ?_⟩
  rcases hr with rfl | hr
  · exact ReachPlus.child hc hv
  · exact ReachPlus.step hr hc hv

theorem expand_eq {allNodes : NodeMap} (st : GenState) {node treeNode : Nat}
    {n tn : TreeNode} (hn : deref st.heap node = some n)
    (hm : mapGet allNodes n.Path = some treeNode) (ht : deref st.heap treeNode = some tn)
    (hne : treeNode ≠ node) :
    expand allNodes st node = forEach (visitChild node) { heap := store st.heap node ⟨ShortName n.Path, addInt n.Value tn.Children.length, n.Path, n.Children⟩, queue := st.queue, visitedNode := mapSet st.visitedNode n.Path node } tn.Children := by
  unfold expand
  simp only [hn, hm, update_isSome _ hn]
  have h1 : deref (store st.heap node { n with Name := ShortName n.Path }) treeNode = some tn := by
    rw [deref_store, if_neg hne]; exact ht
  have h2 : deref (store st.heap node { n with Name := ShortName n.Path }) node
      = some { n with Name := ShortName n.Path } := by
    rw [deref_store, if_pos rfl, hn]; rfl
  simp only [h1, update_isSome _ h2, store_store]

theorem W_dequeue {S : Src} {st : GenState} {x : Nat} {rest : List Nat} (hw : W S 0 st)
    (hq : st.queue = x :: rest) : W S x { st with queue := rest } := by
  have hnd := hw.qnodup
  rw [hq] at hnd
  have hxr : x ∉ rest := (List.nodup_cons.1 hnd).1
  refine ⟨⟨hw.fresh.frame, hw.fresh.len,
    fun q h => hw.fresh.qfresh q (by rw [hq]; exact List.mem_cons_of_mem _ h),
    hw.fresh.vfresh⟩, hxr, (List.nodup_cons.1 hnd).2,
    fun q h => hw.pend q (by rw [hq]; exact List.mem_cons_of_mem _ h), fun k q hkq hqx => ?_⟩
  have hq0 : q ≠ 0 := by
    have := (hw.fresh.vfresh _ hkq).1
    simp only at this
    omega
  obtain ⟨n, c, cn, hn, hp, ho, hrest⟩ := hw.vis k q hkq hq0
  refine ⟨n, c, cn, hn, hp, ho, ?_⟩
  rcases hrest with h1 | h1
  · left
    rw [hq] at h1
    rcases List.mem_cons.1 h1 with h2 | h2
    · exact absurd h2 hqx
    · exact h2
  · exact Or.inr h1

theorem expand_main {S : Src} {P : List GoString} {L : List Nat} {st s : GenState}
    {x : Nat} {rest : List Nat} (hwf : WellFormed S.heap0 S.allNodes)
    (hm : Main S P L st) (hq : st.queue = x :: rest)
    (h : expand S.allNodes { st with queue := rest } x = some s) : Main S P L s := by
  have hxq : x ∈ st.queue := by rw [hq]; exact List.mem_cons_self _ _
  obtain ⟨n, c, cn, hn, ⟨hmap, hc0, hcp, hreach⟩, hval⟩ := hm.w.pend x hxq
  have hx := (hm.w.fresh.qfresh x hxq).1
  have hcold := deref_le_length hc0
  have hc : deref st.heap c = some cn := by
    rw [hm.w.fresh.frame c hcold.2]; exact hc0
  have hne : c ≠ x := by omega
  have g1 : Good P { st with queue := rest } :=
    ⟨hm.good.vis, hm.good.paths,
      fun q hq2 => hm.good.queue q (by rw [hq]; exact List.mem_cons_of_mem _ hq2)⟩
  obtain ⟨g2, step2, _⟩ := expand_spec h g1
  rw [expand_eq { st with queue := rest } hn hmap hc hne] at h
  have w1 : W S x { st with queue := rest } := W_dequeue hm.w hq
  have hd2 : deref (store st.heap x ⟨ShortName n.Path, addInt n.Value cn.Children.length, n.Path, n.Children⟩) x = some ⟨ShortName n.Path, addInt n.Value cn.Children.length, n.Path, n.Children⟩ := by
    rw [deref_store, if_pos rfl, hn]; rfl
  have i0 : Inner S x n.Path (addInt cn.Value cn.Children.length) [] { heap := store st.heap x ⟨ShortName n.Path, addInt n.Value cn.Children.length, n.Path, n.Children⟩, queue := rest, visitedNode := mapSet st.visitedNode n.Path x } := by
    have w2 := W_storeAt ⟨ShortName n.Path, addInt n.Value cn.Children.length, n.Path, n.Children⟩ n.Path w1 hx (deref_le_length hn).2
    refine ⟨w2, ⟨_, hd2, rfl, rfl, ?_⟩, (mem_keys_mapSet _ _ _ _).2 (Or.inl rfl),
      fun ch hch => (by cases hch), fun q hq2 => ?_⟩
    · simp only [List.foldl_nil, hval]
    · obtain ⟨n2, _, _, hn2, _⟩ := w2.pend q hq2
      exact ⟨n2, hn2⟩
  have htargets := wellFormed_children hwf hmap hc0 (Or.inr hreach)
  obtain ⟨i1, qmono, kmono⟩ := inner_loop hx cn.Children [] _ s i0 htargets h
  simp only [List.nil_append] at i1
  obtain ⟨nx, hnx, hname, hpath, hvalue⟩ := i1.cell
  refine ⟨⟨i1.w.fresh, fun h0 => ?_, i1.w.qnodup, i1.w.pend, fun k q hkq _ => ?_⟩, g2,
    fun c2 hc2 cn2 hcn2 => ?_⟩
  · have := (i1.w.fresh.qfresh 0 h0).1
    omega
  · by_cases hqx : q = x
    · subst hqx
      obtain ⟨n3, hn3, hp3⟩ := g2.vis.2 k q hkq
      rw [hnx] at hn3
      cases hn3
      have hk : n.Path = k := hpath.symm.trans hp3
      subst hk
      exact ⟨nx, c, cn, hnx, hpath, ⟨hmap, hc0, hcp, hreach⟩,
        Or.inr ⟨⟨hname, Or.inl hvalue⟩, i1.marked⟩⟩
    · exact i1.w.vis k q hkq hqx
  · rcases hm.cov c2 hc2 cn2 hcn2 with h1 | ⟨q, hq1, n2, hn2, hp2⟩
    · left
      exact kmono _ ((mem_keys_mapSet _ _ _ _).2 (Or.inr h1))
    · rw [hq] at hq1
      rcases List.mem_cons.1 hq1 with h2 | h2
      · left
        subst h2
        rw [hn] at hn2
        cases hn2
        rw [← hp2]
        exact i1.seen
      · right
        obtain ⟨n3, hn3, hp3, _⟩ := step2.ext.1 q n2 hn2
        exact ⟨q, qmono q h2, n3, hn3, hp3.trans hp2⟩

theorem bfs_main {S : Src} {P : List GoString} {L : List Nat}
    (hwf : WellFormed S.heap0 S.allNodes) :
    ∀ (fuel : Nat) (st s : GenState), Main S P L st → bfs S.allNodes fuel st = Run.done s →
      Main S P L s ∧ s.queue = [] := by
  intro fuel
  induction fuel with
  | zero =>
    intro st s hm h
    unfold bfs at h
    cases hq : st.queue with
    | nil => simp only [hq, Run.done.injEq] at h; subst h; exact ⟨hm, hq⟩
    | cons node rest => simp [hq] at h
  | succ fuel ih =>
    intro st s hm h
    unfold bfs at h
    cases hq : st.queue with
    | nil => simp only [hq, Run.done.injEq] at h; subst h; exact ⟨hm, hq⟩
    | cons node rest =>
      simp only [hq] at h
      cases he : expand S.allNodes { st with queue := rest } node with
      | none => simp [he] at h
      | some st2 =>
        simp only [he] at h
        exact ih st2 s (expand_main hwf hm hq he) h

theorem seed_step {S : Src} {P : List GoString} {done : List Nat} {st s : GenState}
    {c : Nat} (hm : Main S P done st) (ht : Target S c) (h : seedChild st c = some s) :
    Main S P (done ++ [c]) s := by
  have hcold := target_old ht
  obtain ⟨cn, hc0, ho⟩ := ht
  have hc : deref st.heap c = some cn := by
    rw [hm.w.fresh.frame c hcold.2]; exact hc0
  obtain ⟨g2, step2⟩ := seedChild_spec h hm.good
  rw [seedChild_eq hc] at h
  simp only [Option.some.injEq] at h
  have covOld : ∀ (y : TreeNode) (q2 : List Nat) (vis2 : NodeMap),
      (∀ k, k ∈ keys st.visitedNode → k ∈ keys vis2) →
      (∀ q, q ∈ st.queue → q ∈ q2) →
      ∀ c2 ∈ done, ∀ cn2, deref S.heap0 c2 = some cn2 →
        cn2.Path ∈ keys vis2 ∨
          ∃ q ∈ q2, ∃ n, deref (st.heap ++ [y]) q = some n ∧ n.Path = cn2.Path := by
    intro y q2 vis2 hk hq c2 hc2 cn2 hcn2
    rcases hm.cov c2 hc2 cn2 hcn2 with h1 | ⟨q, hq1, n, hn, hp⟩
    · exact Or.inl (hk _ h1)
    · right
      refine ⟨q, hq q hq1, n, ?_, hp⟩
      rw [deref_append_old _ _ (hm.w.fresh.qfresh q hq1).2]
      exact hn
  by_cases hleaf : cn.Children.length = 0
  · rw [if_pos hleaf] at h
    subst h
    have hnil : cn.Children = [] := List.length_eq_zero.1 hleaf
    refine ⟨W_seedLeaf (y := ⟨ShortName cn.Path, cn.Value, cn.Path, []⟩) hm.w ho
      ⟨rfl, Or.inr ⟨hnil, rfl⟩⟩ hnil, g2, fun c2 hc2 cn2 hcn2 => ?_⟩
    rcases List.mem_append.1 hc2 with h1 | h1
    · exact covOld _ _ _ (fun k hk => (mem_keys_mapSet _ _ _ _).2 (Or.inr hk))
        (fun q hq => hq) c2 h1 cn2 hcn2
    · simp only [List.mem_singleton] at h1
      subst h1
      rw [hc0] at hcn2
      cases hcn2
      exact Or.inl ((mem_keys_mapSet _ _ _ _).2 (Or.inl rfl))
  · rw [if_neg hleaf] at h
    subst h
    refine ⟨(W_push (y := ⟨cn.Path, cn.Value, cn.Path, []⟩) hm.w (Nat.zero_le _) ho rfl).2,
      g2, fun c2 hc2 cn2 hcn2 => ?_⟩
    rcases List.mem_append.1 hc2 with h1 | h1
    · exact covOld _ _ _ (fun k hk => hk)
        (fun q hq => List.mem_append_left _ hq) c2 h1 cn2 hcn2
    · simp only [List.mem_singleton] at h1
      subst h1
      rw [hc0] at hcn2
      cases hcn2
      exact Or.inr ⟨st.heap.length + 1, by simp, _, deref_append_new _ _, rfl⟩

theorem seed_loop {S : Src} {P : List GoString} :
    ∀ (l done : List Nat) (st s : GenState), Main S P done st → (∀ c ∈ l, Target S c) →
      forEach seedChild st l = some s → Main S P (done ++ l) s := by
  intro l
  induction l with
  | nil =>
    intro done st s hm _ h
    simp only [forEach, Option.some.injEq] at h
    subst h
    simpa using hm
  | cons c rest ih =>
    intro done st s hm ht h
    simp only [forEach] at h
    cases hb : seedChild st c with
    | none => simp [hb] at h
    | some s1 =>
      simp only [hb] at h
      have := ih (done ++ [c]) s1 s (seed_step hm (ht c (List.mem_cons_self _ _)) hb)
        (fun c2 hc2 => ht c2 (List.mem_cons_of_mem _ hc2)) h
      simpa using this

theorem main_init (S : Src) :
    Main S (S.heap0.map TreeNode.Path) [] { heap := S.heap0, queue := [], visitedNode := [] } := by
  refine ⟨⟨fresh_init _, fun h => (by cases h), List.nodup_nil, fun q h => (by cases h),
    fun k q h => (by cases h)⟩, good_init _, fun c h => (by cases h)⟩

theorem GenTree_main {fuel : Nat} {startNode : GoString} {allNodes : NodeMap} {heap : Heap}
    {r : Heap × List Nat} (hwf : WellFormed heap allNodes)
    (h : GenTreeNodeByDependency fuel startNode allNodes heap = Run.done r) :
    ∃ root rn st, mapGet allNodes startNode = some root ∧ deref heap root = some rn ∧
      Main ⟨heap, allNodes, root⟩ (heap.map TreeNode.Path) rn.Children st ∧
      st.queue = [] ∧ r = (st.heap, st.visitedNode.map Prod.snd) := by
  unfold GenTreeNodeByDependency at h
  simp only at h
  cases hmr : mapGet allNodes startNode with
  | none => simp [hmr, deref] at h
  | some root =>
    simp only [hmr, Option.getD_some] at h
    cases hd : deref heap root with
    | none => simp [hd] at h
    | some rn =>
      simp only [hd] at h
      cases hs : forEach seedChild { heap := heap, queue := [], visitedNode := [] }
          rn.Children with
      | none => simp [hs] at h
      | some st0 =>
        simp only [hs] at h
        have ht : ∀ c ∈ rn.Children, Target ⟨heap, allNodes, root⟩ c :=
          wellFormed_children (S := ⟨heap, allNodes, root⟩) hwf hmr hd (Or.inl rfl)
        have m0 := seed_loop rn.Children [] _ st0 (main_init ⟨heap, allNodes, root⟩) ht hs
        simp only [List.nil_append] at m0
        cases hb : bfs allNodes fuel st0 with
        | done st =>
          simp only [hb, Run.done.injEq] at h
          obtain ⟨m1, hq⟩ := bfs_main (S := ⟨heap, allNodes, root⟩) hwf fuel st0 st m0 hb
          exact ⟨root, rn, st, rfl, hd, m1, hq, h.symm⟩
        | panic => simp [hb] at h
        | outOfFuel => simp [hb] at h

theorem reach_target {S : Src} (hwf : WellFormed S.heap0 S.allNodes) {k : GoString}
    {rn : TreeNode} (hm : mapGet S.allNodes k = some S.root)
    (hr : deref S.heap0 S.root = some rn) {c : Nat} (h : ReachPlus S.heap0 S.root c) :
    Target S c := by
  induction h with
  | child hd hc =>
    rw [hr] at hd
    cases hd
    exact wellFormed_children hwf hm hr (Or.inl rfl) _ hc
  | step hreach hd hc ih =>
    obtain ⟨cn, hcn, hmap, _, _, _⟩ := ih
    rw [hcn] at hd
    cases hd
    exact wellFormed_children hwf hmap hcn (Or.inr hreach) _ hc

theorem mem_resultNodes {st : GenState} {P : List GoString} (hg : Good P st) {n : TreeNode}
    (h : n ∈ resultNodes (st.heap, st.visitedNode.map Prod.snd)) :
    ∃ q, (n.Path, q) ∈ st.visitedNode ∧ deref st.heap q = some n := by
  simp only [resultNodes, List.mem_filterMap, List.mem_map] at h
  obtain ⟨q, ⟨e, he, rfl⟩, hq⟩ := h
  obtain ⟨n2, hn2, hp2⟩ := hg.vis.2 e.1 e.2 he
  rw [hq] at hn2
  cases hn2
  exact ⟨e.2, by rw [hp2]; exact he, hq⟩

theorem addInt_eq {a b : Int} (h1 : -2 ^ 63 ≤ a + b) (h2 : a + b < 2 ^ 63) :
    addInt a b = a + b := by
  unfold addInt
  have e63 : (2 : Int) ^ 63 = 9223372036854775808 := by norm_num
  have e64 : (2 : Int) ^ 64 = 18446744073709551616 := by norm_num
  rw [e63] at h1 h2 ⊢
  rw [e64]
  omega

theorem childStep_eq (heap : Heap) (acc : Int) (ch : Nat) :
    childStep heap acc ch =
      if 0 < fanOut heap ch then addInt acc (fanOut heap ch) else acc := by
  unfold childStep fanOut
  cases deref heap ch with
  | none => simp
  | some chn => simp

theorem foldl_childStep_eq (heap : Heap) :
    ∀ (l : List Nat) (a : Int), -2 ^ 63 ≤ a →
      a + ((l.map (fanOut heap)).sum : Nat) < 2 ^ 63 →
      l.foldl (childStep heap) a = a + ((l.map (fanOut heap)).sum : Nat) := by
  intro l
  induction l with
  | nil => intro a _ _; simp
  | cons ch rest ih =>
    intro a h1 h2
    simp only [List.map_cons, List.sum_cons, Nat.cast_add] at h2
    have hs : (0 : Int) ≤ ((rest.map (fanOut heap)).sum : Nat) := Int.natCast_nonneg _
    have hf : (0 : Int) ≤ (fanOut heap ch : Nat) := Int.natCast_nonneg _
    simp only [List.foldl_cons, List.map_cons, List.sum_cons, Nat.cast_add]
    rw [childStep_eq]
    by_cases hc : 0 < fanOut heap ch
    · rw [if_pos hc, addInt_eq (by omega) (by omega), ih _ (by omega) (by omega)]
      omega
    · rw [if_neg hc, ih _ h1 (by omega)]
      have : fanOut heap ch = 0 := by omega
      rw [this]
      simp

theorem expandedValue_eq {heap : Heap} {cn : TreeNode} (h1 : -2 ^ 63 ≤ cn.Value)
    (h2 : plainWeight heap cn < 2 ^ 63) : expandedValue heap cn = plainWeight heap cn := by
  unfold expandedValue
  unfold plainWeight at h2 ⊢
  have hs : (0 : Int) ≤ ((cn.Children.map (fanOut heap)).sum : Nat) := Int.natCast_nonneg _
  have hl : (0 : Int) ≤ (cn.Children.length : Nat) := Int.natCast_nonneg _
  rw [addInt_eq (by omega) (by omega), foldl_childStep_eq heap _ _ (by omega) h2]

theorem expandedValue_leaf {heap : Heap} {cn : TreeNode} (h1 : -2 ^ 63 ≤ cn.Value)
    (h2 : cn.Value < 2 ^ 63) (hleaf : cn.Children = []) :
    expandedValue heap cn = cn.Value := by
  unfold expandedValue
  rw [hleaf]
  simp only [List.foldl_nil, List.length_nil, Nat.cast_zero]
  rw [addInt_eq (by simpa using h1) (by simpa using h2)]
  simp

/-! ## A second run on the heap left by the first -/

theorem mapSet_map_shift (k : Nat) (m : NodeMap) (key : GoString) (v : Nat) :
    mapSet (m.map (fun e => (e.1, e.2 + k))) key (v + k) =
      (mapSet m key v).map (fun e => (e.1, e.2 + k)) := by
  induction m with
  | nil => rfl
  | cons a rest ih =>
    obtain ⟨k1, v1⟩ := a
    simp only [List.map_cons, mapSet]
    split_ifs with hk
    · rfl
    · simp only [List.map_cons, ih]

theorem mapGet_map_shift (k : Nat) (m : NodeMap) (key : GoString) :
    mapGet (m.map (fun e => (e.1, e.2 + k))) key = (mapGet m key).map (fun q => q + k) := by
  induction m with
  | nil => rfl
  | cons a rest ih =>
    obtain ⟨k1, v1⟩ := a
    simp only [List.map_cons, mapGet]
    split_ifs with hk
    · rfl
    · exact ih

theorem sim_storeAt {n0 k x : Nat} {s1 s2 : GenState} (y : TreeNode) (key : GoString)
    (hs : Sim n0 k s1 s2) (hx : n0 < x) :
    Sim n0 k { heap := store s1.heap x y, queue := s1.queue, visitedNode := mapSet s1.visitedNode key x } { heap := store s2.heap (x + k) y, queue := s2.queue, visitedNode := mapSet s2.visitedNode key (x + k) } := by
  refine ⟨by simp only [length_store]; exact hs.len, by simp only [length_store]; exact hs.n0le,
    fun p hp => ?_, fun p hp => ?_, hs.queue, ?_⟩
  · simp only
    rw [deref_store, deref_store, if_neg (by omega), if_neg (by omega)]
    exact hs.old p hp
  · simp only
    rw [deref_store, deref_store, hs.new x hx, hs.new p hp]
    by_cases hpx : p = x
    · rw [if_pos hpx, if_pos (by omega)]
    · rw [if_neg hpx, if_neg (by omega)]
  · simp only
    rw [hs.vis, mapSet_map_shift]

theorem sim_append_deref {n0 k : Nat} {s1 s2 : GenState} (y : TreeNode)
    (hs : Sim n0 k s1 s2) :
    (∀ p, p ≤ n0 → deref (s2.heap ++ [y]) p = deref (s1.heap ++ [y]) p) ∧
    (∀ p, n0 < p → deref (s2.heap ++ [y]) (p + k) = deref (s1.heap ++ [y]) p) := by
  have h1 := hs.len
  have h2 := hs.n0le
  constructor
  · intro p hp
    rw [deref_append_old _ _ (by omega), deref_append_old _ _ (by omega)]
    exact hs.old p hp
  · intro p hp
    have e1 := deref_alloc s1.heap y p
    have e2 := deref_alloc s2.heap y (p + k)
    simp only [alloc] at e1 e2
    rw [e1, e2, hs.new p hp]
    by_cases hpl : p = s1.heap.length + 1
    · rw [if_pos hpl, if_pos (by omega)]
    · rw [if_neg hpl, if_neg (by omega)]

theorem sim_push {n0 k : Nat} {s1 s2 : GenState} (y : TreeNode) (key : GoString)
    (hs : Sim n0 k s1 s2) :
    Sim n0 k { heap := s1.heap ++ [y], queue := s1.queue ++ [s1.heap.length + 1], visitedNode := mapSet s1.visitedNode key (s1.heap.length + 1) } { heap := s2.heap ++ [y], queue := s2.queue ++ [s2.heap.length + 1], visitedNode := mapSet s2.visitedNode key (s2.heap.length + 1) } ∧
    Sim n0 k { heap := s1.heap ++ [y], queue := s1.queue ++ [s1.heap.length + 1], visitedNode := s1.visitedNode } { heap := s2.heap ++ [y], queue := s2.queue ++ [s2.heap.length + 1], visitedNode := s2.visitedNode } ∧
    Sim n0 k { heap := s1.heap ++ [y], queue := s1.queue, visitedNode := mapSet s1.visitedNode key (s1.heap.length + 1) } { heap := s2.heap ++ [y], queue := s2.queue, visitedNode := mapSet s2.visitedNode key (s2.heap.length + 1) } := by
  obtain ⟨d1, d2⟩ := sim_append_deref y hs
  have hl := hs.len
  have hn := hs.n0le
  have l1 : (s2.heap ++ [y]).length = (s1.heap ++ [y]).length + k := by
    simp only [List.length_append, List.length_singleton]; omega
  have l2 : n0 ≤ (s1.heap ++ [y]).length := by
    simp only [List.length_append, List.length_singleton]; omega
  have hq : s2.queue ++ [s2.heap.length + 1] =
      (s1.queue ++ [s1.heap.length + 1]).map (fun q => q + k) := by
    rw [hs.queue, List.map_append, List.map_singleton, hl]
    congr 2
    omega
  have hv : mapSet s2.visitedNode key (s2.heap.length + 1) =
      (mapSet s1.visitedNode key (s1.heap.length + 1)).map (fun e => (e.1, e.2 + k)) := by
    rw [hs.vis, ← mapSet_map_shift, hl]
    congr 1
    omega
  exact ⟨⟨l1, l2, d1, d2, hq, hv⟩, ⟨l1, l2, d1, d2, hq, hs.vis⟩, ⟨l1, l2, d1, d2, hs.queue, hv⟩⟩

theorem sim_seedChild {n0 k c : Nat} {s1 s2 s1b : GenState} (hs : Sim n0 k s1 s2)
    (hc : c ≤ n0) (h : seedChild s1 c = some s1b) :
    ∃ s2b, seedChild s2 c = some s2b ∧ Sim n0 k s1b s2b := by
  cases hd : deref s1.heap c with
  | none => simp [seedChild, hd] at h
  | some n =>
    have hd2 : deref s2.heap c = some n := by rw [hs.old c hc]; exact hd
    rw [seedChild_eq hd] at h
    rw [seedChild_eq hd2]
    simp only [Option.some.injEq] at h
    subst h
    refine ⟨_, rfl, ?_⟩
    by_cases hleaf : n.Children.length = 0
    · rw [if_pos hleaf, if_pos hleaf]
      exact (sim_push _ _ hs).2.2
    · rw [if_neg hleaf, if_neg hleaf]
      exact (sim_push _ [] hs).2.1

theorem sim_afterFanOut {n0 k x : Nat} {s1 s2 : GenState} (n vn : TreeNode)
    (hs : Sim n0 k s1 s2) (hx : n0 < x) :
    Sim n0 k (afterFanOut x n vn s1) (afterFanOut (x + k) n vn s2) := by
  unfold afterFanOut
  by_cases hc : 0 < vn.Children.length
  · rw [if_pos hc, if_pos hc]
    exact sim_storeAt _ _ hs hx
  · rw [if_neg hc, if_neg hc]
    exact hs

theorem sim_afterVisit {n0 k x : Nat} {s1 s2 : GenState} (n vn : TreeNode)
    (hs : Sim n0 k s1 s2) (hx : n0 < x) :
    Sim n0 k (afterVisit x n vn s1) (afterVisit (x + k) n vn s2) := by
  have hok : (mapGet s2.visitedNode vn.Path).isSome = (mapGet s1.visitedNode vn.Path).isSome := by
    rw [hs.vis, mapGet_map_shift]
    cases mapGet s1.visitedNode vn.Path <;> rfl
  unfold afterVisit
  rw [hok]
  by_cases h : (mapGet s1.visitedNode vn.Path).isSome = true
  · rw [if_pos h, if_pos h]
    exact sim_afterFanOut n vn hs hx
  · rw [if_neg h, if_neg h]
    exact (sim_push _ _ (sim_afterFanOut n vn hs hx)).1

theorem sim_visitChild {n0 k x v : Nat} {s1 s2 s1b : GenState} {n : TreeNode}
    (hs : Sim n0 k s1 s2) (hx : n0 < x) (hn : deref s1.heap x = some n) (hv : v ≤ n0)
    (h : visitChild x s1 v = some s1b) :
    ∃ s2b vn, visitChild (x + k) s2 v = some s2b ∧ Sim n0 k s1b s2b ∧
      s1b = afterVisit x n vn s1 := by
  cases hd : deref s1.heap v with
  | none => simp [visitChild, hd] at h
  | some vn =>
    have hd2 : deref s2.heap v = some vn := by rw [hs.old v hv]; exact hd
    have hn2 : deref s2.heap (x + k) = some n := by rw [hs.new x hx]; exact hn
    rw [visitChild_eq hn hd (by omega)] at h
    simp only [Option.some.injEq] at h
    subst h
    exact ⟨_, vn, visitChild_eq hn2 hd2 (by omega), sim_afterVisit n vn hs hx, rfl⟩

theorem sim_inner {n0 k x : Nat} (hx : n0 < x) :
    ∀ (l : List Nat) (s1 s2 s1b : GenState), Sim n0 k s1 s2 →
      (∃ n, deref s1.heap x = some n) → (∀ v ∈ l, v ≤ n0) →
      forEach (visitChild x) s1 l = some s1b →
      ∃ s2b, forEach (visitChild (x + k)) s2 l = some s2b ∧ Sim n0 k s1b s2b := by
  intro l
  induction l with
  | nil =>
    intro s1 s2 s1b hs _ _ h
    simp only [forEach, Option.some.injEq] at h
    subst h
    exact ⟨s2, rfl, hs⟩
  | cons v rest ih =>
    intro s1 s2 s1b hs hn hl h
    simp only [forEach] at h
    obtain ⟨n, hn⟩ := hn
    cases hb : visitChild x s1 v with
    | none => simp [hb] at h
    | some s1m =>
      simp only [hb] at h
      obtain ⟨s2m, vn, hb2, hsm, heq⟩ :=
        sim_visitChild hs hx hn (hl v (List.mem_cons_self _ _)) hb
      have hnm : ∃ n2, deref s1m.heap x = some n2 := by
        rw [heq]; exact ⟨_, afterVisit_deref_node hn⟩
      obtain ⟨s2b, hf2, hsb⟩ := ih s1m s2m s1b hsm hnm
        (fun v2 hv2 => hl v2 (List.mem_cons_of_mem _ hv2)) h
      exact ⟨s2b, by simp only [forEach, hb2]; exact hf2, hsb⟩

theorem sim_expand {heap0 : Heap} {allNodes : NodeMap} {k x : Nat} {s1 s2 s1b : GenState}
    {n : TreeNode} (hs : Sim heap0.length k s1 s2) (hf : Fresh heap0 s1)
    (hnd : NoDangling heap0 allNodes) (hx : heap0.length < x)
    (hn : deref s1.heap x = some n) (h : expand allNodes s1 x = some s1b) :
    ∃ s2b, expand allNodes s2 (x + k) = some s2b ∧ Sim heap0.length k s1b s2b := by
  have hn2 : deref s2.heap (x + k) = some n := by rw [hs.new x hx]; exact hn
  cases hm : mapGet allNodes n.Path with
  | none =>
    have e1 : expand allNodes s1 x = some s1 := by simp [expand, hn, hm]
    have e2 : expand allNodes s2 (x + k) = some s2 := by simp [expand, hn2, hm]
    rw [e1] at h
    simp only [Option.some.injEq] at h
    subst h
    exact ⟨s2, e2, hs⟩
  | some t =>
    have ht : t ≤ heap0.length := hnd.1 (n.Path, t) (mapGet_mem hm)
    cases hd : deref s1.heap t with
    | none =>
      exfalso
      unfold expand at h
      simp only [hn, hm, update_isSome _ hn] at h
      have : deref (store s1.heap x { n with Name := ShortName n.Path }) t = none := by
        rw [deref_store, if_neg (by omega)]; exact hd
      simp [this] at h
    | some tn =>
      have hd2 : deref s2.heap t = some tn := by rw [hs.old t ht]; exact hd
      rw [expand_eq s1 hn hm hd (by omega)] at h
      rw [expand_eq s2 hn2 hm hd2 (by omega)]
      have htn : tn ∈ heap0 := by
        rw [hf.frame t ht] at hd
        exact deref_mem hd
      have hpre := sim_storeAt ⟨ShortName n.Path, addInt n.Value tn.Children.length, n.Path, n.Children⟩ n.Path hs hx
      have hnode : ∃ n2, deref (store s1.heap x ⟨ShortName n.Path, addInt n.Value tn.Children.length, n.Path, n.Children⟩) x = some n2 := by
        rw [deref_store, if_pos rfl, hn]
        exact ⟨_, rfl⟩
      exact sim_inner hx tn.Children _ _ s1b hpre hnode (hnd.2 tn htn) h

theorem sim_bfs {heap0 : Heap} {allNodes : NodeMap} {P : List GoString} {k : Nat}
    (hnd : NoDangling heap0 allNodes) :
    ∀ (fuel : Nat) (s1 s2 s1b : GenState), Sim heap0.length k s1 s2 → Fresh heap0 s1 →
      Good P s1 → bfs allNodes fuel s1 = Run.done s1b →
      ∃ s2b, bfs allNodes fuel s2 = Run.done s2b ∧ Sim heap0.length k s1b s2b := by
  intro fuel
  induction fuel with
  | zero =>
    intro s1 s2 s1b hs hf hg h
    unfold bfs at h ⊢
    cases hq : s1.queue with
    | nil =>
      have hq2 : s2.queue = [] := by rw [hs.queue, hq]; rfl
      simp only [hq, Run.done.injEq] at h
      subst h
      exact ⟨s2, by simp [hq2], hs⟩
    | cons x rest => simp [hq] at h
  | succ fuel ih =>
    intro s1 s2 s1b hs hf hg h
    unfold bfs at h ⊢
    cases hq : s1.queue with
    | nil =>
      have hq2 : s2.queue = [] := by rw [hs.queue, hq]; rfl
      simp only [hq, Run.done.injEq] at h
      subst h
      exact ⟨s2, by simp [hq2], hs⟩
    | cons x rest =>
      have hq2 : s2.queue = (x + k) :: rest.map (fun q => q + k) := by
        rw [hs.queue, hq]; rfl
      simp only [hq] at h
      simp only [hq2]
      cases he : expand allNodes { s1 with queue := rest } x with
      | none => simp [he] at h
      | some s1m =>
        simp only [he] at h
        have hxq : x ∈ s1.queue := by rw [hq]; exact List.mem_cons_self _ _
        obtain ⟨n, hn⟩ := hg.queue x hxq
        have hx := (hf.qfresh x hxq).1
        have hs1 : Sim heap0.length k { s1 with queue := rest } { s2 with queue := rest.map (fun q => q + k) } :=
          ⟨hs.len, hs.n0le, hs.old, hs.new, rfl, hs.vis⟩
        have f1 : Fresh heap0 { s1 with queue := rest } :=
          ⟨hf.frame, hf.len,
            fun q hq3 => hf.qfresh q (by rw [hq]; exact List.mem_cons_of_mem _ hq3), hf.vfresh⟩
        have g1 : Good P { s1 with queue := rest } :=
          ⟨hg.vis, hg.paths,
            fun q hq3 => hg.queue q (by rw [hq]; exact List.mem_cons_of_mem _ hq3)⟩
        obtain ⟨s2m, he2, hsm⟩ := sim_expand hs1 f1 hnd hx hn he
        simp only [he2]
        exact ih s1m s2m s1b hsm (expand_fresh f1 hx he) (expand_spec he g1).1 h

theorem sim_seed_loop {n0 k : Nat} :
    ∀ (l : List Nat) (s1 s2 s1b : GenState), Sim n0 k s1 s2 → (∀ c ∈ l, c ≤ n0) →
      forEach seedChild s1 l = some s1b →
      ∃ s2b, forEach seedChild s2 l = some s2b ∧ Sim n0 k s1b s2b := by
  intro l
  induction l with
  | nil =>
    intro s1 s2 s1b hs _ h
    simp only [forEach, Option.some.injEq] at h
    subst h
    exact ⟨s2, rfl, hs⟩
  | cons c rest ih =>
    intro s1 s2 s1b hs hl h
    simp only [forEach] at h
    cases hb : seedChild s1 c with
    | none => simp [hb] at h
    | some s1m =>
      simp only [hb] at h
      obtain ⟨s2m, hb2, hsm⟩ := sim_seedChild hs (hl c (List.mem_cons_self _ _)) hb
      obtain ⟨s2b, hf2, hsb⟩ := ih s1m s2m s1b hsm
        (fun c2 hc2 => hl c2 (List.mem_cons_of_mem _ hc2)) h
      exact ⟨s2b, by simp only [forEach, hb2]; exact hf2, hsb⟩

theorem sim_init (heap0 added : Heap) :
    Sim heap0.length added.length { heap := heap0, queue := [], visitedNode := [] } { heap := heap0 ++ added, queue := [], visitedNode := [] } := by
  refine ⟨by simp, le_rfl, fun p hp => ?_, fun p hp => ?_, rfl, rfl⟩
  · cases p with
    | zero => rfl
    | succ q =>
      simp only [deref]
      rw [List.getElem?_append_left (by omega)]
  · simp only
    have h1 : deref heap0 p = none := by
      cases p with
      | zero => rfl
      | succ q =>
        simp only [deref]
        exact List.getElem?_eq_none (by omega)
    have h2 : deref (heap0 ++ added) (p + added.length) = none := by
      cases p with
      | zero => omega
      | succ q =>
        rw [show q + 1 + added.length = (q + added.length) + 1 by omega]
        simp only [deref]
        exact List.getElem?_eq_none (by simp; omega)
    rw [h1, h2]

/-- C14. `GenTreeNodeByDependency` writes to no record of its input: the returned heap is
the input heap followed by the records the run made, and every returned pointer is one
of these new records. When the input has no dangling pointer, a second run on the heap
left by the first returns records equal to those of the first, so the same weight for
each path. (The map itself is a value the function only reads.) -/
theorem GenTreeNodeByDependency_frame (fuel : Nat) (startNode : GoString)
    (allNodes : NodeMap) (heap : Heap) (r : Heap × List Nat)
    (hnd : NoDangling heap allNodes)
    (h : GenTreeNodeByDependency fuel startNode allNodes heap = Run.done r) :
    (∃ added, r.1 = heap ++ added) ∧
    (∀ q ∈ r.2, heap.length < q ∧ q ≤ r.1.length) ∧
    ∃ r2, GenTreeNodeByDependency fuel startNode allNodes r.1 = Run.done r2 ∧
      resultNodes r2 = resultNodes r := by
  obtain ⟨stF, hfF, _, hrF⟩ := GenTree_fresh h
  have happ : r.1 = heap ++ r.1.drop heap.length := by
    rw [hrF]
    exact heap_eq_append_of_frame hfF.frame
  have hptr : ∀ q ∈ r.2, heap.length < q ∧ q ≤ r.1.length := by
    rw [hrF]
    intro q hq
    simp only [List.mem_map] at hq
    obtain ⟨e, he, rfl⟩ := hq
    exact hfF.vfresh e he
  refine ⟨⟨_, happ⟩, hptr, ?_⟩
  generalize hadd : r.1.drop heap.length = added at happ
  unfold GenTreeNodeByDependency at h ⊢
  simp only at h ⊢
  have hroot : (mapGet allNodes startNode).getD 0 ≤ heap.length := by
    cases hm : mapGet allNodes startNode with
    | none => simp
    | some p => exact hnd.1 (startNode, p) (mapGet_mem hm)
  have s0 := sim_init heap added
  cases hd : deref heap ((mapGet allNodes startNode).getD 0) with
  | none => simp [hd] at h
  | some rn =>
    have hd2 : deref r.1 ((mapGet allNodes startNode).getD 0) = some rn := by
      rw [happ]
      have := s0.old _ hroot
      simp only at this
      rw [this]; exact hd
    simp only [hd] at h
    simp only [hd2]
    cases hs : forEach seedChild { heap := heap, queue := [], visitedNode := [] }
        rn.Children with
    | none => simp [hs] at h
    | some st0 =>
      simp only [hs] at h
      have hkids : ∀ c ∈ rn.Children, c ≤ heap.length := hnd.2 rn (deref_mem hd)
      obtain ⟨st0b, hs2, hsim0⟩ := sim_seed_loop rn.Children _ _ st0 s0 hkids hs
      have f0 : Fresh heap st0 :=
        (forEach_induction seedChild (fun _ _ => True) (fun _ => trivial)
          (fun _ _ _ _ _ => trivial) (Fresh heap)
          (fun _ _ _ hI hb => ⟨seedChild_fresh hI hb, trivial⟩) rn.Children _ st0
          (fresh_init heap) hs).1
      have g0 := (forEach_seedChild_spec rn.Children hs (good_init heap)).1
      cases hb : bfs allNodes fuel st0 with
      | done st =>
        simp only [hb, Run.done.injEq] at h
        obtain ⟨stb, hb2, hsimF⟩ := sim_bfs hnd fuel st0 st0b st hsim0 f0 g0 hb
        have hfst := (bfs_fresh fuel st0 st f0 hb).1
        rw [happ, hs2]
        simp only [hb2]
        refine ⟨_, rfl, ?_⟩
        rw [← h]
        simp only [resultNodes, hsimF.vis, List.map_map, List.filterMap_map]
        apply List.filterMap_congr
        intro e he
        simp only [Function.comp]
        exact hsimF.new e.2 (hfst.vfresh e he).1
      | panic => simp [hb] at h
      | outOfFuel => simp [hb] at h

theorem GenTreeNodeByDependency_frame_witness :
    NoDangling cycHeap cycMap ∧
    ∃ r, GenTreeNodeByDependency 2 (str "root") cycMap cycHeap = Run.done r ∧
      r.1.take 3 = cycHeap ∧ r.2 = [4, 5] ∧
      (∃ added, r.1 = cycHeap ++ added) ∧
      (∀ q ∈ r.2, cycHeap.length < q ∧ q ≤ r.1.length) ∧
      ∃ r2, GenTreeNodeByDependency 2 (str "root") cycMap r.1 = Run.done r2 ∧
        resultNodes r2 = resultNodes r :=
  ⟨by decide, _, rfl, by decide, by decide,
    GenTreeNodeByDependency_frame 2 (str "root") cycMap cycHeap _ (by decide) rfl⟩

/-! ## The map built by the parse loop is well formed -/

theorem mapGet_mapSet (m : NodeMap) (k : GoString) (v : Nat) (k2 : GoString) :
    mapGet (mapSet m k v) k2 = if k2 = k then some v else mapGet m k2 := by
  induction m with
  | nil =>
    simp only [mapSet, mapGet]
    by_cases h : k2 = k
    · rw [if_pos h, if_pos h.symm]
    · rw [if_neg h, if_neg (fun h2 => h h2.symm)]
  | cons a rest ih =>
    obtain ⟨k1, v1⟩ := a
    by_cases hk : k1 = k
    · subst hk
      by_cases h : k2 = k1
      · subst h
        simp [mapSet, mapGet]
      · have h2 : ¬ k1 = k2 := fun e => h e.symm
        simp [mapSet, mapGet, h, h2]
    · by_cases h1 : k1 = k2
      · subst h1
        simp [mapSet, mapGet, hk]
      · by_cases h : k2 = k
        · subst h
          simp [mapSet, mapGet, hk, ih]
        · simp [mapSet, mapGet, hk, h1, h, ih]

theorem getOrCreate_ptr {heap : Heap} {nodes : NodeMap} (name : GoString)
    (hI : PtrInv heap nodes) :
    PtrInv (getOrCreate heap nodes name).1 (getOrCreate heap nodes name).2.1 ∧
    (∃ n, deref (getOrCreate heap nodes name).1 (getOrCreate heap nodes name).2.2 = some n ∧
      n.Path = name) ∧
    (∀ p n, deref heap p = some n → deref (getOrCreate heap nodes name).1 p = some n) := by
  unfold getOrCreate
  cases hm : mapGet nodes name with
  | some p => exact ⟨hI, hI.mapped name p hm, fun _ _ h => h⟩
  | none =>
    simp only
    refine ⟨⟨fun p n hn => ?_, fun k p hk => ?_, fun p n hn c hc => ?_⟩,
      ⟨_, deref_alloc_new _ _, rfl⟩, fun p n hn => deref_alloc_old _ hn⟩
    · rw [deref_alloc] at hn
      rw [mapGet_mapSet]
      split_ifs at hn with h1
      · cases hn
        simp [h1, alloc]
      · have := hI.own p n hn
        have hne : n.Path ≠ name := by
          intro h2
          rw [h2, hm] at this
          cases this
        rw [if_neg hne]
        exact this
    · rw [mapGet_mapSet] at hk
      split_ifs at hk with h1
      · cases hk
        exact ⟨_, deref_alloc_new _ _, h1.symm⟩
      · obtain ⟨n, hn, hp⟩ := hI.mapped k p hk
        exact ⟨n, deref_alloc_old _ hn, hp⟩
    · rw [deref_alloc] at hn
      split_ifs at hn with h1
      · cases hn
        cases hc
      · obtain ⟨cn, hcn⟩ := hI.kids p n hn c hc
        exact ⟨cn, deref_alloc_old _ hcn⟩

theorem addEdge_ptr {st st2 : ParseState} {h t : GoString}
    (hI : PtrInv st.heap st.nodes) (he : addEdge st h t = some st2) :
    PtrInv st2.heap st2.nodes := by
  unfold addEdge at he
  simp only at he
  obtain ⟨I1, ⟨hn1, hhn1, hhp1⟩, _⟩ := getOrCreate_ptr h hI
  generalize getOrCreate st.heap st.nodes h = r1 at he I1 hhn1
  obtain ⟨I2, ⟨tn, htn, _⟩, hkeep⟩ := getOrCreate_ptr t I1
  generalize getOrCreate r1.1 r1.2.1 t = r2 at he I2 htn hkeep
  have hhn := hkeep _ _ hhn1
  simp only [hhn] at he
  have hmap : mapGet r2.2.1 h = some r1.2.2 := by
    have := I2.own _ _ hhn
    rw [hhp1] at this
    exact this
  rw [mapSet_eq_self hmap] at he
  cases hce : childExists r2.1 r2.2.2 hn1.Children with
  | none => simp [hce] at he
  | some exist =>
    simp only [hce, Option.some.injEq] at he
    subst he
    cases exist with
    | true => exact I2
    | false =>
      simp only [Bool.false_eq_true, if_false]
      have hd3 : ∀ q, deref (store r2.1 r1.2.2 { hn1 with Children := hn1.Children ++ [r2.2.2] }) q =
          if q = r1.2.2 then some { hn1 with Children := hn1.Children ++ [r2.2.2] } else deref r2.1 q := by
        intro q
        rw [deref_store, hhn]
        rfl
      have hvalid : ∀ c cn, deref r2.1 c = some cn →
          ∃ cn2, deref (store r2.1 r1.2.2 { hn1 with Children := hn1.Children ++ [r2.2.2] }) c = some cn2 ∧ cn2.Path = cn.Path := by
        intro c cn hc
        rw [hd3]
        split_ifs with h1
        · subst h1
          rw [hhn] at hc
          cases hc
          exact ⟨_, rfl, rfl⟩
        · exact ⟨cn, hc, rfl⟩
      refine ⟨fun p n hn => ?_, fun k p hk => ?_, fun p n hn c hc => ?_⟩
      · rw [hd3] at hn
        split_ifs at hn with h1
        · cases hn
          subst h1
          exact I2.own _ hn1 hhn
        · exact I2.own p n hn
      · obtain ⟨n, hn, hp⟩ := I2.mapped k p hk
        obtain ⟨n2, hn2, hp2⟩ := hvalid p n hn
        exact ⟨n2, hn2, hp2.trans hp⟩
      · rw [hd3] at hn
        split_ifs at hn with h1
        · cases hn
          simp only [List.mem_append, List.mem_singleton] at hc
          rcases hc with hc | hc
          · obtain ⟨cn, hcn⟩ := I2.kids _ _ hhn c hc
            obtain ⟨cn2, hcn2, _⟩ := hvalid c cn hcn
            exact ⟨cn2, hcn2⟩
          · subst hc
            obtain ⟨cn2, hcn2, _⟩ := hvalid _ tn htn
            exact ⟨cn2, hcn2⟩
        · obtain ⟨cn, hcn⟩ := I2.kids p n hn c hc
          obtain ⟨cn2, hcn2, _⟩ := hvalid c cn hcn
          exact ⟨cn2, hcn2⟩

theorem runRecords_ptr :
    ∀ (lines : List GoString) (st st2 : ParseState), PtrInv st.heap st.nodes →
      runRecords st lines = some st2 → PtrInv st2.heap st2.nodes := by
  intro lines
  induction lines with
  | nil =>
    intro st st2 hI h
    simp only [runRecords, Option.some.injEq] at h
    subst h
    exact hI
  | cons line rest ih =>
    intro st st2 hI h
    simp only [runRecords] at h
    cases hp : processLine st line with
    | none => simp [hp] at h
    | some st1 =>
      simp only [hp] at h
      refine ih st1 st2 ?_ h
      unfold processLine at hp
      cases ht : tokens line with
      | none => simp [ht] at hp
      | some e =>
        obtain ⟨hd, tl⟩ := e
        simp only [ht] at hp
        split_ifs at hp
        · simp only [Option.some.injEq] at hp
          subst hp; exact hI
        · simp only [Option.some.injEq] at hp
          subst hp; exact hI
        · exact addEdge_ptr hI hp

theorem parse_wellFormed {byteData : GoString} {st : ParseState}
    (h : parse byteData = some st) :
    WellFormed st.heap st.nodes ∧ NoDangling st.heap st.nodes ∧
      (∀ n ∈ st.heap, n.Value = 1) := by
  have hP : PtrInv st.heap st.nodes := by
    refine runRecords_ptr _ initState st ⟨fun p n hn => ?_, fun k p hk => ?_,
      fun p n hn => ?_⟩ h
    · cases p <;> simp [initState, deref] at hn
    · simp [initState, mapGet] at hk
    · cases p <;> simp [initState, deref] at hn
  have hI := parse_spec h
  refine ⟨fun e he n hn c hc => ?_, ⟨fun e he => ?_, fun n hn c hc => ?_⟩, fun n hn => ?_⟩
  · have hn2 : deref st.heap e.2 = some n := by simpa using hn
    obtain ⟨cn, hcn⟩ := hP.kids _ _ hn2 c hc
    exact ⟨cn, by simp [hcn], hP.own _ _ hcn⟩
  · obtain ⟨n, hn, _⟩ := hI.inv.node e.1 e.2 he
    exact (deref_le_length hn).2
  · obtain ⟨i, hi⟩ := List.mem_iff_getElem?.1 hn
    have hd : deref st.heap (i + 1) = some n := hi
    obtain ⟨cn, hcn⟩ := hP.kids _ _ hd c hc
    exact (deref_le_length hcn).2
  · obtain ⟨i, hi⟩ := List.mem_iff_getElem?.1 hn
    have hd : deref st.heap (i + 1) = some n := hi
    obtain ⟨n2, hn2, _, hv, _⟩ := hI.inv.node _ _ (mapGet_mem (hP.own _ _ hd))
    rw [hd] at hn2
    cases hn2
    exact hv

/-! ## Size of a parser-built map -/

theorem Trim_subset (s : GoString) : Trim s ⊆ s := by
  intro x hx
  unfold Trim at hx
  rw [List.mem_reverse] at hx
  have h1 := (List.dropWhile_suffix _).subset hx
  rw [List.mem_reverse] at h1
  exact (List.dropWhile_suffix _).subset h1

theorem acceptedPair_length {line : GoString} {e : GoString × GoString}
    (h : acceptedPair line = some e) (hn : newline ∈ line) : 3 ≤ line.length := by
  obtain ⟨ht, h1, _⟩ := acceptedPair_some h
  have hsp : space ∈ line := by
    by_contra hc
    rw [(tokens_eq_none_iff line).2 hc] at ht
    cases ht
  obtain ⟨p0, p1, rest, hs, e1, _⟩ := tokens_some ht
  have hp0 : p0 = line.takeWhile (fun b => decide (b ≠ space)) := by
    rw [← firstPiece_Split, hs]
    rfl
  have hsl : slash ∈ line := by
    rw [e1] at h1
    have h2 := Trim_subset p0 ((List.takeWhile_prefix _).subset h1)
    rw [hp0] at h2
    exact (List.takeWhile_prefix _).subset h2
  have hsub : [space, slash, newline] ⊆ line := by
    intro x hx
    simp only [List.mem_cons, List.mem_singleton, List.not_mem_nil, or_false] at hx
    rcases hx with rfl | rfl | rfl
    · exact hsp
    · exact hsl
    · exact hn
  have hnd : [space, slash, newline].Nodup := by decide
  exact (List.subperm_of_subset hnd hsub).length_le

theorem readRecords_mem_newline :
    ∀ (s cur : GoString), ∀ l ∈ readRecords cur s, newline ∈ l := by
  intro s
  induction s with
  | nil => intro cur l hl; simp [readRecords] at hl
  | cons b rest ih =>
    intro cur l hl
    simp only [readRecords] at hl
    split_ifs at hl with hb
    · rcases List.mem_cons.1 hl with rfl | h2
      · simp [hb]
      · exact ih _ _ h2
    · exact ih _ _ hl

theorem readRecords_sum_length :
    ∀ (s cur : GoString), ((readRecords cur s).map List.length).sum ≤ cur.length + s.length := by
  intro s
  induction s with
  | nil => intro cur; simp [readRecords]
  | cons b rest ih =>
    intro cur
    simp only [readRecords]
    split_ifs with hb
    · have := ih []
      simp only [List.map_cons, List.sum_cons, List.length_append, List.length_singleton,
        List.length_cons, List.length_nil] at this ⊢
      omega
    · have := ih (cur ++ [b])
      simp only [List.length_append, List.length_singleton, List.length_cons,
        List.length_nil] at this ⊢
      omega

theorem acceptedPairs_length :
    ∀ (lines : List GoString), (∀ l ∈ lines, newline ∈ l) →
      3 * (acceptedPairs lines).length ≤ (lines.map List.length).sum := by
  intro lines
  induction lines with
  | nil => intro _; simp [acceptedPairs]
  | cons l rest ih =>
    intro hl
    have h1 := ih (fun x hx => hl x (List.mem_cons_of_mem _ hx))
    simp only [acceptedPairs, List.filterMap_cons, List.map_cons, List.sum_cons] at h1 ⊢
    cases ha : acceptedPair l with
    | none =>
      simp only
      omega
    | some e =>
      have := acceptedPair_length ha (hl l (List.mem_cons_self _ _))
      simp only [List.length_cons]
      omega

theorem accepted_length (byteData : GoString) :
    3 * (accepted byteData).length ≤ byteData.length := by
  have h1 := acceptedPairs_length (readRecords [] byteData) (readRecords_mem_newline _ _)
  have h2 := readRecords_sum_length byteData []
  simp only [List.length_nil, Nat.zero_add] at h2
  unfold accepted
  omega

theorem firstOccurrences_length_le (l : List GoString) :
    (firstOccurrences l).length ≤ l.length := by
  induction l with
  | nil => simp [firstOccurrences]
  | cons a rest ih =>
    simp only [firstOccurrences, List.length_cons]
    have := List.length_filter_le (fun y => decide (y ≠ a)) (firstOccurrences rest)
    omega

theorem sum_indicator_zero (x : GoString) :
    ∀ T : List GoString, x ∉ T → (T.map (fun t => if x = t then 1 else 0)).sum = 0 := by
  intro T
  induction T with
  | nil => intro _; rfl
  | cons t rest ih =>
    intro hx
    simp only [List.mem_cons, not_or] at hx
    simp only [List.map_cons, List.sum_cons, if_neg hx.1, ih hx.2]

theorem sum_indicator_le_one (x : GoString) :
    ∀ T : List GoString, T.Nodup → (T.map (fun t => if x = t then 1 else 0)).sum ≤ 1 := by
  intro T
  induction T with
  | nil => intro _; simp
  | cons t rest ih =>
    intro hT
    rw [List.nodup_cons] at hT
    simp only [List.map_cons, List.sum_cons]
    by_cases hx : x = t
    · subst hx
      rw [if_pos rfl, sum_indicator_zero x rest hT.1]
    · rw [if_neg hx]
      have := ih hT.2
      omega

theorem tailsOf_cons_length (t : GoString) (e : GoString × GoString)
    (ps : List (GoString × GoString)) :
    (tailsOf t (e :: ps)).length = (if e.1 = t then 1 else 0) + (tailsOf t ps).length := by
  unfold tailsOf
  by_cases h : e.1 = t
  · simp [List.filter_cons, h]
    omega
  · simp [List.filter_cons, h]

theorem sum_tailsOf_le (T : List GoString) (hT : T.Nodup) :
    ∀ ps : List (GoString × GoString),
      (T.map (fun t => (tailsOf t ps).length)).sum ≤ ps.length := by
  intro ps
  induction ps with
  | nil => simp [tailsOf]
  | cons e ps ih =>
    simp only [tailsOf_cons_length, List.sum_map_add, List.length_cons]
    have := sum_indicator_le_one e.1 T hT
    omega

theorem parse_ptr {byteData : GoString} {st : ParseState}
    (h : parse byteData = some st) : PtrInv st.heap st.nodes := by
  refine runRecords_ptr _ initState st ⟨fun p n hn => ?_, fun k p hk => ?_,
    fun p n hn => ?_⟩ h
  · cases p <;> simp [initState, deref] at hn
  · simp [initState, mapGet] at hk
  · cases p <;> simp [initState, deref] at hn

theorem parse_fanOut_le {byteData : GoString} {st : ParseState}
    (h : parse byteData = some st) {c : Nat} {cn : TreeNode}
    (hc : deref st.heap c = some cn) :
    childPaths st.heap cn =
        (firstOccurrences (tailsOf cn.Path (accepted byteData))).map some ∧
      cn.Children.length ≤ (tailsOf cn.Path (accepted byteData)).length := by
  have hP := parse_ptr h
  have hI := parse_spec h
  obtain ⟨n, hn, _, _, hch⟩ := hI.inv.node _ _ (mapGet_mem (hP.own _ _ hc))
  rw [hc] at hn
  cases hn
  refine ⟨hch, ?_⟩
  have hl := congrArg List.length hch
  simp only [childPaths, List.length_map] at hl
  rw [hl]
  exact firstOccurrences_length_le _

theorem parse_weight_bound {byteData : GoString} {st : ParseState}
    (h : parse byteData = some st) {c : Nat} {cn : TreeNode}
    (hc : deref st.heap c = some cn) :
    cn.Children.length + (cn.Children.map (fanOut st.heap)).sum ≤
      2 * (accepted byteData).length := by
  have hP := parse_ptr h
  obtain ⟨hch, hlen⟩ := parse_fanOut_le h hc
  have h1 : (tailsOf cn.Path (accepted byteData)).length ≤ (accepted byteData).length := by
    unfold tailsOf
    rw [List.length_map]
    exact List.length_filter_le _ _
  have h2 : (cn.Children.map (fanOut st.heap)).sum ≤
      (cn.Children.map (fun c2 => (((deref st.heap c2).map TreeNode.Path).map
        (fun t => (tailsOf t (accepted byteData)).length)).getD 0)).sum := by
    apply List.sum_le_sum
    intro c2 hc2
    obtain ⟨chn, hchn⟩ := hP.kids _ _ hc c2 hc2
    simp only [fanOut, hchn, Option.map_some', Option.getD_some]
    exact (parse_fanOut_le h hchn).2
  have h3 : (cn.Children.map (fun c2 => (((deref st.heap c2).map TreeNode.Path).map
        (fun t => (tailsOf t (accepted byteData)).length)).getD 0)).sum =
      ((firstOccurrences (tailsOf cn.Path (accepted byteData))).map
        (fun t => (tailsOf t (accepted byteData)).length)).sum := by
    have := congrArg (fun l => (l.map (fun o : Option GoString =>
      (o.map (fun t => (tailsOf t (accepted byteData)).length)).getD 0)).sum) hch
    simp only [childPaths, List.map_map] at this
    exact this
  have h4 := sum_tailsOf_le _ (nodup_firstOccurrences (tailsOf cn.Path (accepted byteData)))
    (accepted byteData)
  omega

/-- C18. On a well-formed map, every record returned by `GenTreeNodeByDependency`
carries the short name of its own path. -/
theorem GenTreeNodeByDependency_names (fuel : Nat) (startNode : GoString)
    (allNodes : NodeMap) (heap : Heap) (r : Heap × List Nat)
    (hwf : WellFormed heap allNodes)
    (h : GenTreeNodeByDependency fuel startNode allNodes heap = Run.done r) :
    ∀ n ∈ resultNodes r, n.Name = ShortName n.Path := by
  obtain ⟨root, rn, st, _, _, hm, hq, rfl⟩ := GenTree_main hwf h
  intro n hn
  obtain ⟨q, hmem, hd⟩ := mem_resultNodes hm.good hn
  have hq0 : q ≠ 0 := by
    have := (hm.w.fresh.vfresh _ hmem).1
    simp only at this
    omega
  obtain ⟨n2, c, cn, hn2, _, _, hrest⟩ := hm.w.vis _ q hmem hq0
  rw [hd] at hn2
  cases hn2
  rcases hrest with h1 | ⟨⟨hname, _⟩, _⟩
  · rw [hq] at h1; cases h1
  · exact hname

theorem GenTreeNodeByDependency_names_witness :
    WellFormed cycHeap cycMap ∧
    ∃ r, GenTreeNodeByDependency 2 (str "root") cycMap cycHeap = Run.done r ∧
      (resultNodes r).map TreeNode.Name = [str ".", str "."] ∧
      ∀ n ∈ resultNodes r, n.Name = ShortName n.Path :=
  ⟨by decide, _, rfl, by decide,
    GenTreeNodeByDependency_names 2 (str "root") cycMap cycHeap _ (by decide) rfl⟩

/-- At the edge of the range of `int` the additions of lines 69-76 wrap: in the overflow
example the node `A` holds the largest `int` and has one outgoing edge, its plain weight
is `2 ^ 63`, and the returned record carries the least `int`. No map built by the parse
loop comes near it, every `Value` there being 1. -/
theorem GenTree_weights_wrap :
    GenTreeNodeByDependency 2 (str "root") bigMap bigHeap =
        Run.done (runResult (GenTreeNodeByDependency 2 (str "root") bigMap bigHeap)) ∧
      (resultNodes (runResult (GenTreeNodeByDependency 2 (str "root") bigMap bigHeap))).map
          (fun n => (n.Path, n.Value)) =
        [(str "A", -9223372036854775808), (str "B", 1)] ∧
      (bigHeap.map (plainWeight bigHeap)) = [3, 9223372036854775808, 1] := by
  decide

theorem GenTree_weights_core (fuel : Nat) (startNode : GoString)
    (allNodes : NodeMap) (heap : Heap) (r : Heap × List Nat)
    (hwf : WellFormed heap allNodes)
    (hrange : ∀ cn ∈ heap, -2 ^ 63 ≤ cn.Value ∧ cn.Value < 2 ^ 63)
    (h : GenTreeNodeByDependency fuel startNode allNodes heap = Run.done r) :
    ∀ n ∈ resultNodes r, ∃ c cn, mapGet allNodes n.Path = some c ∧
      deref heap c = some cn ∧ cn.Path = n.Path ∧ n.Value = expandedValue heap cn ∧
      (plainWeight heap cn < 2 ^ 63 → n.Value = plainWeight heap cn) := by
  obtain ⟨root, rn, st, _, _, hm, hq, rfl⟩ := GenTree_main hwf h
  intro n hn
  obtain ⟨q, hmem, hd⟩ := mem_resultNodes hm.good hn
  have hq0 : q ≠ 0 := by
    have := (hm.w.fresh.vfresh _ hmem).1
    simp only at this
    omega
  obtain ⟨n2, c, cn, hn2, _, ⟨hmap, hc0, hcp, _⟩, hrest⟩ := hm.w.vis _ q hmem hq0
  rw [hd] at hn2
  cases hn2
  have hr := hrange cn (deref_mem hc0)
  have hval : n.Value = expandedValue heap cn := by
    rcases hrest with h1 | ⟨⟨_, hv⟩, _⟩
    · rw [hq] at h1; cases h1
    · rcases hv with hv | ⟨hleaf, hv⟩
      · exact hv
      · rw [hv, expandedValue_leaf hr.1 hr.2 hleaf]
  exact ⟨c, cn, hmap, hc0, hcp, hval, fun hlt => by rw [hval, expandedValue_eq hr.1 hlt]⟩

/-- C17. On a well-formed map whose `Value`s are `int`s, every returned record of path
`p` has as weight the `Value` of the map node of `p`, plus its number of outgoing edges,
plus the number of outgoing edges of each of its targets: the sum as the additions of
`int` compute it, which is the plain sum whenever that is an `int`. It depends neither on
the order of traversal nor on what was visited. A map built by the parse loop from an
input buffer (a Go slice, of length below `2 ^ 63`) is well formed with every `Value`
equal to 1, and there the weight is 1 plus the number of edge paths of length 1 or 2 from
`p`. -/
theorem GenTreeNodeByDependency_weights (fuel : Nat) (startNode : GoString)
    (allNodes : NodeMap) (heap : Heap) (r : Heap × List Nat)
    (hwf : WellFormed heap allNodes)
    (hrange : ∀ cn ∈ heap, -2 ^ 63 ≤ cn.Value ∧ cn.Value < 2 ^ 63)
    (h : GenTreeNodeByDependency fuel startNode allNodes heap = Run.done r) :
    (∀ n ∈ resultNodes r, ∃ c cn, mapGet allNodes n.Path = some c ∧
      deref heap c = some cn ∧ cn.Path = n.Path ∧ n.Value = expandedValue heap cn ∧
      (plainWeight heap cn < 2 ^ 63 → n.Value = plainWeight heap cn)) ∧
    (∀ (byteData : GoString) (st : ParseState) (fuel2 : Nat) (r2 : Heap × List Nat),
      byteData.length < 2 ^ 63 →
      parse byteData = some st → mainTrees fuel2 byteData = Run.done r2 →
      WellFormed st.heap st.nodes ∧
      ∀ n ∈ resultNodes r2, ∃ c cn, mapGet st.nodes n.Path = some c ∧
        deref st.heap c = some cn ∧ cn.Path = n.Path ∧ cn.Value = 1 ∧
        n.Value = 1 + cn.Children.length +
          ((cn.Children.map (fanOut st.heap)).sum : Nat)) := by
  refine ⟨GenTree_weights_core fuel startNode allNodes heap r hwf hrange h, ?_⟩
  intro byteData st fuel2 r2 hlen hp hm
  obtain ⟨hwf2, _, hone⟩ := parse_wellFormed hp
  refine ⟨hwf2, fun n hn => ?_⟩
  simp only [mainTrees, hp] at hm
  have hr2 : ∀ cn ∈ st.heap, -2 ^ 63 ≤ cn.Value ∧ cn.Value < 2 ^ 63 := by
    intro cn hcn
    rw [hone cn hcn]
    norm_num
  obtain ⟨c, cn, h1, h2, h3, _, h5⟩ :=
    GenTree_weights_core fuel2 st.startNode st.nodes st.heap r2 hwf2 hr2 hm n hn
  have hv : cn.Value = 1 := hone cn (deref_mem h2)
  have hb := parse_weight_bound hp h2
  have ha := accepted_length byteData
  have hlt : plainWeight st.heap cn < 2 ^ 63 := by
    unfold plainWeight
    rw [hv]
    have h63 : (2 : Nat) ^ 63 = 9223372036854775808 := by norm_num
    have h63i : (2 : Int) ^ 63 = 9223372036854775808 := by norm_num
    rw [h63] at hlen
    rw [h63i]
    omega
  refine ⟨c, cn, h1, h2, h3, hv, ?_⟩
  rw [h5 hlt]
  unfold plainWeight
  rw [hv]

theorem GenTreeNodeByDependency_weights_witness :
    (WellFormed cycHeap cycMap ∧
      (∀ cn ∈ cycHeap, -2 ^ 63 ≤ cn.Value ∧ cn.Value < 2 ^ 63) ∧
      ∃ r, GenTreeNodeByDependency 2 (str "root") cycMap cycHeap = Run.done r ∧
        (resultNodes r).map (fun n => (n.Path, n.Value)) = [(str "A", 3), (str "B", 3)] ∧
        ∀ n ∈ resultNodes r, ∃ c cn, mapGet cycMap n.Path = some c ∧
          deref cycHeap c = some cn ∧ cn.Path = n.Path ∧
          n.Value = expandedValue cycHeap cn ∧
          (plainWeight cycHeap cn < 2 ^ 63 → n.Value = plainWeight cycHeap cn)) ∧
    (chainInput.length < 2 ^ 63 ∧
      ∃ st r2, parse chainInput = some st ∧ mainTrees 3 chainInput = Run.done r2 ∧
        (resultNodes r2).map (fun n => (n.Path, n.Value)) =
          [(str "m/a", 3), (str "m/b", 2), (str "m/c", 1)] ∧
        ∀ n ∈ resultNodes r2, ∃ c cn, mapGet st.nodes n.Path = some c ∧
          deref st.heap c = some cn ∧ cn.Path = n.Path ∧ cn.Value = 1 ∧
          n.Value = 1 + cn.Children.length +
            ((cn.Children.map (fanOut st.heap)).sum : Nat)) :=
  ⟨⟨by decide, by decide, _, rfl, by decide,
    (GenTreeNodeByDependency_weights 2 (str "root") cycMap cycHeap _ (by decide) (by decide)
      rfl).1⟩,
   ⟨by decide, _, _, rfl, mainTrees_chain, by decide,
    ((GenTreeNodeByDependency_weights 2 (str "root") cycMap cycHeap _ (by decide) (by decide)
      rfl).2 chainInput _ 3 _ (by decide) rfl mainTrees_chain).2⟩⟩

/-- C15. On a well-formed map, the paths of the returned records are exactly the paths of
the nodes reachable from the root by one or more edges; the root's own path is among them
exactly when the root lies on a cycle. -/
theorem GenTreeNodeByDependency_reachable (fuel : Nat) (startNode : GoString)
    (allNodes : NodeMap) (heap : Heap) (r : Heap × List Nat)
    (hwf : WellFormed heap allNodes)
    (h : GenTreeNodeByDependency fuel startNode allNodes heap = Run.done r) :
    ∃ root rn, mapGet allNodes startNode = some root ∧ deref heap root = some rn ∧
      (∀ k, k ∈ (resultNodes r).map TreeNode.Path ↔
        ∃ c cn, ReachPlus heap root c ∧ deref heap c = some cn ∧ cn.Path = k) ∧
      (mapGet allNodes rn.Path = some root →
        (rn.Path ∈ (resultNodes r).map TreeNode.Path ↔ ReachPlus heap root root)) := by
  obtain ⟨root, rn, st, hmr, hrn, hm, hq, rfl⟩ := GenTree_main hwf h
  have hpaths : (resultNodes (st.heap, st.visitedNode.map Prod.snd)).map TreeNode.Path
      = keys st.visitedNode := (paths_of_visited st.visitedNode hm.good.vis.2).1
  have htarget : ∀ c, ReachPlus heap root c → Target ⟨heap, allNodes, root⟩ c :=
    fun c hc => reach_target (S := ⟨heap, allNodes, root⟩) hwf hmr hrn hc
  have hcomplete : ∀ c, ReachPlus heap root c → ∀ cn, deref heap c = some cn →
      cn.Path ∈ keys st.visitedNode := by
    intro c hc
    induction hc with
    | child hd hmem =>
      intro cn hcn
      rw [hrn] at hd
      cases hd
      rcases hm.cov _ hmem cn hcn with h1 | ⟨q, hq1, _⟩
      · exact h1
      · rw [hq] at hq1; cases hq1
    | step hreach hd hmem ih =>
      intro dn hdn
      rename_i c d cn
      have hk := ih cn hd
      obtain ⟨q, hkq⟩ : ∃ q, (cn.Path, q) ∈ st.visitedNode := by
        simp only [keys, List.mem_map] at hk
        obtain ⟨e, he, he1⟩ := hk
        exact ⟨e.2, by rw [← he1]; exact he⟩
      have hq0 : q ≠ 0 := by
        have := (hm.w.fresh.vfresh _ hkq).1
        simp only at this
        omega
      obtain ⟨n2, c2, cn2, _, _, ⟨hmap2, hc2, _, _⟩, hrest⟩ := hm.w.vis _ q hkq hq0
      obtain ⟨cn3, hcn3, hmap3, _, _, _⟩ := htarget c hreach
      rw [hd] at hcn3
      cases hcn3
      simp only at hmap3 hmap2 hc2
      rw [hmap3] at hmap2
      cases hmap2
      rw [hd] at hc2
      cases hc2
      rcases hrest with h1 | ⟨_, hclosure⟩
      · rw [hq] at h1; cases h1
      · exact hclosure d hmem dn hdn
  have hiff : ∀ k, k ∈ (resultNodes (st.heap, st.visitedNode.map Prod.snd)).map TreeNode.Path ↔
      ∃ c cn, ReachPlus heap root c ∧ deref heap c = some cn ∧ cn.Path = k := by
    intro k
    rw [hpaths]
    constructor
    · intro hk
      obtain ⟨q, hkq⟩ : ∃ q, (k, q) ∈ st.visitedNode := by
        simp only [keys, List.mem_map] at hk
        obtain ⟨e, he, he1⟩ := hk
        exact ⟨e.2, by rw [← he1]; exact he⟩
      have hq0 : q ≠ 0 := by
        have := (hm.w.fresh.vfresh _ hkq).1
        simp only at this
        omega
      obtain ⟨n2, c2, cn2, _, _, ⟨_, hc2, hp2, hreach⟩, _⟩ := hm.w.vis _ q hkq hq0
      exact ⟨c2, cn2, hreach, hc2, hp2⟩
    · rintro ⟨c, cn, hreach, hcn, rfl⟩
      exact hcomplete c hreach cn hcn
  refine ⟨root, rn, hmr, hrn, hiff, fun hself => ?_⟩
  rw [hiff]
  constructor
  · rintro ⟨c, cn, hreach, hcn, hp⟩
    obtain ⟨cn3, hcn3, hmap3, _⟩ := htarget c hreach
    rw [hcn] at hcn3
    cases hcn3
    simp only at hmap3
    rw [hp, hself] at hmap3
    cases hmap3
    exact hreach
  · intro hreach
    exact ⟨root, rn, hreach, hrn, rfl⟩

theorem GenTreeNodeByDependency_reachable_witness :
    WellFormed cycHeap cycMap ∧
    ∃ r, GenTreeNodeByDependency 2 (str "root") cycMap cycHeap = Run.done r ∧
      (resultNodes r).map TreeNode.Path = [str "A", str "B"] ∧
      ∃ root rn, mapGet cycMap (str "root") = some root ∧ deref cycHeap root = some rn ∧
        (∀ k, k ∈ (resultNodes r).map TreeNode.Path ↔
          ∃ c cn, ReachPlus cycHeap root c ∧ deref cycHeap c = some cn ∧ cn.Path = k) ∧
        (mapGet cycMap rn.Path = some root →
          (rn.Path ∈ (resultNodes r).map TreeNode.Path ↔ ReachPlus cycHeap root root)) :=
  ⟨by decide, _, rfl, by decide,
    GenTreeNodeByDependency_reachable 2 (str "root") cycMap cycHeap _ (by decide) rfl⟩

/-! ## One pass of the inner loop -/

theorem fanOut_step {node : Nat} {st : GenState} {n vn : TreeNode}
    (hn : deref st.heap node = some n) (v : Nat) (hv : deref st.heap v = some vn) :
    ∃ s1 n2 vn2, (if 0 < vn.Children.length then addFanOut node vn.Children.length st
        else some st) = some s1 ∧
      s1.queue = st.queue ∧ s1.heap.length = st.heap.length ∧
      deref s1.heap node = some n2 ∧ n2.Path = n.Path ∧
      n2.Value = (if 0 < vn.Children.length then addInt n.Value vn.Children.length
        else n.Value) ∧
      deref s1.heap v = some vn2 ∧ vn2.Path = vn.Path := by
  by_cases hc : 0 < vn.Children.length
  · rw [if_pos hc, if_pos hc]
    refine ⟨⟨store st.heap node { n with Value := addInt n.Value vn.Children.length }, st.queue, mapSet st.visitedNode n.Path node⟩,
      { n with Value := addInt n.Value vn.Children.length },
      if v = node then { n with Value := addInt n.Value vn.Children.length } else vn, ?_,
      rfl, ?_, ?_, rfl, rfl, ?_, ?_⟩
    · unfold addFanOut
      simp only [hn, update_isSome _ hn]
    · exact length_store _ _ _
    · show deref (store st.heap node _) node = _
      rw [deref_store, if_pos rfl, hn]; rfl
    · show deref (store st.heap node _) v = _
      rw [deref_store]
      by_cases hvn : v = node
      · rw [if_pos hvn, if_pos hvn, hn]; rfl
      · rw [if_neg hvn, if_neg hvn, hv]
    · by_cases hvn : v = node
      · rw [if_pos hvn]
        subst hvn
        rw [hn] at hv
        cases hv
        rfl
      · rw [if_neg hvn]
  · rw [if_neg hc, if_neg hc]
    exact ⟨st, n, vn, rfl, rfl, rfl, hn, rfl, rfl, hv, rfl⟩

/-- C16, as stated, fails: in the cyclic example the target `B` of `A` is not yet in the
visited map when the inner loop reaches it, and its fan-out is added to the weight of `A`
all the same. -/
theorem visitChild_unvisited_counterexample :
    ¬ (∀ (node v : Nat) (st s : GenState) (n vn n2 : TreeNode),
        visitChild node st v = some s → deref st.heap node = some n →
        deref st.heap v = some vn → deref s.heap node = some n2 →
        mapGet st.visitedNode vn.Path = none → n2.Value = n.Value) := by
  intro h
  have := h 4 3 cycInner _ _ _ _ (rfl : visitChild 4 cycInner 3 = some _) rfl rfl rfl rfl
  revert this
  decide

/-- C16, amended. One pass of the inner loop adds the fan-out of the target `v` to the
weight of the dequeued node exactly when `v` has at least one outgoing edge, whether or
not `v` is already in the visited map. The visited flag decides the push alone: a target
that is in the visited map leaves the queue and the heap as they are; for a target that
is not, one new record is made, carrying the path of the target, entered in the visited
map under that path and appended to the queue. -/
theorem visitChild_weight (node v : Nat) (st s : GenState) (n vn : TreeNode)
    (h : visitChild node st v = some s) (hn : deref st.heap node = some n)
    (hv : deref st.heap v = some vn) :
    (∃ n2, deref s.heap node = some n2 ∧
      n2.Value = (if 0 < vn.Children.length then addInt n.Value vn.Children.length
        else n.Value)) ∧
    ((mapGet st.visitedNode vn.Path).isSome = true →
      s.queue = st.queue ∧ s.heap.length = st.heap.length) ∧
    ((mapGet st.visitedNode vn.Path).isSome = false →
      s.queue = st.queue ++ [st.heap.length + 1] ∧
      s.heap.length = st.heap.length + 1 ∧
      (∃ nn, deref s.heap (st.heap.length + 1) = some nn ∧ nn.Path = vn.Path ∧
        nn.Name = ShortName n.Path ∧ nn.Children = []) ∧
      (vn.Path, st.heap.length + 1) ∈ s.visitedNode) := by
  obtain ⟨s1, n2, vn2, h1, hq, hl, hn2, hp2, hval, hv2, hvp⟩ := fanOut_step hn v hv
  unfold visitChild at h
  simp only [hv, h1] at h
  cases hok : (mapGet st.visitedNode vn.Path).isSome with
  | true =>
    simp only [hok, if_true, Option.some.injEq] at h
    subst h
    exact ⟨⟨n2, hn2, hval⟩, fun _ => ⟨hq, hl⟩, fun hf => by cases hf⟩
  | false =>
    simp only [hok, Bool.false_eq_true, if_false] at h
    unfold pushChild at h
    simp only [hv2, hn2, alloc, Option.some.injEq] at h
    subst h
    refine ⟨⟨n2, ?_, hval⟩, fun hf => (by cases hf), fun _ => ⟨?_, ?_,
      ⟨⟨ShortName n2.Path, vn2.Value, vn2.Path, []⟩, ?_, hvp, ?_, rfl⟩, ?_⟩⟩
    · simp only
      rw [deref_append_old _ _ (deref_le_length hn2).2]
      exact hn2
    · simp only [hq, hl]
    · simp only [List.length_append, List.length_singleton, hl]
    · simp only
      rw [← hl]
      exact deref_append_new _ _
    · simp only [hp2]
    · simp only
      rw [hl, hvp]
      exact mem_mapSet_self _ _ _

theorem visitChild_weight_witness :
    ((mapGet cycInner.visitedNode (str "B")).isSome = false ∧
      ((visitChild 4 cycInner 3).map (fun s => (s.queue, (deref s.heap 4).map TreeNode.Value)))
        = some ([5], some 3) ∧
      ((visitChild 4 cycInner 3).getD cycInner).queue = cycInner.queue ++ [5]) ∧
    ((mapGet cycSeen.visitedNode (str "A")).isSome = true ∧
      ((visitChild 5 cycSeen 2).map (fun s => (s.queue, (deref s.heap 5).map TreeNode.Value)))
        = some ([], some 3) ∧
      ((visitChild 5 cycSeen 2).getD cycSeen).queue = cycSeen.queue) :=
  ⟨⟨by decide, by decide,
    ((visitChild_weight 4 3 cycInner _ _ _ (rfl : visitChild 4 cycInner 3 = some _)
      rfl rfl).2.2 (by decide)).1⟩,
   ⟨by decide, by decide,
    ((visitChild_weight 5 2 cycSeen _ _ _ (rfl : visitChild 5 cycSeen 2 = some _)
      rfl rfl).2.1 (by decide)).1⟩⟩

/-! ## The shape of a name -/

theorem pathSplit_cases (name : GoString) :
    (slash ∉ name ∧ pathSplit name = ([], name)) ∨
    ∃ a t, name = a ++ slash :: t ∧ slash ∉ t ∧ pathSplit name = (a ++ [slash], t) := by
  cases hl : LastIndex slash name with
  | none =>
    have hno := LastIndex_none_not_mem hl
    exact Or.inl ⟨hno, pathSplit_of_not_mem hno⟩
  | some i =>
    obtain ⟨a, t, hs, ht, _⟩ := LastIndex_some_split name i hl
    exact Or.inr ⟨a, t, hs, ht, by rw [hs]; exact pathSplit_append_slash a ht⟩

theorem TrimRight_append_slash (l : GoString) : TrimRight (l ++ [slash]) = TrimRight l := by
  unfold TrimRight
  simp

theorem TrimRight_decomp (l : GoString) :
    ∃ j, l = TrimRight l ++ List.replicate j slash ∧
      (TrimRight l = [] ∨ ∃ y c, TrimRight l = y ++ [c] ∧ c ≠ slash) := by
  induction l using List.reverseRecOn with
  | nil => exact ⟨0, by simp [TrimRight], Or.inl (by simp [TrimRight])⟩
  | append_singleton l c ih =>
    by_cases hc : c = slash
    · subst hc
      obtain ⟨j, h1, h2⟩ := ih
      rw [TrimRight_append_slash]
      refine ⟨j + 1, ?_, h2⟩
      rw [List.replicate_succ', ← List.append_assoc, ← h1]
    · have ht : TrimRight (l ++ [c]) = l ++ [c] := by
        simpa using TrimRight_append_slashes l hc 0
      rw [ht]
      exact ⟨0, by simp, Or.inr ⟨l, c, rfl, hc⟩⟩

theorem name_forms (name : GoString) :
    slash ∉ (pathSplit name).2 ∧
    ((∃ pre seg k, seg ≠ [] ∧ slash ∉ seg ∧ (pre = [] ∨ ∃ q, pre = q ++ [slash]) ∧
        name = pre ++ seg ++ List.replicate (k + 1) slash ++ (pathSplit name).2) ∨
      ∃ k, name = List.replicate k slash ++ (pathSplit name).2) := by
  rcases pathSplit_cases name with ⟨hno, hp⟩ | ⟨a, t, hname, ht, hp⟩
  · rw [hp]
    exact ⟨hno, Or.inr ⟨0, by simp⟩⟩
  · rw [hp]
    refine ⟨ht, ?_⟩
    simp only
    obtain ⟨j, ha, hT⟩ := TrimRight_decomp a
    rcases hT with hnil | ⟨y, c, hyc, hc⟩
    · right
      refine ⟨j + 1, ?_⟩
      rw [hname, List.replicate_succ']
      rw [hnil] at ha
      simp only [List.nil_append] at ha
      rw [← ha]
      simp
    · left
      have hne : TrimRight a ≠ [] := by rw [hyc]; simp
      have hform : ∃ pre seg, seg ≠ [] ∧ slash ∉ seg ∧ (pre = [] ∨ ∃ q, pre = q ++ [slash]) ∧
          TrimRight a = pre ++ seg := by
        rcases pathSplit_cases (TrimRight a) with ⟨hno2, _⟩ | ⟨a2, t2, hT2, ht2, _⟩
        · exact ⟨[], TrimRight a, hne, hno2, Or.inl rfl, by simp⟩
        · refine ⟨a2 ++ [slash], t2, ?_, ht2, Or.inr ⟨a2, rfl⟩, by rw [hT2]; simp⟩
          intro ht2nil
          rw [ht2nil, hyc] at hT2
          have := List.append_inj_right' hT2 rfl
          simp only [List.cons.injEq, and_true] at this
          exact hc this
      obtain ⟨pre, seg, h1, h2, h3, h4⟩ := hform
      refine ⟨pre, seg, j, h1, h2, h3, ?_⟩
      rw [hname, List.replicate_succ', ← h4]
      conv_lhs => rw [ha]
      simp

/-- C10, amended. Let `s` be the trailing segment of a name, of length two or fewer. The
name has one of two shapes: `pre ++ seg ++ "/"..."/" ++ s`, with `seg` non-empty and free
of `/` and `pre` empty or ending in `/`, or `"/"..."/" ++ s` with nothing but `/` before
`s`. On the first `ShortName` returns `seg`, the last non-empty segment before `s`, and
this is the text after the last `/` of the name with its trailing `/` trimmed exactly when
`s` is empty or equal to `seg`. On the second it returns `"."`, and this is that text
exactly when `s` is `"."`. -/
theorem ShortName_short_trailing (name : GoString)
    (hlen : (pathSplit name).2.length ≤ 2) :
    slash ∉ (pathSplit name).2 ∧
    ((∃ pre seg k, seg ≠ [] ∧ slash ∉ seg ∧ (pre = [] ∨ ∃ q, pre = q ++ [slash]) ∧
        name = pre ++ seg ++ List.replicate (k + 1) slash ++ (pathSplit name).2) ∨
      ∃ k, name = List.replicate k slash ++ (pathSplit name).2) ∧
    (∀ pre seg k, seg ≠ [] → slash ∉ seg → (pre = [] ∨ ∃ q, pre = q ++ [slash]) →
      name = pre ++ seg ++ List.replicate (k + 1) slash ++ (pathSplit name).2 →
      ShortName name = seg ∧
      (ShortName name = (pathSplit (TrimRight name)).2 ↔
        (pathSplit name).2 = [] ∨ (pathSplit name).2 = seg)) ∧
    (∀ k, name = List.replicate k slash ++ (pathSplit name).2 →
      ShortName name = [46] ∧
      (ShortName name = (pathSplit (TrimRight name)).2 ↔ (pathSplit name).2 = [46])) := by
  obtain ⟨hs, hforms⟩ := name_forms name
  refine ⟨hs, hforms, ?_, ?_⟩
  · intro pre seg k hseg hseg2 hpre hname
    generalize (pathSplit name).2 = s at hs hlen hname ⊢
    subst hname
    have := ShortName_short_forms pre seg s k hs hlen hseg hseg2 hpre
    exact ⟨this.2.1, this.2.2.1⟩
  · intro k hname
    generalize (pathSplit name).2 = s at hs hlen hname ⊢
    subst hname
    have := ShortName_short_forms [] [0] s k hs hlen (by simp) (by decide) (Or.inl rfl)
    exact ⟨this.2.2.2.2.1, this.2.2.2.2.2⟩

theorem ShortName_short_trailing_witness :
    ShortName (str "a/bb/cc") = str "bb" ∧ ShortName (str "a/bb/cc/") = str "cc" ∧
    ShortName (str "github.com/x/yaml//v2") = str "yaml" ∧ ShortName (str "//v2") = str "." ∧
    ShortName (str "bb/bb") = (pathSplit (TrimRight (str "bb/bb"))).2 :=
  ⟨((ShortName_short_trailing (str "a/bb/cc") (by decide)).2.2.1 (str "a/") (str "bb") 0
      (by decide) (by decide) (Or.inr ⟨str "a", rfl⟩) (by decide)).1,
   ((ShortName_short_trailing (str "a/bb/cc/") (by decide)).2.2.1 (str "a/bb/") (str "cc") 0
      (by decide) (by decide) (Or.inr ⟨str "a/bb", rfl⟩) (by decide)).1,
   ((ShortName_short_trailing (str "github.com/x/yaml//v2") (by decide)).2.2.1
      (str "github.com/x/") (str "yaml") 1
      (by decide) (by decide) (Or.inr ⟨str "github.com/x", rfl⟩) (by decide)).1,
   ((ShortName_short_trailing (str "//v2") (by decide)).2.2.2 2 (by decide)).1,
   ((ShortName_short_trailing (str "bb/bb") (by decide)).2.2.1 [] (str "bb") 0
      (by decide) (by decide) (Or.inl rfl) (by decide)).2.mpr (Or.inr (by decide))⟩

end Gopp
